import Mathlib

/-!
# AES-NI CTR core (`src/pyaes/c_aesni/c_aesni.c`)

A shallow embedding of the C translation unit and proofs about it.

Conventions of the embedding

* A byte (`uint8_t`) is a `Nat` below `256`; a byte buffer is a `List Nat`, lowest address first.
* A `uint32_t` is a `Nat` below `2^32`, a `uint64_t` a `Nat` below `2^64`; wrap-around is written
  out with `%` where the C arithmetic can overflow.
* A `__m128i` is a `Nat` below `2^128`: the little-endian integer of its sixteen bytes, so byte `k`
  of the register (memory offset `k` after a store) is `byteOf x k`.
* The arrays `erk[15]`, `drk[15]` of the state are functions from the index to the register
  value; the local array `rk[64]` is a list of 64 words.
* Allocation is seen through `Heap` (how many blocks are allocated) in `aesni_ctr_init`, and
  through the list of addresses of the allocated blocks in `free` and the cleanup functions,
  where a handle is the address of its block and `0` is `NULL`.
* Where a claim is about array bounds, the code is given a second time with every array access
  checked (`expand_key_checked`, `encrypted_counter_checked`) and shown to agree with the
  unchecked embedding.
* The AES-NI instructions are not part of the translation unit; they are given the meaning that
  the Intel instruction-set reference documents for them, in terms of the FIPS-197
  transformations `ShiftRows`, `SubBytes`, `MixColumns`, `InvMixColumns`, `SubWord`, `RotWord`.
-/

namespace c_aesni

/-! ## Bytes and little-endian integers -/

/-- Byte `k` of a little-endian integer: bits `8k .. 8k+7`. -/
def byteOf (x k : Nat) : Nat := (x / 256 ^ k) % 256

/-- The first `n` bytes of a little-endian integer, lowest address first. -/
def toBytes (n x : Nat) : List Nat := (List.range n).map (byteOf x)

/-- The little-endian integer stored in a byte sequence. -/
def ofBytes : List Nat → Nat
  | [] => 0
  | b :: bs => b + 256 * ofBytes bs

/-- Bytewise exclusive-or of two byte sequences. -/
def xorBytes (a b : List Nat) : List Nat := List.zipWith (· ^^^ ·) a b

/-! ## The AES transformations of FIPS-197

The state is the sixteen-byte sequence of FIPS-197 §3.4: the byte in row `r` and column `c` of the
state array is at index `r + 4 * c`. -/

/-- The AES S-box (FIPS-197 Figure 7), row `x` column `y` at index `16 * x + y`. -/
def sboxTable : List Nat :=
  [0x63, 0x7c, 0x77, 0x7b, 0xf2, 0x6b, 0x6f, 0xc5, 0x30, 0x01, 0x67, 0x2b, 0xfe, 0xd7, 0xab, 0x76,
   0xca, 0x82, 0xc9, 0x7d, 0xfa, 0x59, 0x47, 0xf0, 0xad, 0xd4, 0xa2, 0xaf, 0x9c, 0xa4, 0x72, 0xc0,
   0xb7, 0xfd, 0x93, 0x26, 0x36, 0x3f, 0xf7, 0xcc, 0x34, 0xa5, 0xe5, 0xf1, 0x71, 0xd8, 0x31, 0x15,
   0x04, 0xc7, 0x23, 0xc3, 0x18, 0x96, 0x05, 0x9a, 0x07, 0x12, 0x80, 0xe2, 0xeb, 0x27, 0xb2, 0x75,
   0x09, 0x83, 0x2c, 0x1a, 0x1b, 0x6e, 0x5a, 0xa0, 0x52, 0x3b, 0xd6, 0xb3, 0x29, 0xe3, 0x2f, 0x84,
   0x53, 0xd1, 0x00, 0xed, 0x20, 0xfc, 0xb1, 0x5b, 0x6a, 0xcb, 0xbe, 0x39, 0x4a, 0x4c, 0x58, 0xcf,
   0xd0, 0xef, 0xaa, 0xfb, 0x43, 0x4d, 0x33, 0x85, 0x45, 0xf9, 0x02, 0x7f, 0x50, 0x3c, 0x9f, 0xa8,
   0x51, 0xa3, 0x40, 0x8f, 0x92, 0x9d, 0x38, 0xf5, 0xbc, 0xb6, 0xda, 0x21, 0x10, 0xff, 0xf3, 0xd2,
   0xcd, 0x0c, 0x13, 0xec, 0x5f, 0x97, 0x44, 0x17, 0xc4, 0xa7, 0x7e, 0x3d, 0x64, 0x5d, 0x19, 0x73,
   0x60, 0x81, 0x4f, 0xdc, 0x22, 0x2a, 0x90, 0x88, 0x46, 0xee, 0xb8, 0x14, 0xde, 0x5e, 0x0b, 0xdb,
   0xe0, 0x32, 0x3a, 0x0a, 0x49, 0x06, 0x24, 0x5c, 0xc2, 0xd3, 0xac, 0x62, 0x91, 0x95, 0xe4, 0x79,
   0xe7, 0xc8, 0x37, 0x6d, 0x8d, 0xd5, 0x4e, 0xa9, 0x6c, 0x56, 0xf4, 0xea, 0x65, 0x7a, 0xae, 0x08,
   0xba, 0x78, 0x25, 0x2e, 0x1c, 0xa6, 0xb4, 0xc6, 0xe8, 0xdd, 0x74, 0x1f, 0x4b, 0xbd, 0x8b, 0x8a,
   0x70, 0x3e, 0xb5, 0x66, 0x48, 0x03, 0xf6, 0x0e, 0x61, 0x35, 0x57, 0xb9, 0x86, 0xc1, 0x1d, 0x9e,
   0xe1, 0xf8, 0x98, 0x11, 0x69, 0xd9, 0x8e, 0x94, 0x9b, 0x1e, 0x87, 0xe9, 0xce, 0x55, 0x28, 0xdf,
   0x8c, 0xa1, 0x89, 0x0d, 0xbf, 0xe6, 0x42, 0x68, 0x41, 0x99, 0x2d, 0x0f, 0xb0, 0x54, 0xbb, 0x16]

/-- S-box substitution of one byte. -/
def sbox (b : Nat) : Nat := sboxTable.getD b 0

/-- Multiplication by `x` (that is `{02}`) in GF(2^8), FIPS-197 §4.2.1. -/
def xtime (b : Nat) : Nat :=
  if b % 256 < 128 then (2 * b) % 256 else ((2 * b) % 256) ^^^ 0x1b

/-- Multiplication in GF(2^8) of a byte `b` by the constant whose bits are `c`. -/
def gmul : Nat → Nat → Nat → Nat
  | 0, _, _ => 0
  | n + 1, c, b => (if c % 2 = 1 then b else 0) ^^^ gmul n (c / 2) (xtime b)

/-- SubBytes (FIPS-197 §5.1.1): the S-box applied to every byte of the state. -/
def SubBytes (s : List Nat) : List Nat := s.map sbox

/-- ShiftRows (FIPS-197 §5.1.2): row `r` is rotated left by `r` columns,
`s'[r, c] = s[r, (c + r) mod 4]`. -/
def ShiftRows (s : List Nat) : List Nat :=
  (List.range 16).map fun k => s.getD (k % 4 + 4 * ((k / 4 + k % 4) % 4)) 0

/-- MixColumns (FIPS-197 §5.1.3): every column is multiplied by the fixed matrix, row `r` of the
result being `{02}•s[r] ⊕ {03}•s[r+1] ⊕ s[r+2] ⊕ s[r+3]` with the row indices taken mod 4. -/
def MixColumns (s : List Nat) : List Nat :=
  (List.range 16).map fun k =>
    let a := fun j => s.getD (4 * (k / 4) + (k % 4 + j) % 4) 0
    xtime (a 0) ^^^ (xtime (a 1) ^^^ a 1) ^^^ a 2 ^^^ a 3

/-- InvMixColumns (FIPS-197 §5.3.3): row `r` of the result is
`{0e}•s[r] ⊕ {0b}•s[r+1] ⊕ {0d}•s[r+2] ⊕ {09}•s[r+3]` with the row indices taken mod 4. -/
def InvMixColumns (s : List Nat) : List Nat :=
  (List.range 16).map fun k =>
    let a := fun j => s.getD (4 * (k / 4) + (k % 4 + j) % 4) 0
    gmul 4 0x0e (a 0) ^^^ gmul 4 0x0b (a 1) ^^^ gmul 4 0x0d (a 2) ^^^ gmul 4 0x09 (a 3)

/-- SubWord (FIPS-197 §5.2): the S-box applied to each of the four bytes of a word. -/
def SubWord (w : List Nat) : List Nat := w.map sbox

/-- RotWord (FIPS-197 §5.2): `[a0, a1, a2, a3]` becomes `[a1, a2, a3, a0]`. -/
def RotWord (w : List Nat) : List Nat := [w.getD 1 0, w.getD 2 0, w.getD 3 0, w.getD 0 0]

/-! ## The intrinsics used by the translation unit -/

/-- Intrinsic `_mm_xor_si128`: bitwise exclusive-or of two registers. -/
def _mm_xor_si128 (a b : Nat) : Nat := a ^^^ b

/-- Intrinsic `_mm_loadu_si128((__m128i*)(mem + off))`: the sixteen bytes at `mem + off`. -/
def _mm_loadu_si128 (mem : List Nat) (off : Nat) : Nat :=
  ofBytes ((List.range 16).map fun k => mem.getD (off + k) 0)

/-- Intrinsic `_mm_storeu_si128`: the sixteen bytes written to memory. -/
def _mm_storeu_si128 (a : Nat) : List Nat := toBytes 16 a

/-- Intrinsic `_mm_set1_epi32`: the 32-bit value broadcast to all four lanes. -/
def _mm_set1_epi32 (w : Nat) : Nat :=
  let w := w % 2 ^ 32
  w + 2 ^ 32 * w + 2 ^ 64 * w + 2 ^ 96 * w

/-- Intrinsic `_mm_srli_si128`: the register shifted right by `n` bytes, zeros shifted in. -/
def _mm_srli_si128 (a n : Nat) : Nat := if n > 15 then 0 else (a % 2 ^ 128) / 256 ^ n

/-- Intrinsic `_mm_cvtsi128_si32`: the low 32 bits of the register. -/
def _mm_cvtsi128_si32 (a : Nat) : Nat := a % 2 ^ 32

/-- Intrinsic `_mm_aesenc_si128` (AESENC): `ShiftRows`, `SubBytes`, `MixColumns`, then exclusive-or
with the round key. -/
def _mm_aesenc_si128 (a RoundKey : Nat) : Nat :=
  ofBytes (MixColumns (SubBytes (ShiftRows (toBytes 16 a)))) ^^^ RoundKey

/-- Intrinsic `_mm_aesenclast_si128` (AESENCLAST): `ShiftRows`, `SubBytes`, then exclusive-or with
the round key. -/
def _mm_aesenclast_si128 (a RoundKey : Nat) : Nat :=
  ofBytes (SubBytes (ShiftRows (toBytes 16 a))) ^^^ RoundKey

/-- Intrinsic `_mm_aesimc_si128` (AESIMC): `InvMixColumns` of the register. -/
def _mm_aesimc_si128 (a : Nat) : Nat := ofBytes (InvMixColumns (toBytes 16 a))

/-- Intrinsic `_mm_aeskeygenassist_si128` (AESKEYGENASSIST) with `X1 = a[63:32]`, `X3 = a[127:96]`
and `RCON` the zero-extended immediate:
`dst[31:0] = SubWord(X1)`, `dst[63:32] = RotWord(SubWord(X1)) xor RCON`,
`dst[95:64] = SubWord(X3)`, `dst[127:96] = RotWord(SubWord(X3)) xor RCON`. -/
def _mm_aeskeygenassist_si128 (a imm8 : Nat) : Nat :=
  let X1 := toBytes 4 (a / 2 ^ 32)
  let X3 := toBytes 4 (a / 2 ^ 96)
  let RCON := imm8 % 256
  ofBytes (SubWord X1) + 2 ^ 32 * (ofBytes (RotWord (SubWord X1)) ^^^ RCON)
    + 2 ^ 64 * ofBytes (SubWord X3) + 2 ^ 96 * (ofBytes (RotWord (SubWord X3)) ^^^ RCON)

/-! ## The translation unit -/

/-- Constant `BLOCK_SIZE`. -/
def BLOCK_SIZE : Nat := 16

/-- Struct `AESNI_State`: `erk[15]`, `drk[15]` and `rounds`. -/
structure AESNI_State where
  erk : Nat → Nat
  drk : Nat → Nat
  rounds : Nat

/-- Struct `AESNI_CTR_State`: the AES state and the 64-bit counter. -/
structure AESNI_CTR_State where
  aes_state : AESNI_State
  counter : Nat

/-- Assignment `a[i] = v` to an array held as a function of the index. -/
def arr_set (a : Nat → Nat) (i v : Nat) : Nat → Nat := fun j => if j = i then v else a j

/-- Function `sub_rot`: `x` has `w` in every lane; the `switch` selects the round constant of
`idx` (leaving `y` all zero when `idx` is not one of `1..10`); with `subType` set the result is lane
1 of `y`, otherwise lane 0. -/
def sub_rot (w idx subType : Nat) : Nat :=
  let x := _mm_set1_epi32 w
  let y := _mm_set1_epi32 0
  let y := match idx with
    | 1 => _mm_aeskeygenassist_si128 x 0x01
    | 2 => _mm_aeskeygenassist_si128 x 0x02
    | 3 => _mm_aeskeygenassist_si128 x 0x04
    | 4 => _mm_aeskeygenassist_si128 x 0x08
    | 5 => _mm_aeskeygenassist_si128 x 0x10
    | 6 => _mm_aeskeygenassist_si128 x 0x20
    | 7 => _mm_aeskeygenassist_si128 x 0x40
    | 8 => _mm_aeskeygenassist_si128 x 0x80
    | 9 => _mm_aeskeygenassist_si128 x 0x1b
    | 10 => _mm_aeskeygenassist_si128 x 0x36
    | _ => y
  let z := y
  let z := if subType ≠ 0 then _mm_srli_si128 y 4 else z
  _mm_cvtsi128_si32 z

/-- The load `*(uint32_t*)(key + off)` on the little-endian host the intrinsics run on (the
byte-swap branch of the source is compiled only for big-endian hosts). -/
def load_u32 (key : List Nat) (off : Nat) : Nat :=
  ofBytes ((List.range 4).map fun k => key.getD (off + k) 0)

/-- The load `_mm_loadu_si128((__m128i*)&rk[i])` from an array of 32-bit words: the words
`rk[i] .. rk[i+3]` fill lanes 0 to 3. -/
def loadu_words (rk : List Nat) (i : Nat) : Nat :=
  rk.getD i 0 + 2 ^ 32 * rk.getD (i + 1) 0 + 2 ^ 64 * rk.getD (i + 2) 0
    + 2 ^ 96 * rk.getD (i + 3) 0

/-- First loop of `expand_key`: `rk[i] = *(uint32_t*)(key + i*4)` for `i < Nk`. The local array
`rk[4*(14+2)]` starts out as 64 words whose initial contents are never read. -/
def expand_key_load (key : List Nat) (Nk : Nat) : List Nat :=
  (List.range Nk).foldl (fun rk i => rk.set i (load_u32 key (i * 4))) (List.replicate 64 0)

/-- One iteration of the second loop of `expand_key`, at word index `i`. -/
def expand_key_step (Nk : Nat) (rk : List Nat) (i : Nat) : List Nat :=
  let tmp := rk.getD (i - 1) 0
  let tmp :=
    if i % Nk = 0 then sub_rot tmp (i / Nk) 1
    else if i % Nk = 4 ∧ Nk = 8 then sub_rot tmp (i / Nk) 0
    else tmp
  rk.set i (rk.getD (i - Nk) 0 ^^^ tmp)

/-- The local array `rk` of `expand_key` after its first two loops. -/
def expand_key_words (key : List Nat) (Nk Nr : Nat) : List Nat :=
  let tot_words := 4 * (Nr + 1)
  (List.range' Nk (tot_words - Nk)).foldl (expand_key_step Nk) (expand_key_load key Nk)

/-- Function `expand_key`: returns the status code and the arrays `erk`, `drk` it has written
into. The arguments `erk`, `drk` are the arrays as they are on entry. -/
def expand_key (erk drk : Nat → Nat) (key : List Nat) (Nk Nr : Nat) :
    Int × (Nat → Nat) × (Nat → Nat) :=
  let tot_words := 4 * (Nr + 1)
  let rk := expand_key_words key Nk Nr
  let erk := (List.range' 0 ((tot_words + 3) / 4) 4).foldl
    (fun erk i => arr_set erk (i / 4) (loadu_words rk i)) erk
  let drk := arr_set drk 0 (erk Nr)
  let drk := (List.range' 1 (Nr - 1)).foldl
    (fun drk i => arr_set drk i (_mm_aesimc_si128 (erk (Nr - i)))) drk
  let drk := arr_set drk Nr (erk 0)
  (0, erk, drk)

/-- The heap as far as this unit is concerned: the number of blocks currently allocated. -/
structure Heap where
  allocated : Nat
deriving DecidableEq

/-- Function `aesni_ctr_init`. `key_len` is the length of `key`, as the caller passes it.
`mem` is what `malloc(sizeof(AESNI_CTR_State))` returns when it is called: `none` for `NULL`,
`some g` for a fresh block whose indeterminate contents are `g`. The result is the returned pointer
(`none` for `NULL`) and the heap after the call. -/
def aesni_ctr_init (heap : Heap) (mem : Option AESNI_CTR_State) (key : List Nat)
    (initial_counter : Nat) : Option AESNI_CTR_State × Heap :=
  let key_len := key.length
  let Nr : Option Nat :=
    if key_len = 16 then some 10
    else if key_len = 24 then some 12
    else if key_len = 32 then some 14
    else none
  match Nr with
  | none => (none, heap)
  | some Nr =>
    match mem with
    | none => (none, heap)
    | some state =>
      let heap : Heap := { allocated := heap.allocated + 1 }
      let state : AESNI_CTR_State :=
        { state with aes_state := { state.aes_state with rounds := Nr } }
      let state : AESNI_CTR_State := { state with counter := initial_counter }
      let r := expand_key state.aes_state.erk state.aes_state.drk key (key_len / 4) Nr
      if r.1 ≠ 0 then
        (none, { allocated := heap.allocated - 1 })
      else
        (some { state with aes_state := { state.aes_state with erk := r.2.1, drk := r.2.2 } },
          heap)

/-- The counter block of `aesni_ctr_process`: `counter_bytes[16] = {0}`, then for `j = 0 .. 7`
`counter_bytes[15-j] = temp_counter & 0xFF; temp_counter >>= 8`. -/
def counter_bytes (current_counter : Nat) : List Nat :=
  ((List.range 8).foldl
    (fun (p : List Nat × Nat) j => (p.1.set (15 - j) ((p.2 &&& 0xFF) % 256), p.2 >>> 8))
    (List.replicate 16 0, current_counter)).1

/-- The value `encrypted_counter` that one iteration of `aesni_ctr_process` computes from
`current_counter`: the keystream block. -/
def encrypted_counter (aes : AESNI_State) (current_counter : Nat) : Nat :=
  let counter_block := _mm_loadu_si128 (counter_bytes current_counter) 0
  let e := _mm_xor_si128 counter_block (aes.erk 0)
  let e := (List.range' 1 (aes.rounds - 1)).foldl
    (fun e j => _mm_aesenc_si128 e (aes.erk j)) e
  _mm_aesenclast_si128 e (aes.erk aes.rounds)

/-- The `for (i = 0; i < len; i += BLOCK_SIZE)` loop of `aesni_ctr_process`, with the loop
variable `i`, the local `current_counter` and the bytes stored so far at `out[0 .. i)`. The first
argument bounds the number of iterations. Each iteration stores at `out + i`, which is the end of
the bytes stored so far. `len` is the length of a buffer in memory, so `i + BLOCK_SIZE` stays
below `2^64` and the `size_t` arithmetic on `i` does not wrap; `current_counter++` does wrap. -/
def ctr_loop (aes : AESNI_State) (inp : List Nat) (len : Nat) :
    Nat → Nat → Nat → List Nat → List Nat × Nat
  | 0, _, current_counter, out => (out, current_counter)
  | fuel + 1, i, current_counter, out =>
    if i < len then
      let e := encrypted_counter aes current_counter
      let block_size := if i + BLOCK_SIZE ≤ len then BLOCK_SIZE else len - i
      let out :=
        if block_size = BLOCK_SIZE then
          let data_block := _mm_loadu_si128 inp i
          let result := _mm_xor_si128 data_block e
          out ++ _mm_storeu_si128 result
        else
          out ++ (List.range block_size).map fun j => inp.getD (i + j) 0 ^^^ byteOf e j
      ctr_loop aes inp len fuel (i + BLOCK_SIZE) ((current_counter + 1) % 2 ^ 64) out
    else (out, current_counter)

/-- What a call of `aesni_ctr_process` leaves behind: the returned code, the bytes stored through
`out`, and the state. -/
structure ProcessResult where
  ret : Int
  out : List Nat
  state : AESNI_CTR_State

/-- Function `aesni_ctr_process` on the input buffer `inp`, with `len` the length of `inp` as the
caller passes it. The loop runs at most `len` times, since `i` grows by 16 in every iteration. -/
def aesni_ctr_process (state : AESNI_CTR_State) (inp : List Nat) : ProcessResult :=
  let len := inp.length
  let current_counter := state.counter
  let r := ctr_loop state.aes_state inp len len 0 current_counter []
  { ret := 0, out := r.1, state := { state with counter := r.2 } }

/-- The counter after `m` executions of `current_counter++` on a `uint64_t`. -/
def ctr_steps (c m : Nat) : Nat := (fun x => (x + 1) % 2 ^ 64)^[m] c

/-- Byte `k` of the keystream that starts at counter value `c`: byte `k mod 16` of the block
computed from the counter reached after `k / 16` increments. -/
def keystream_byte (aes : AESNI_State) (c k : Nat) : Nat :=
  byteOf (encrypted_counter aes (ctr_steps c (k / 16))) (k % 16)

/-! ## FIPS-197 reference algorithms

Written after the pseudo-code of FIPS-197 (Figure 5 `Cipher`, Figure 11 `KeyExpansion`), on byte
sequences: a word is a sequence of four bytes, the key schedule `w` a sequence of words. -/

/-- Round constant word `Rcon[i]` of FIPS-197 §5.2: `[x^(i-1), 0, 0, 0]` with the power of `x`
taken in GF(2^8). -/
def fips_Rcon (i : Nat) : List Nat := [xtime^[i - 1] 1, 0, 0, 0]

/-- One iteration of the `while (i < Nb * (Nr + 1))` loop of `KeyExpansion`. -/
def fips_KeyExpansion_step (Nk : Nat) (w : List (List Nat)) (i : Nat) : List (List Nat) :=
  let temp := w.getD (i - 1) []
  let temp :=
    if i % Nk = 0 then xorBytes (SubWord (RotWord temp)) (fips_Rcon (i / Nk))
    else if Nk > 6 ∧ i % Nk = 4 then SubWord temp
    else temp
  w ++ [xorBytes (w.getD (i - Nk) []) temp]

/-- The key schedule `w[0 .. Nb*(Nr+1) - 1]` of FIPS-197 `KeyExpansion(key, w, Nk)`, `Nb = 4`. -/
def fips_KeyExpansion (key : List Nat) (Nk Nr : Nat) : List (List Nat) :=
  let w := (List.range Nk).map fun i =>
    [key.getD (4 * i) 0, key.getD (4 * i + 1) 0, key.getD (4 * i + 2) 0, key.getD (4 * i + 3) 0]
  (List.range' Nk (4 * (Nr + 1) - Nk)).foldl (fips_KeyExpansion_step Nk) w

/-- The round key `w[4*round .. 4*round + 3]`, laid out as a state: word `c` is column `c`. -/
def fips_RoundKey (w : List (List Nat)) (round : Nat) : List Nat :=
  w.getD (4 * round) [] ++ w.getD (4 * round + 1) [] ++ w.getD (4 * round + 2) []
    ++ w.getD (4 * round + 3) []

/-- AddRoundKey (FIPS-197 §5.1.4). -/
def fips_AddRoundKey (state : List Nat) (w : List (List Nat)) (round : Nat) : List Nat :=
  xorBytes state (fips_RoundKey w round)

/-- The forward cipher `Cipher(in, out, w)` of FIPS-197 Figure 5 with `Nr` rounds. -/
def fips_Cipher (inp : List Nat) (w : List (List Nat)) (Nr : Nat) : List Nat :=
  let state := inp
  let state := fips_AddRoundKey state w 0
  let state := (List.range' 1 (Nr - 1)).foldl
    (fun state round => fips_AddRoundKey (MixColumns (ShiftRows (SubBytes state))) w round) state
  let state := SubBytes state
  let state := ShiftRows state
  fips_AddRoundKey state w Nr

/-- The AES-128 key of NIST SP 800-38A Appendix F: `2b7e151628aed2a6abf7158809cf4f3c`. -/
def nist_key : List Nat :=
  [0x2b, 0x7e, 0x15, 0x16, 0x28, 0xae, 0xd2, 0xa6, 0xab, 0xf7, 0x15, 0x88, 0x09, 0xcf, 0x4f, 0x3c]

/-- The first plaintext block of NIST SP 800-38A Appendix F:
`6bc1bee22e409f96e93d7e117393172a`. -/
def nist_plaintext : List Nat :=
  [0x6b, 0xc1, 0xbe, 0xe2, 0x2e, 0x40, 0x9f, 0x96, 0xe9, 0x3d, 0x7e, 0x11, 0x73, 0x93, 0x17, 0x2a]

/-- The first ciphertext block of NIST SP 800-38A F.5.1 (CTR-AES128.Encrypt):
`874d6191b620e3261bef6864990db6ce`. -/
def nist_ciphertext : List Nat :=
  [0x87, 0x4d, 0x61, 0x91, 0xb6, 0x20, 0xe3, 0x26, 0x1b, 0xef, 0x68, 0x64, 0x99, 0x0d, 0xb6, 0xce]

/-- The initial counter block of NIST SP 800-38A F.5.1: `f0f1f2f3f4f5f6f7f8f9fafbfcfdfeff`. -/
def nist_counter_block : List Nat :=
  [0xf0, 0xf1, 0xf2, 0xf3, 0xf4, 0xf5, 0xf6, 0xf7, 0xf8, 0xf9, 0xfa, 0xfb, 0xfc, 0xfd, 0xfe, 0xff]

/-- The first `n` words of the local array `rk` of `expand_key` hold the first `n` words of a
FIPS-197 key schedule `w`: `w` has `n` words of four bytes each, and `rk[j]` is the
little-endian integer of `w[j]` for `j < n`. -/
def words_agree (rk : List Nat) (w : List (List Nat)) (n : Nat) : Prop :=
  rk.length = 64 ∧ w.length = n ∧
    ∀ j, j < n → ∃ a b c d, a < 256 ∧ b < 256 ∧ c < 256 ∧ d < 256 ∧
      w.getD j [] = [a, b, c, d] ∧ rk.getD j 0 = ofBytes [a, b, c, d]

/-- The three parameter pairs `(Nk, Nr)` that `aesni_ctr_init` passes to `expand_key`. -/
def valid_config (Nk Nr : Nat) : Prop :=
  (Nk = 4 ∧ Nr = 10) ∨ (Nk = 6 ∧ Nr = 12) ∨ (Nk = 8 ∧ Nr = 14)

/-- Word `i` of the round-key array `erk` read as a sequence of four-byte words: bytes
`4 * (i mod 4) .. 4 * (i mod 4) + 3` of the register `erk[i / 4]`. -/
def erk_word (erk : Nat → Nat) (i : Nat) : List Nat :=
  ((_mm_storeu_si128 (erk (i / 4))).drop (4 * (i % 4))).take 4

/-- The word `t` that FIPS-197 `KeyExpansion` combines with `w[i - Nk]` to give `w[i]`. -/
def fips_temp (Nk : Nat) (w : List (List Nat)) (i : Nat) : List Nat :=
  if i % Nk = 0 then xorBytes (SubWord (RotWord (w.getD (i - 1) []))) (fips_Rcon (i / Nk))
  else if Nk = 8 ∧ i % Nk = 4 then SubWord (w.getD (i - 1) [])
  else w.getD (i - 1) []

/-- A 32-bit value rotated left by one byte: `(w << 8) | (w >> 24)`. -/
def rotl8 (w : Nat) : Nat := (w * 256) % 2 ^ 32 + (w % 2 ^ 32) / 2 ^ 24

/-- A 32-bit value rotated right by one byte: `(w >> 8) | (w << 24)`. In memory order on the
little-endian host the four bytes `[a0, a1, a2, a3]` of the value become `[a1, a2, a3, a0]`. -/
def rotr8 (w : Nat) : Nat := (w % 2 ^ 32) / 256 + (w % 256) * 2 ^ 24

/-- S-box substitution of all four bytes of a 32-bit value. -/
def sub_word32 (w : Nat) : Nat := ofBytes (SubWord (toBytes 4 w))

/-- The round constant of round `idx`: `x^(idx-1)` in GF(2^8), that is `01, 02, 04, 08, 10, 20,
40, 80, 1b, 36` for `idx = 1 .. 10`. -/
def round_constant (idx : Nat) : Nat := xtime^[idx - 1] 1

/-- The value `tmp` as Claim C14 words it, on the 32-bit value `w` loaded from four key bytes:
rotate left by one byte, substitute all four bytes, then exclusive-or the round constant into the
most significant byte. -/
def spec_tmp (w idx : Nat) : Nat := sub_word32 (rotl8 w) ^^^ (round_constant idx * 2 ^ 24)

/-- The inverse S-box (FIPS-197 Figure 14), row `x` column `y` at index `16 * x + y`. -/
def inv_sboxTable : List Nat :=
  [0x52, 0x09, 0x6a, 0xd5, 0x30, 0x36, 0xa5, 0x38, 0xbf, 0x40, 0xa3, 0x9e, 0x81, 0xf3, 0xd7, 0xfb,
   0x7c, 0xe3, 0x39, 0x82, 0x9b, 0x2f, 0xff, 0x87, 0x34, 0x8e, 0x43, 0x44, 0xc4, 0xde, 0xe9, 0xcb,
   0x54, 0x7b, 0x94, 0x32, 0xa6, 0xc2, 0x23, 0x3d, 0xee, 0x4c, 0x95, 0x0b, 0x42, 0xfa, 0xc3, 0x4e,
   0x08, 0x2e, 0xa1, 0x66, 0x28, 0xd9, 0x24, 0xb2, 0x76, 0x5b, 0xa2, 0x49, 0x6d, 0x8b, 0xd1, 0x25,
   0x72, 0xf8, 0xf6, 0x64, 0x86, 0x68, 0x98, 0x16, 0xd4, 0xa4, 0x5c, 0xcc, 0x5d, 0x65, 0xb6, 0x92,
   0x6c, 0x70, 0x48, 0x50, 0xfd, 0xed, 0xb9, 0xda, 0x5e, 0x15, 0x46, 0x57, 0xa7, 0x8d, 0x9d, 0x84,
   0x90, 0xd8, 0xab, 0x00, 0x8c, 0xbc, 0xd3, 0x0a, 0xf7, 0xe4, 0x58, 0x05, 0xb8, 0xb3, 0x45, 0x06,
   0xd0, 0x2c, 0x1e, 0x8f, 0xca, 0x3f, 0x0f, 0x02, 0xc1, 0xaf, 0xbd, 0x03, 0x01, 0x13, 0x8a, 0x6b,
   0x3a, 0x91, 0x11, 0x41, 0x4f, 0x67, 0xdc, 0xea, 0x97, 0xf2, 0xcf, 0xce, 0xf0, 0xb4, 0xe6, 0x73,
   0x96, 0xac, 0x74, 0x22, 0xe7, 0xad, 0x35, 0x85, 0xe2, 0xf9, 0x37, 0xe8, 0x1c, 0x75, 0xdf, 0x6e,
   0x47, 0xf1, 0x1a, 0x71, 0x1d, 0x29, 0xc5, 0x89, 0x6f, 0xb7, 0x62, 0x0e, 0xaa, 0x18, 0xbe, 0x1b,
   0xfc, 0x56, 0x3e, 0x4b, 0xc6, 0xd2, 0x79, 0x20, 0x9a, 0xdb, 0xc0, 0xfe, 0x78, 0xcd, 0x5a, 0xf4,
   0x1f, 0xdd, 0xa8, 0x33, 0x88, 0x07, 0xc7, 0x31, 0xb1, 0x12, 0x10, 0x59, 0x27, 0x80, 0xec, 0x5f,
   0x60, 0x51, 0x7f, 0xa9, 0x19, 0xb5, 0x4a, 0x0d, 0x2d, 0xe5, 0x7a, 0x9f, 0x93, 0xc9, 0x9c, 0xef,
   0xa0, 0xe0, 0x3b, 0x4d, 0xae, 0x2a, 0xf5, 0xb0, 0xc8, 0xeb, 0xbb, 0x3c, 0x83, 0x53, 0x99, 0x61,
   0x17, 0x2b, 0x04, 0x7e, 0xba, 0x77, 0xd6, 0x26, 0xe1, 0x69, 0x14, 0x63, 0x55, 0x21, 0x0c, 0x7d]

/-- Inverse S-box substitution of one byte. -/
def inv_sbox (b : Nat) : Nat := inv_sboxTable.getD b 0

/-- The `switch (idx)` of `sub_rot`: the immediate passed to `_mm_aeskeygenassist_si128` in the
case selected by `idx`, `none` when no case is selected and `y` keeps its all-zero value. -/
def sub_rot_case (idx : Nat) : Option Nat :=
  match idx with
  | 1 => some 0x01
  | 2 => some 0x02
  | 3 => some 0x04
  | 4 => some 0x08
  | 5 => some 0x10
  | 6 => some 0x20
  | 7 => some 0x40
  | 8 => some 0x80
  | 9 => some 0x1b
  | 10 => some 0x36
  | _ => none

/-- The call of `sub_rot` made by the iteration at word index `i` of the second loop of
`expand_key`: its arguments `(idx, subType)`, or `none` when the iteration makes no call. -/
def sub_rot_call (Nk i : Nat) : Option (Nat × Nat) :=
  if i % Nk = 0 then some (i / Nk, 1)
  else if i % Nk = 4 ∧ Nk = 8 then some (i / Nk, 0)
  else none

/-- The calls of `sub_rot` made by `expand_key`, in loop order. -/
def sub_rot_calls (Nk Nr : Nat) : List (Nat × Nat) :=
  (List.range' Nk (4 * (Nr + 1) - Nk)).filterMap (sub_rot_call Nk)

/-- Read of element `i` of an array of `n` elements held as a list; the index is an integer, so
that an unsigned index expression that would wrap shows as negative. `none` when the access is
out of bounds. -/
def checked_read (n : Nat) (a : List Nat) (i : Int) : Option Nat :=
  if 0 ≤ i ∧ i < n then some (a.getD i.toNat 0) else none

/-- Write of element `i` of an array of `n` elements held as a list; `none` when out of bounds. -/
def checked_write (n : Nat) (a : List Nat) (i : Int) (v : Nat) : Option (List Nat) :=
  if 0 ≤ i ∧ i < n then some (a.set i.toNat v) else none

/-- Read of element `i` of an array of `n` registers held as a function of the index; `none`
when out of bounds. -/
def checked_get (n : Nat) (a : Nat → Nat) (i : Int) : Option Nat :=
  if 0 ≤ i ∧ i < n then some (a i.toNat) else none

/-- Write of element `i` of an array of `n` registers held as a function of the index; `none`
when out of bounds. -/
def checked_set (n : Nat) (a : Nat → Nat) (i : Int) (v : Nat) : Option (Nat → Nat) :=
  if 0 ≤ i ∧ i < n then some (arr_set a i.toNat v) else none

/-- The load `*(uint32_t*)(key + off)` with the four bytes required to lie inside the key. -/
def load_u32_checked (key : List Nat) (off : Nat) : Option Nat :=
  if off + 4 ≤ key.length then some (load_u32 key off) else none

/-- The load `_mm_loadu_si128((__m128i*)&rk[i])` with the four words `rk[i] .. rk[i+3]`
required to lie inside `rk[64]`. -/
def loadu_words_checked (rk : List Nat) (i : Nat) : Option Nat := do
  let w0 ← checked_read 64 rk (i : Int)
  let w1 ← checked_read 64 rk ((i : Int) + 1)
  let w2 ← checked_read 64 rk ((i : Int) + 2)
  let w3 ← checked_read 64 rk ((i : Int) + 3)
  pure (w0 + 2 ^ 32 * w1 + 2 ^ 64 * w2 + 2 ^ 96 * w3)

/-- One iteration of the second loop of `expand_key` with every access to `rk[64]` checked. -/
def expand_key_step_checked (Nk : Nat) (rk : List Nat) (i : Nat) : Option (List Nat) := do
  let tmp ← checked_read 64 rk ((i : Int) - 1)
  let tmp :=
    if i % Nk = 0 then sub_rot tmp (i / Nk) 1
    else if i % Nk = 4 ∧ Nk = 8 then sub_rot tmp (i / Nk) 0
    else tmp
  let old ← checked_read 64 rk ((i : Int) - Nk)
  checked_write 64 rk (i : Int) (old ^^^ tmp)

/-- Function `expand_key` with every array access checked against the declared sizes: `rk[64]`,
`erk[15]`, `drk[15]` and the `4 * Nk` bytes of the key. The result is `none` as soon as one
access is out of bounds. -/
def expand_key_checked (erk drk : Nat → Nat) (key : List Nat) (Nk Nr : Nat) :
    Option (Int × (Nat → Nat) × (Nat → Nat)) := do
  let tot_words := 4 * (Nr + 1)
  let rk ← (List.range Nk).foldlM
    (fun (rk : List Nat) (i : Nat) => do
      let v ← load_u32_checked key (i * 4)
      checked_write 64 rk (i : Int) v) (List.replicate 64 0)
  let rk ← (List.range' Nk (tot_words - Nk)).foldlM (expand_key_step_checked Nk) rk
  let erk ← (List.range' 0 ((tot_words + 3) / 4) 4).foldlM
    (fun (erk : Nat → Nat) (i : Nat) => do
      let v ← loadu_words_checked rk i
      checked_set 15 erk ((i / 4 : Nat) : Int) v) erk
  let v ← checked_get 15 erk (Nr : Int)
  let drk ← checked_set 15 drk 0 v
  let drk ← (List.range' 1 (Nr - 1)).foldlM
    (fun (drk : Nat → Nat) (i : Nat) => do
      let v ← checked_get 15 erk ((Nr : Int) - (i : Int))
      checked_set 15 drk (i : Int) (_mm_aesimc_si128 v)) drk
  let v ← checked_get 15 erk 0
  let drk ← checked_set 15 drk (Nr : Int) v
  pure (0, erk, drk)

/-- The computation of `encrypted_counter` in `aesni_ctr_process` with every access to
`erk[15]` checked. -/
def encrypted_counter_checked (aes : AESNI_State) (current_counter : Nat) : Option Nat := do
  let counter_block := _mm_loadu_si128 (counter_bytes current_counter) 0
  let k0 ← checked_get 15 aes.erk 0
  let e := _mm_xor_si128 counter_block k0
  let e ← (List.range' 1 (aes.rounds - 1)).foldlM
    (fun (e : Nat) (j : Nat) => do
      let kj ← checked_get 15 aes.erk (j : Int)
      pure (_mm_aesenc_si128 e kj)) e
  let kN ← checked_get 15 aes.erk (aes.rounds : Int)
  pure (_mm_aesenclast_si128 e kN)

/-- C library `free(p)` on the set `live` of addresses of allocated blocks (`0` is `NULL`):
nothing happens for `NULL`, an allocated block is released, and for any other pointer, such as
one that has already been freed, the behaviour is undefined, which is `none` here. -/
def free (live : List Nat) (p : Nat) : Option (List Nat) :=
  if p = 0 then some live
  else if p ∈ live then some (live.erase p)
  else none

/-- Function `aesni_ctr_cleanup` on the pointer `state`: `if (state) free(state);`. -/
def aesni_ctr_cleanup (live : List Nat) (state : Nat) : Option (List Nat) :=
  if state ≠ 0 then free live state else some live

/-- Function `py_aesni_ctr_cleanup` on a handle, the integer that `py_aesni_ctr_init` returned
through `PyLong_FromVoidPtr`: `state = PyLong_AsVoidPtr(state_obj)`, then
`if (state) aesni_ctr_cleanup(state);`. -/
def py_aesni_ctr_cleanup (live : List Nat) (state_obj : Nat) : Option (List Nat) :=
  let state := state_obj
  if state ≠ 0 then aesni_ctr_cleanup live state else some live

/-- A block of memory holding zeros, used as sample contents of a fresh allocation. -/
def blank_state : AESNI_CTR_State :=
  { aes_state := { erk := fun _ => 0, drk := fun _ => 0, rounds := 0 }, counter := 0 }

/-! ## Basic facts about the loop of `aesni_ctr_process` -/

theorem ctr_steps_succ (c m : Nat) : ctr_steps c (m + 1) = ctr_steps ((c + 1) % 2 ^ 64) m := by
  simp [ctr_steps, Function.iterate_succ_apply]

theorem ctr_steps_eq (c m : Nat) (hc : c < 2 ^ 64) : ctr_steps c m = (c + m) % 2 ^ 64 := by
  induction m generalizing c with
  | zero => simp [ctr_steps]; omega
  | succ m ih =>
    rw [ctr_steps_succ, ih _ (Nat.mod_lt _ (by norm_num))]
    omega

theorem ctr_steps_add (c m n : Nat) : ctr_steps c (m + n) = ctr_steps (ctr_steps c m) n := by
  simp [ctr_steps, Nat.add_comm m n, Function.iterate_add_apply]

theorem length_toBytes (n x : Nat) : (toBytes n x).length = n := by
  simp [toBytes]

theorem ctr_loop_length_counter (aes : AESNI_State) (inp : List Nat) (len : Nat) :
    ∀ (fuel i cc : Nat) (out : List Nat), len - i ≤ 16 * fuel →
      (ctr_loop aes inp len fuel i cc out).1.length = out.length + (len - i) ∧
      (ctr_loop aes inp len fuel i cc out).2 = ctr_steps cc ((len - i + 15) / 16) := by
  intro fuel
  induction fuel with
  | zero =>
    intro i cc out h
    have h0 : len - i = 0 := by omega
    simp [ctr_loop, h0, ctr_steps]
  | succ fuel ih =>
    intro i cc out h
    by_cases hi : i < len
    · by_cases hfull : i + 16 ≤ len
      · have hstep := ih (i + 16) ((cc + 1) % 2 ^ 64)
          (out ++ _mm_storeu_si128 (_mm_xor_si128 (_mm_loadu_si128 inp i)
            (encrypted_counter aes cc))) (by omega)
        have hk : (len - i + 15) / 16 = (len - (i + 16) + 15) / 16 + 1 := by omega
        simp only [ctr_loop, hi, hfull, BLOCK_SIZE, if_true]
        rw [hk, ctr_steps_succ]
        refine ⟨?_, hstep.2⟩
        rw [hstep.1]
        simp [_mm_storeu_si128, length_toBytes]
        omega
      · have hne : ¬ (len - i = 16) := by omega
        have hstep := ih (i + 16) ((cc + 1) % 2 ^ 64)
          (out ++ (List.range (len - i)).map
            fun j => inp.getD (i + j) 0 ^^^ byteOf (encrypted_counter aes cc) j) (by omega)
        have hk : (len - i + 15) / 16 = (len - (i + 16) + 15) / 16 + 1 := by omega
        simp only [ctr_loop, hi, hfull, hne, BLOCK_SIZE, if_true, if_false]
        rw [hk, ctr_steps_succ]
        refine ⟨?_, hstep.2⟩
        rw [hstep.1]
        simp
        omega
    · have h0 : len - i = 0 := by omega
      simp [ctr_loop, hi, h0, ctr_steps]


/-! ## Counter advance, length preservation, failure atomicity -/

/-- Claim C3. For a state whose counter `c` is a `uint64_t` and an input of `n` bytes, the counter
after `aesni_ctr_process` is `(c + ceil(n/16)) mod 2^64`, with `ceil(n/16) = (n + 15) / 16`; an
input of 1 to 16 bytes (a lone block, full or not) advances the counter by one; and from
`2^64 - 1` that one step wraps to `0`. -/
theorem counter_advance (state : AESNI_CTR_State) (inp : List Nat)
    (hc : state.counter < 2 ^ 64) :
    (aesni_ctr_process state inp).state.counter
        = (state.counter + (inp.length + 15) / 16) % 2 ^ 64 ∧
      (0 < inp.length → inp.length ≤ 16 →
        (aesni_ctr_process state inp).state.counter = (state.counter + 1) % 2 ^ 64) ∧
      (0 < inp.length → inp.length ≤ 16 → state.counter = 2 ^ 64 - 1 →
        (aesni_ctr_process state inp).state.counter = 0) := by
  have h := (ctr_loop_length_counter state.aes_state inp inp.length inp.length 0
    state.counter [] (by omega)).2
  have main : (aesni_ctr_process state inp).state.counter
      = (state.counter + (inp.length + 15) / 16) % 2 ^ 64 := by
    simp only [aesni_ctr_process]
    rw [h, ctr_steps_eq _ _ hc]
    simp
  refine ⟨main, ?_, ?_⟩
  · intro h0 h16
    rw [main]
    have : (inp.length + 15) / 16 = 1 := by omega
    rw [this]
  · intro h0 h16 hmax
    rw [main]
    have : (inp.length + 15) / 16 = 1 := by omega
    rw [this, hmax]
    norm_num

/-- Witness for C3: a state with counter `2^64 - 1` and a three-byte input. -/
theorem counter_advance_witness :
    (aesni_ctr_process { blank_state with counter := 2 ^ 64 - 1 } [1, 2, 3]).state.counter
        = (2 ^ 64 - 1 + ([1, 2, 3].length + 15) / 16) % 2 ^ 64 ∧
      (aesni_ctr_process { blank_state with counter := 2 ^ 64 - 1 } [1, 2, 3]).state.counter
        = 0 :=
  ⟨(counter_advance { blank_state with counter := 2 ^ 64 - 1 } [1, 2, 3] (by norm_num)).1,
   (counter_advance { blank_state with counter := 2 ^ 64 - 1 } [1, 2, 3] (by norm_num)).2.2
      (by decide) (by decide) rfl⟩

/-- Claim C9. `aesni_ctr_process` stores exactly as many bytes as the input has; on the empty
input it stores nothing and leaves the whole state, the counter included, as it was. -/
theorem length_preservation (state : AESNI_CTR_State) (x : List Nat) :
    (aesni_ctr_process state x).out.length = x.length ∧
      (aesni_ctr_process state []).out = [] ∧
      (aesni_ctr_process state []).state = state ∧
      (aesni_ctr_process state []).state.counter = state.counter := by
  have h := (ctr_loop_length_counter state.aes_state x x.length x.length 0
    state.counter [] (by omega)).1
  refine ⟨?_, rfl, rfl, rfl⟩
  simp only [aesni_ctr_process]
  rw [h]
  simp

/-- Claim C10. `aesni_ctr_process` has a single `return`, which returns `0`: no call reports
failure. So in every call either the code returned is `0` or the counter is as before the call,
which is the statement that a non-zero code leaves the counter unchanged. -/
theorem failure_atomicity (state : AESNI_CTR_State) (inp : List Nat) :
    (aesni_ctr_process state inp).ret = 0 ∧
      ((aesni_ctr_process state inp).ret = 0 ∨
        (aesni_ctr_process state inp).state.counter = state.counter) :=
  ⟨rfl, Or.inl rfl⟩

/-! ## Construction -/

/-- With a key of valid length and a successful `malloc`, `aesni_ctr_init` returns the block with
`rounds`, `counter` and the two key arrays filled in. -/
theorem aesni_ctr_init_ok (heap : Heap) (g : AESNI_CTR_State) (key : List Nat)
    (initial_counter Nk Nr : Nat)
    (h : (key.length = 16 ∧ Nk = 4 ∧ Nr = 10) ∨ (key.length = 24 ∧ Nk = 6 ∧ Nr = 12) ∨
      (key.length = 32 ∧ Nk = 8 ∧ Nr = 14)) :
    aesni_ctr_init heap (some g) key initial_counter
      = (some
          { aes_state :=
              { erk := (expand_key g.aes_state.erk g.aes_state.drk key Nk Nr).2.1
                drk := (expand_key g.aes_state.erk g.aes_state.drk key Nk Nr).2.2
                rounds := Nr }
            counter := initial_counter },
         ⟨heap.allocated + 1⟩) := by
  rcases h with ⟨hl, rfl, rfl⟩ | ⟨hl, rfl, rfl⟩ | ⟨hl, rfl, rfl⟩ <;>
    simp [aesni_ctr_init, hl, expand_key]

/-- Claim C7. With a key whose length is not 16, 24 or 32, `aesni_ctr_init` returns `NULL`
whatever `malloc` would have returned, and the heap is as before: nothing was allocated and no
state exists that could have been expanded into. With a key of 16, 24 or 32 bytes and a successful
`malloc` it returns a state. -/
theorem key_validation (heap : Heap) (mem : Option AESNI_CTR_State) (g : AESNI_CTR_State)
    (key : List Nat) (initial_counter : Nat) :
    (key.length ≠ 16 → key.length ≠ 24 → key.length ≠ 32 →
        aesni_ctr_init heap mem key initial_counter = (none, heap)) ∧
      (key.length = 16 ∨ key.length = 24 ∨ key.length = 32 →
        (aesni_ctr_init heap (some g) key initial_counter).1.isSome = true) := by
  constructor
  · intro h16 h24 h32
    simp [aesni_ctr_init, h16, h24, h32]
  · intro h
    rcases h with h | h | h <;> simp [aesni_ctr_init, h, expand_key]

/-- Witness for C7: keys of 0, 15, 17 and 33 bytes are refused with the heap untouched, a key of
16 bytes is accepted. -/
theorem key_validation_witness :
    aesni_ctr_init ⟨0⟩ (some blank_state) [] 0 = (none, ⟨0⟩) ∧
      aesni_ctr_init ⟨0⟩ (some blank_state) (List.replicate 15 0) 0 = (none, ⟨0⟩) ∧
      aesni_ctr_init ⟨0⟩ (some blank_state) (List.replicate 17 0) 0 = (none, ⟨0⟩) ∧
      aesni_ctr_init ⟨0⟩ (some blank_state) (List.replicate 33 0) 0 = (none, ⟨0⟩) ∧
      (aesni_ctr_init ⟨0⟩ (some blank_state) (List.replicate 16 0) 0).1.isSome = true :=
  ⟨(key_validation ⟨0⟩ (some blank_state) blank_state [] 0).1
      (by decide) (by decide) (by decide),
   (key_validation ⟨0⟩ (some blank_state) blank_state (List.replicate 15 0) 0).1
      (by decide) (by decide) (by decide),
   (key_validation ⟨0⟩ (some blank_state) blank_state (List.replicate 17 0) 0).1
      (by decide) (by decide) (by decide),
   (key_validation ⟨0⟩ (some blank_state) blank_state (List.replicate 33 0) 0).1
      (by decide) (by decide) (by decide),
   (key_validation ⟨0⟩ (some blank_state) blank_state (List.replicate 16 0) 0).2
      (Or.inl (by decide))⟩

/-- Claim C8. With a successful `malloc` (fresh block `g`) and a key of 16, 24 or 32 bytes,
`aesni_ctr_init` returns a state whose `rounds` is 10, 12 or 14, whose `erk` and `drk` are what
`expand_key` writes with `Nk` 4, 6 or 8 (and that `Nr`), and whose counter is the initial
counter; one block has been allocated. -/
theorem init_success (heap : Heap) (g : AESNI_CTR_State) (key : List Nat)
    (initial_counter Nk Nr : Nat)
    (h : (key.length = 16 ∧ Nk = 4 ∧ Nr = 10) ∨ (key.length = 24 ∧ Nk = 6 ∧ Nr = 12) ∨
      (key.length = 32 ∧ Nk = 8 ∧ Nr = 14)) :
    ∃ state, aesni_ctr_init heap (some g) key initial_counter
          = (some state, ⟨heap.allocated + 1⟩) ∧
      state.aes_state.rounds = Nr ∧
      state.aes_state.erk = (expand_key g.aes_state.erk g.aes_state.drk key Nk Nr).2.1 ∧
      state.aes_state.drk = (expand_key g.aes_state.erk g.aes_state.drk key Nk Nr).2.2 ∧
      state.counter = initial_counter := by
  refine ⟨_, aesni_ctr_init_ok heap g key initial_counter Nk Nr h, rfl, rfl, rfl, rfl⟩

/-- Witness for C8: a 24-byte key, initial counter 7. -/
theorem init_success_witness :
    ∃ state, aesni_ctr_init ⟨0⟩ (some blank_state) (List.replicate 24 0) 7
          = (some state, ⟨0 + 1⟩) ∧
      state.aes_state.rounds = 12 ∧
      state.aes_state.erk = (expand_key blank_state.aes_state.erk blank_state.aes_state.drk
        (List.replicate 24 0) 6 12).2.1 ∧
      state.aes_state.drk = (expand_key blank_state.aes_state.erk blank_state.aes_state.drk
        (List.replicate 24 0) 6 12).2.2 ∧
      state.counter = 7 :=
  init_success ⟨0⟩ blank_state (List.replicate 24 0) 7 6 12
    (Or.inr (Or.inl ⟨by decide, rfl, rfl⟩))


/-! ## Bytes of little-endian integers -/

theorem byteOf_lt (x k : Nat) : byteOf x k < 256 := Nat.mod_lt _ (by norm_num)

theorem byteOf_eq_shift (x k : Nat) : byteOf x k = (x >>> (8 * k)) % 2 ^ 8 := by
  simp [byteOf, Nat.shiftRight_eq_div_pow, Nat.pow_mul]

theorem testBit_byteOf (x k j : Nat) :
    (byteOf x k).testBit j = (decide (j < 8) && x.testBit (8 * k + j)) := by
  rw [byteOf_eq_shift, Nat.testBit_mod_two_pow, Nat.testBit_shiftRight]

theorem byteOf_xor (a b k : Nat) : byteOf (a ^^^ b) k = byteOf a k ^^^ byteOf b k := by
  apply Nat.eq_of_testBit_eq
  intro j
  simp only [testBit_byteOf, Nat.testBit_xor]
  cases decide (j < 8) <;> simp

theorem byteOf_zero (x : Nat) : byteOf x 0 = x % 256 := by simp [byteOf]

theorem byteOf_succ (x k : Nat) : byteOf x (k + 1) = byteOf (x / 256) k := by
  simp [byteOf, Nat.pow_succ, Nat.div_div_eq_div_mul, Nat.mul_comm]

theorem byteOf_cons (b X k : Nat) (hb : b < 256) :
    byteOf (b + 256 * X) (k + 1) = byteOf X k := by
  rw [byteOf_succ]
  congr 1
  omega

theorem ofBytes_lt (l : List Nat) (h : ∀ b ∈ l, b < 256) : ofBytes l < 256 ^ l.length := by
  induction l with
  | nil => simp [ofBytes]
  | cons b bs ih =>
    have hb : b < 256 := h b (List.mem_cons_self _ _)
    have := ih (fun x hx => h x (List.mem_cons_of_mem _ hx))
    simp only [ofBytes, List.length_cons, Nat.pow_succ]
    omega

theorem byteOf_ofBytes (l : List Nat) (h : ∀ b ∈ l, b < 256) (k : Nat) :
    byteOf (ofBytes l) k = l.getD k 0 := by
  induction l generalizing k with
  | nil => simp [ofBytes, byteOf]
  | cons b bs ih =>
    have hb : b < 256 := h b (List.mem_cons_self _ _)
    have hbs := ih (fun x hx => h x (List.mem_cons_of_mem _ hx))
    cases k with
    | zero =>
      simp only [ofBytes, byteOf_zero, List.getD_cons_zero]
      omega
    | succ k =>
      simp only [ofBytes, List.getD_cons_succ]
      rw [byteOf_cons _ _ _ hb, hbs]

theorem toBytes_ofBytes (l : List Nat) (h : ∀ b ∈ l, b < 256) :
    toBytes l.length (ofBytes l) = l := by
  apply List.ext_getElem
  · simp [toBytes]
  · intro k h1 h2
    simp only [toBytes, List.getElem_map, List.getElem_range]
    rw [byteOf_ofBytes l h k, List.getD_eq_getElem _ _ h2]

theorem toBytes_xor (n a b : Nat) :
    toBytes n (a ^^^ b) = xorBytes (toBytes n a) (toBytes n b) := by
  apply List.ext_getElem
  · simp [toBytes, xorBytes]
  · intro k h1 h2
    simp [toBytes, xorBytes, byteOf_xor]

theorem getElem_toBytes (n x k : Nat) (h : k < (toBytes n x).length) :
    (toBytes n x)[k] = byteOf x k := by
  simp [toBytes]

theorem mem_toBytes_lt (n x b : Nat) (h : b ∈ toBytes n x) : b < 256 := by
  simp only [toBytes, List.mem_map] at h
  obtain ⟨k, _, rfl⟩ := h
  exact byteOf_lt x k

/-! ## The counter block -/

theorem and_255 (x : Nat) : x &&& 255 = x % 256 := Nat.and_pow_two_sub_one_eq_mod x 8

/-- The sixteen bytes `counter_bytes` that `aesni_ctr_process` builds from a counter value. -/
theorem counter_bytes_eq (c : Nat) :
    counter_bytes c =
      [0, 0, 0, 0, 0, 0, 0, 0,
       c / 256 ^ 7 % 256, c / 256 ^ 6 % 256, c / 256 ^ 5 % 256, c / 256 ^ 4 % 256,
       c / 256 ^ 3 % 256, c / 256 ^ 2 % 256, c / 256 ^ 1 % 256, c / 256 ^ 0 % 256] := by
  simp only [counter_bytes, List.range, List.range.loop, List.foldl, List.replicate, List.set,
    and_255, Nat.shiftRight_eq_div_pow, Nat.mod_mod]
  norm_num
  omega

theorem counter_bytes_length (c : Nat) : (counter_bytes c).length = 16 := by
  rw [counter_bytes_eq]; rfl

theorem counter_bytes_lt (c b : Nat) (h : b ∈ counter_bytes c) : b < 256 := by
  rw [counter_bytes_eq] at h
  simp only [List.mem_cons, List.mem_singleton, List.not_mem_nil, or_false] at h
  rcases h with h | h | h | h | h | h | h | h | h | h | h | h | h | h | h | h <;> omega

theorem loadu_zero (mem : List Nat) (h : mem.length = 16) :
    _mm_loadu_si128 mem 0 = ofBytes mem := by
  unfold _mm_loadu_si128
  congr 1
  apply List.ext_getElem
  · simp [h]
  · intro k h1 h2
    simp [List.getElem?_eq_getElem h2]

/-- The register `counter_block` holds exactly the bytes `counter_bytes`. -/
theorem counter_block_bytes (c : Nat) :
    _mm_storeu_si128 (_mm_loadu_si128 (counter_bytes c) 0) = counter_bytes c := by
  rw [loadu_zero _ (counter_bytes_length c), _mm_storeu_si128]
  have := toBytes_ofBytes (counter_bytes c) (counter_bytes_lt c)
  rwa [counter_bytes_length] at this

/-- Claim C5. For every counter value `c`, the counter block built by `aesni_ctr_process` (the
array `counter_bytes` and the register loaded from it) has bytes 0 to 7 equal to zero and
bytes 8 to 15 equal to `c` big-endian: byte `8 + k` is byte `7 - k` of `c` counted from the least
significant one, so byte 8 is the most significant byte of the 64-bit value and byte 15 the least
significant; read as a big-endian number, bytes 8 to 15 give `c mod 2^64`. -/
theorem counter_block_layout (c : Nat) :
    _mm_storeu_si128 (_mm_loadu_si128 (counter_bytes c) 0) = counter_bytes c ∧
      counter_bytes c
        = List.replicate 8 0 ++ (List.range 8).map (fun k => (c / 256 ^ (7 - k)) % 256) ∧
      (counter_bytes c).getD 8 0 = (c % 2 ^ 64) / 2 ^ 56 ∧
      (counter_bytes c).getD 15 0 = c % 256 ∧
      ofBytes ((counter_bytes c).drop 8).reverse = c % 2 ^ 64 := by
  refine ⟨counter_block_bytes c, ?_, ?_, ?_, ?_⟩
  · rw [counter_bytes_eq]
    rfl
  · rw [counter_bytes_eq]
    simp only [List.getD_cons_succ, List.getD_cons_zero]
    norm_num
    omega
  · rw [counter_bytes_eq]
    simp
  · rw [counter_bytes_eq]
    simp only [List.drop, List.reverse_cons, List.reverse_nil, List.nil_append, List.cons_append,
      ofBytes]
    norm_num
    omega


/-! ## What the loop of `aesni_ctr_process` stores -/

theorem getD_lt_256 (inp : List Nat) (hb : ∀ b ∈ inp, b < 256) (k : Nat) :
    inp.getD k 0 < 256 := by
  by_cases hk : k < inp.length
  · rw [List.getD_eq_getElem _ _ hk]
    exact hb _ (List.getElem_mem hk)
  · rw [List.getD_eq_default _ _ (by omega)]
    norm_num

/-- The full-block path: the sixteen bytes stored by `_mm_storeu_si128` are the input bytes
each combined with the byte of `e` at the same offset, as in the byte-by-byte path. -/
theorem full_block_bytes (inp : List Nat) (hb : ∀ b ∈ inp, b < 256) (i e : Nat) :
    _mm_storeu_si128 (_mm_xor_si128 (_mm_loadu_si128 inp i) e)
      = (List.range 16).map fun j => inp.getD (i + j) 0 ^^^ byteOf e j := by
  have hL : ∀ b ∈ (List.range 16).map (fun k => inp.getD (i + k) 0), b < 256 := by
    intro b hmem
    simp only [List.mem_map] at hmem
    obtain ⟨k, _, rfl⟩ := hmem
    exact getD_lt_256 inp hb _
  have h1 := toBytes_ofBytes _ hL
  simp only [List.length_map, List.length_range] at h1
  simp only [_mm_storeu_si128, _mm_xor_si128, _mm_loadu_si128, toBytes_xor, h1]
  apply List.ext_getElem
  · simp [xorBytes, toBytes]
  · intro k h2 h3
    simp [xorBytes, toBytes]

theorem keystream_byte_low (aes : AESNI_State) (c k : Nat) (hk : k < 16) :
    keystream_byte aes c k = byteOf (encrypted_counter aes c) k := by
  have h0 : k / 16 = 0 := by omega
  have h1 : k % 16 = k := by omega
  simp [keystream_byte, h0, h1, ctr_steps]

theorem keystream_byte_shift (aes : AESNI_State) (c k : Nat) :
    keystream_byte aes c (16 + k) = keystream_byte aes ((c + 1) % 2 ^ 64) k := by
  have h0 : (16 + k) / 16 = k / 16 + 1 := by omega
  have h1 : (16 + k) % 16 = k % 16 := by omega
  simp only [keystream_byte, h0, h1, ctr_steps_succ]

theorem map_range_split (F G H : Nat → Nat) (n : Nat) (hG : ∀ k, k < 16 → F k = G k)
    (hH : ∀ k, F (16 + k) = H k) :
    (List.range (16 + n)).map F = (List.range 16).map G ++ (List.range n).map H := by
  rw [List.range_add, List.map_append, List.map_map]
  have h1 : (List.range 16).map F = (List.range 16).map G :=
    List.map_congr_left fun k hk => hG k (List.mem_range.mp hk)
  have h2 : (List.range n).map (F ∘ fun x => 16 + x) = (List.range n).map H :=
    List.map_congr_left fun k _ => hH k
  rw [h1, h2]

theorem ctr_loop_out (aes : AESNI_State) (inp : List Nat) (hb : ∀ b ∈ inp, b < 256) :
    ∀ (fuel i cc : Nat) (out : List Nat), inp.length - i ≤ 16 * fuel →
      (ctr_loop aes inp inp.length fuel i cc out).1
        = out ++ (List.range (inp.length - i)).map
            fun k => inp.getD (i + k) 0 ^^^ keystream_byte aes cc k := by
  intro fuel
  induction fuel with
  | zero =>
    intro i cc out h
    have h0 : inp.length - i = 0 := by omega
    simp [ctr_loop, h0]
  | succ fuel ih =>
    intro i cc out h
    by_cases hi : i < inp.length
    · by_cases hfull : i + 16 ≤ inp.length
      · have hlen : inp.length - i = 16 + (inp.length - (i + 16)) := by omega
        have hsplit := map_range_split
          (fun k => inp.getD (i + k) 0 ^^^ keystream_byte aes cc k)
          (fun j => inp.getD (i + j) 0 ^^^ byteOf (encrypted_counter aes cc) j)
          (fun k => inp.getD (i + 16 + k) 0 ^^^ keystream_byte aes ((cc + 1) % 2 ^ 64) k)
          (inp.length - (i + 16))
          (fun k hk => by simp only [keystream_byte_low aes cc k hk])
          (fun k => by simp only [keystream_byte_shift, Nat.add_assoc])
        simp only [ctr_loop, hi, hfull, BLOCK_SIZE, if_true]
        rw [ih _ _ _ (by omega), full_block_bytes inp hb, hlen, hsplit, List.append_assoc]
      · have hne : ¬ (inp.length - i = 16) := by omega
        have hz : inp.length - (i + 16) = 0 := by omega
        have hmap : (List.range (inp.length - i)).map
              (fun k => inp.getD (i + k) 0 ^^^ keystream_byte aes cc k)
            = (List.range (inp.length - i)).map
              (fun j => inp.getD (i + j) 0 ^^^ byteOf (encrypted_counter aes cc) j) :=
          List.map_congr_left fun k hk => by
            have hk16 : k < 16 := by have := List.mem_range.mp hk; omega
            simp only [keystream_byte_low aes cc k hk16]
        simp only [ctr_loop, hi, hfull, hne, BLOCK_SIZE, if_true, if_false]
        rw [ih _ _ _ (by omega), hz, hmap]
        simp only [List.range_zero, List.map_nil, List.append_nil]
    · have h0 : inp.length - i = 0 := by omega
      simp [ctr_loop, hi, h0]

/-- The bytes stored by `aesni_ctr_process`: input byte `k` combined with keystream byte `k`. -/
theorem process_out (state : AESNI_CTR_State) (inp : List Nat) (hb : ∀ b ∈ inp, b < 256) :
    (aesni_ctr_process state inp).out
      = (List.range inp.length).map
          fun k => inp.getD k 0 ^^^ keystream_byte state.aes_state state.counter k := by
  have h := ctr_loop_out state.aes_state inp hb inp.length 0 state.counter [] (by omega)
  simpa [aesni_ctr_process] using h

theorem process_counter (state : AESNI_CTR_State) (inp : List Nat) :
    (aesni_ctr_process state inp).state.counter
      = ctr_steps state.counter ((inp.length + 15) / 16) := by
  have h := (ctr_loop_length_counter state.aes_state inp inp.length inp.length 0
    state.counter [] (by omega)).2
  simpa [aesni_ctr_process] using h

theorem process_aes_state (state : AESNI_CTR_State) (inp : List Nat) :
    (aesni_ctr_process state inp).state.aes_state = state.aes_state := rfl

theorem process_out_lt (state : AESNI_CTR_State) (inp : List Nat) (hb : ∀ b ∈ inp, b < 256) :
    ∀ b ∈ (aesni_ctr_process state inp).out, b < 256 := by
  intro b hmem
  rw [process_out state inp hb] at hmem
  simp only [List.mem_map] at hmem
  obtain ⟨k, _, rfl⟩ := hmem
  exact Nat.xor_lt_two_pow (n := 8) (getD_lt_256 inp hb k) (byteOf_lt _ _)

/-- Two states with the same counter whose key arrays yield the same keystream blocks: processing
the output of one with the other gives the input back. -/
theorem process_process (s1 s2 : AESNI_CTR_State) (P : List Nat) (hb : ∀ b ∈ P, b < 256)
    (hc : s1.counter = s2.counter)
    (he : ∀ cc, encrypted_counter s2.aes_state cc = encrypted_counter s1.aes_state cc) :
    (aesni_ctr_process s2 (aesni_ctr_process s1 P).out).out = P := by
  have hlen : (aesni_ctr_process s1 P).out.length = P.length := by
    rw [process_out s1 P hb]; simp
  rw [process_out s2 _ (process_out_lt s1 P hb), hlen]
  apply List.ext_getElem
  · simp
  · intro k h1 h2
    have hk : k < (aesni_ctr_process s1 P).out.length := by omega
    simp only [List.getElem_map, List.getElem_range]
    rw [List.getD_eq_getElem _ _ hk]
    simp only [process_out s1 P hb, List.getElem_map, List.getElem_range]
    rw [List.getD_eq_getElem _ _ h2]
    simp only [keystream_byte, he, hc]
    exact Nat.xor_cancel_right _ _


/-! ## The round keys do not depend on what the fresh block held -/

theorem foldl_congr_mem {α β : Type} (f g : α → β → α) (l : List β)
    (h : ∀ x ∈ l, ∀ acc, f acc x = g acc x) (init : α) :
    l.foldl f init = l.foldl g init := by
  induction l generalizing init with
  | nil => rfl
  | cons x xs ih =>
    simp only [List.foldl_cons]
    rw [h x (List.mem_cons_self _ _), ih (fun y hy => h y (List.mem_cons_of_mem _ hy))]

theorem erk_store (rk : List Nat) (e : Nat → Nat) (m j : Nat) :
    (List.range' 0 m 4).foldl (fun erk i => arr_set erk (i / 4) (loadu_words rk i)) e j
      = if j < m then loadu_words rk (4 * j) else e j := by
  induction m with
  | zero => simp
  | succ m ih =>
    rw [List.range'_concat, List.foldl_append]
    simp only [List.foldl_cons, List.foldl_nil, arr_set, Nat.zero_add]
    have h4 : 4 * m / 4 = m := by omega
    rw [h4]
    by_cases hj : j = m
    · subst hj
      simp
    · rw [if_neg hj, ih]
      by_cases hlt : j < m
      · rw [if_pos hlt, if_pos (by omega)]
      · rw [if_neg hlt, if_neg (by omega)]

/-- The round key `erk[j]` written by `expand_key`, for `j ≤ Nr`: the four words
`rk[4j] .. rk[4j+3]`, whatever the array held before. -/
theorem expand_key_erk (e d : Nat → Nat) (key : List Nat) (Nk Nr j : Nat) (hj : j ≤ Nr) :
    (expand_key e d key Nk Nr).2.1 j = loadu_words (expand_key_words key Nk Nr) (4 * j) := by
  have hm : (4 * (Nr + 1) + 3) / 4 = Nr + 1 := by omega
  simp only [expand_key, hm]
  rw [erk_store, if_pos (by omega)]

theorem encrypted_counter_congr (a1 a2 : AESNI_State) (hr : a1.rounds = a2.rounds)
    (he : ∀ j, j ≤ a1.rounds → a1.erk j = a2.erk j) (cc : Nat) :
    encrypted_counter a1 cc = encrypted_counter a2 cc := by
  simp only [encrypted_counter, ← hr]
  rw [he 0 (Nat.zero_le _), he a1.rounds (Nat.le_refl _)]
  congr 1
  apply foldl_congr_mem
  intro j hj acc
  have hj1 : j ≤ a1.rounds := by
    have := List.mem_range'_1.mp hj
    omega
  rw [he j hj1]

/-- Two states built by `aesni_ctr_init` from the same key (of valid length) compute the same
keystream blocks, whatever the two fresh blocks held. -/
theorem init_same_keystream (h1 h2 : Heap) (g1 g2 s1 s2 : AESNI_CTR_State) (key : List Nat)
    (C1 C2 : Nat) (hk : key.length = 16 ∨ key.length = 24 ∨ key.length = 32)
    (e1 : (aesni_ctr_init h1 (some g1) key C1).1 = some s1)
    (e2 : (aesni_ctr_init h2 (some g2) key C2).1 = some s2) (cc : Nat) :
    encrypted_counter s2.aes_state cc = encrypted_counter s1.aes_state cc := by
  have hcfg : ∃ Nk Nr, (key.length = 16 ∧ Nk = 4 ∧ Nr = 10) ∨
      (key.length = 24 ∧ Nk = 6 ∧ Nr = 12) ∨ (key.length = 32 ∧ Nk = 8 ∧ Nr = 14) := by
    rcases hk with h | h | h
    · exact ⟨4, 10, Or.inl ⟨h, rfl, rfl⟩⟩
    · exact ⟨6, 12, Or.inr (Or.inl ⟨h, rfl, rfl⟩)⟩
    · exact ⟨8, 14, Or.inr (Or.inr ⟨h, rfl, rfl⟩)⟩
  obtain ⟨Nk, Nr, hc⟩ := hcfg
  rw [aesni_ctr_init_ok h1 g1 key C1 Nk Nr hc] at e1
  rw [aesni_ctr_init_ok h2 g2 key C2 Nk Nr hc] at e2
  simp only [Option.some.injEq] at e1 e2
  subst e1 e2
  apply encrypted_counter_congr
  · rfl
  · intro j hj
    simp only at hj ⊢
    rw [expand_key_erk _ _ _ _ _ _ hj, expand_key_erk _ _ _ _ _ _ hj]

theorem init_counter (h : Heap) (g s : AESNI_CTR_State) (key : List Nat) (C : Nat)
    (e : (aesni_ctr_init h (some g) key C).1 = some s) : s.counter = C := by
  unfold aesni_ctr_init at e
  simp only at e
  split at e
  · simp at e
  · split at e
    · simp at e
    · simp only [Option.some.injEq] at e
      subst e
      rfl

theorem init_isSome (h : Heap) (g : AESNI_CTR_State) (key : List Nat) (C : Nat)
    (hk : key.length = 16 ∨ key.length = 24 ∨ key.length = 32) :
    ∃ s, (aesni_ctr_init h (some g) key C).1 = some s := by
  rcases hk with h16 | h24 | h32
  · exact ⟨_, by rw [aesni_ctr_init_ok h g key C 4 10 (Or.inl ⟨h16, rfl, rfl⟩)]⟩
  · exact ⟨_, by rw [aesni_ctr_init_ok h g key C 6 12 (Or.inr (Or.inl ⟨h24, rfl, rfl⟩))]⟩
  · exact ⟨_, by rw [aesni_ctr_init_ok h g key C 8 14 (Or.inr (Or.inr ⟨h32, rfl, rfl⟩))]⟩


/-! ## Round trip and streaming -/

theorem process_congr (s s' : AESNI_CTR_State) (inp : List Nat) (hb : ∀ b ∈ inp, b < 256)
    (hc : s.counter = s'.counter)
    (he : ∀ cc, encrypted_counter s.aes_state cc = encrypted_counter s'.aes_state cc) :
    (aesni_ctr_process s inp).out = (aesni_ctr_process s' inp).out ∧
      (aesni_ctr_process s inp).state.counter = (aesni_ctr_process s' inp).state.counter := by
  rw [process_out s inp hb, process_out s' inp hb, process_counter, process_counter]
  simp only [keystream_byte, he, hc, and_self]

theorem keystream_byte_add (aes : AESNI_State) (c q k : Nat) :
    keystream_byte aes c (16 * q + k) = keystream_byte aes (ctr_steps c q) k := by
  have h0 : (16 * q + k) / 16 = q + k / 16 := by omega
  have h1 : (16 * q + k) % 16 = k % 16 := by omega
  simp only [keystream_byte, h0, h1, ctr_steps_add]

/-- On one state: processing `P1` (a whole number of blocks) and then `P2` stores the same bytes
and leaves the same counter as processing `P1 ++ P2` in one call. -/
theorem process_append (s : AESNI_CTR_State) (P1 P2 : List Nat) (h16 : P1.length % 16 = 0)
    (hP1 : ∀ b ∈ P1, b < 256) (hP2 : ∀ b ∈ P2, b < 256) :
    (aesni_ctr_process s P1).out ++ (aesni_ctr_process (aesni_ctr_process s P1).state P2).out
        = (aesni_ctr_process s (P1 ++ P2)).out ∧
      (aesni_ctr_process (aesni_ctr_process s P1).state P2).state.counter
        = (aesni_ctr_process s (P1 ++ P2)).state.counter := by
  have hP : ∀ b ∈ P1 ++ P2, b < 256 := by
    intro b hmem
    rcases List.mem_append.mp hmem with h | h
    · exact hP1 b h
    · exact hP2 b h
  obtain ⟨q, hq⟩ : ∃ q, P1.length = 16 * q := ⟨P1.length / 16, by omega⟩
  have hq1 : (P1.length + 15) / 16 = q := by omega
  have hq2 : ((P1 ++ P2).length + 15) / 16 = q + (P2.length + 15) / 16 := by
    rw [List.length_append]; omega
  constructor
  · rw [process_out s P1 hP1, process_out _ P2 hP2, process_out s _ hP, List.length_append,
      List.range_add, List.map_append, List.map_map, process_aes_state, process_counter, hq1]
    congr 1
    · apply List.map_congr_left
      intro k hk
      rw [List.getD_append _ _ _ _ (List.mem_range.mp hk)]
    · apply List.map_congr_left
      intro k _
      simp only [Function.comp]
      rw [List.getD_append_right _ _ _ _ (by omega), hq, keystream_byte_add]
      congr 2
      omega
  · rw [process_counter, process_counter, process_counter, hq1, hq2, ctr_steps_add]

/-- Claim C1. For a key of 16, 24 or 32 bytes, an initial counter `C` and a byte sequence `P` of
any length: the two states that `aesni_ctr_init` builds from the key and `C` (in any two heaps,
from any two fresh blocks) exist, and `aesni_ctr_process` with the second state on the output of
`aesni_ctr_process` with the first state on `P` gives back `P`. -/
theorem round_trip (h1 h2 : Heap) (g1 g2 : AESNI_CTR_State) (key P : List Nat) (C : Nat)
    (hk : key.length = 16 ∨ key.length = 24 ∨ key.length = 32) (hP : ∀ b ∈ P, b < 256) :
    ∃ s1 s2, (aesni_ctr_init h1 (some g1) key C).1 = some s1 ∧
      (aesni_ctr_init h2 (some g2) key C).1 = some s2 ∧
      (aesni_ctr_process s2 (aesni_ctr_process s1 P).out).out = P := by
  obtain ⟨s1, e1⟩ := init_isSome h1 g1 key C hk
  obtain ⟨s2, e2⟩ := init_isSome h2 g2 key C hk
  refine ⟨s1, s2, e1, e2, ?_⟩
  apply process_process s1 s2 P hP
  · rw [init_counter h1 g1 s1 key C e1, init_counter h2 g2 s2 key C e2]
  · exact init_same_keystream h1 h2 g1 g2 s1 s2 key C C hk e1 e2

/-- Witness for C1: the all-zero 16-byte key, initial counter 5, a 3-byte input. -/
theorem round_trip_witness :
    ∃ s1 s2, (aesni_ctr_init ⟨0⟩ (some blank_state) (List.replicate 16 0) 5).1 = some s1 ∧
      (aesni_ctr_init ⟨1⟩ (some blank_state) (List.replicate 16 0) 5).1 = some s2 ∧
      (aesni_ctr_process s2 (aesni_ctr_process s1 [1, 2, 3]).out).out = [1, 2, 3] :=
  round_trip ⟨0⟩ ⟨1⟩ blank_state blank_state (List.replicate 16 0) [1, 2, 3] 5
    (Or.inl (by decide)) (by decide)

/-- Claim C2. For a key of 16, 24 or 32 bytes, an initial counter `C`, a byte sequence `P1` whose
length is a multiple of 16 and a byte sequence `P2`: with `s` and `s'` the states that
`aesni_ctr_init` builds from the key and `C`, the bytes stored by `aesni_ctr_process` on `P1`
followed by those of a second call on `P2` with the same state are the bytes stored by one call on
`P1 ++ P2` with `s'`, and both runs end with the same counter. -/
theorem streaming_consistency (h1 h2 : Heap) (g1 g2 : AESNI_CTR_State) (key P1 P2 : List Nat)
    (C : Nat) (hk : key.length = 16 ∨ key.length = 24 ∨ key.length = 32)
    (h16 : P1.length % 16 = 0) (hP1 : ∀ b ∈ P1, b < 256) (hP2 : ∀ b ∈ P2, b < 256) :
    ∃ s s', (aesni_ctr_init h1 (some g1) key C).1 = some s ∧
      (aesni_ctr_init h2 (some g2) key C).1 = some s' ∧
      (aesni_ctr_process s P1).out ++ (aesni_ctr_process (aesni_ctr_process s P1).state P2).out
        = (aesni_ctr_process s' (P1 ++ P2)).out ∧
      (aesni_ctr_process (aesni_ctr_process s P1).state P2).state.counter
        = (aesni_ctr_process s' (P1 ++ P2)).state.counter := by
  obtain ⟨s, e1⟩ := init_isSome h1 g1 key C hk
  obtain ⟨s', e2⟩ := init_isSome h2 g2 key C hk
  have hP : ∀ b ∈ P1 ++ P2, b < 256 := by
    intro b hmem
    rcases List.mem_append.mp hmem with h | h
    · exact hP1 b h
    · exact hP2 b h
  have hcongr := process_congr s s' (P1 ++ P2) hP
    (by rw [init_counter h1 g1 s key C e1, init_counter h2 g2 s' key C e2])
    (fun cc => (init_same_keystream h1 h2 g1 g2 s s' key C C hk e1 e2 cc).symm)
  have happ := process_append s P1 P2 h16 hP1 hP2
  exact ⟨s, s', e1, e2, happ.1.trans hcongr.1, happ.2.trans hcongr.2⟩

/-- Witness for C2: the all-zero 32-byte key, one full block followed by a 2-byte tail. -/
theorem streaming_consistency_witness :
    ∃ s s', (aesni_ctr_init ⟨0⟩ (some blank_state) (List.replicate 32 0) 9).1 = some s ∧
      (aesni_ctr_init ⟨0⟩ (some blank_state) (List.replicate 32 0) 9).1 = some s' ∧
      (aesni_ctr_process s (List.replicate 16 7)).out
          ++ (aesni_ctr_process (aesni_ctr_process s (List.replicate 16 7)).state [1, 2]).out
        = (aesni_ctr_process s' (List.replicate 16 7 ++ [1, 2])).out ∧
      (aesni_ctr_process (aesni_ctr_process s (List.replicate 16 7)).state [1, 2]).state.counter
        = (aesni_ctr_process s' (List.replicate 16 7 ++ [1, 2])).state.counter :=
  streaming_consistency ⟨0⟩ ⟨0⟩ blank_state blank_state (List.replicate 32 0)
    (List.replicate 16 7) [1, 2] 9 (Or.inr (Or.inr (by decide))) (by decide) (by decide)
    (by decide)




/-! ## More on bytes -/

theorem toBytes_succ (n x : Nat) : toBytes (n + 1) x = byteOf x 0 :: toBytes n (x / 256) := by
  simp only [toBytes, List.range_succ_eq_map, List.map_cons, List.map_map]
  congr 1
  apply List.map_congr_left
  intro k _
  simp [Function.comp, byteOf_succ]

theorem ofBytes_toBytes (n x : Nat) : ofBytes (toBytes n x) = x % 256 ^ n := by
  induction n generalizing x with
  | zero => simp [toBytes, ofBytes, Nat.mod_one]
  | succ n ih =>
    rw [toBytes_succ, ofBytes, ih, byteOf_zero, Nat.pow_succ, Nat.mul_comm (256 ^ n) 256,
      Nat.mod_mul]

theorem xorBytes_lt (l1 l2 : List Nat) (h1 : ∀ b ∈ l1, b < 256) (h2 : ∀ b ∈ l2, b < 256) :
    ∀ b ∈ xorBytes l1 l2, b < 256 := by
  induction l1 generalizing l2 with
  | nil => simp [xorBytes]
  | cons a as ih =>
    cases l2 with
    | nil => simp [xorBytes]
    | cons c cs =>
      intro b hb
      simp only [xorBytes, List.zipWith_cons_cons, List.mem_cons] at hb
      rcases hb with rfl | hb
      · exact Nat.xor_lt_two_pow (n := 8) (h1 a (List.mem_cons_self _ _))
          (h2 c (List.mem_cons_self _ _))
      · exact ih cs (fun x hx => h1 x (List.mem_cons_of_mem _ hx))
          (fun x hx => h2 x (List.mem_cons_of_mem _ hx)) b hb

theorem xorBytes_length (l1 l2 : List Nat) (h : l1.length = l2.length) :
    (xorBytes l1 l2).length = l1.length := by
  simp [xorBytes, h]

/-- Exclusive-or of two little-endian integers, byte by byte. -/
theorem ofBytes_xor (l1 l2 : List Nat) (hlen : l1.length = l2.length)
    (h1 : ∀ b ∈ l1, b < 256) (h2 : ∀ b ∈ l2, b < 256) :
    ofBytes l1 ^^^ ofBytes l2 = ofBytes (xorBytes l1 l2) := by
  have hx := toBytes_xor l1.length (ofBytes l1) (ofBytes l2)
  have e1 := toBytes_ofBytes l1 h1
  have e2 := toBytes_ofBytes l2 h2
  rw [← hlen] at e2
  rw [e1, e2] at hx
  have hlt : ofBytes l1 ^^^ ofBytes l2 < 256 ^ l1.length := by
    have a1 := ofBytes_lt l1 h1
    have a2 := ofBytes_lt l2 h2
    rw [← hlen] at a2
    have e : (256 : Nat) ^ l1.length = 2 ^ (8 * l1.length) := by
      rw [Nat.pow_mul]
    rw [e] at a1 a2 ⊢
    exact Nat.xor_lt_two_pow a1 a2
  have := ofBytes_toBytes l1.length (ofBytes l1 ^^^ ofBytes l2)
  rw [hx, Nat.mod_eq_of_lt hlt] at this
  exact this.symm

theorem ofBytes_append (l1 l2 : List Nat) :
    ofBytes (l1 ++ l2) = ofBytes l1 + 256 ^ l1.length * ofBytes l2 := by
  induction l1 with
  | nil => simp [ofBytes]
  | cons a as ih =>
    show a + 256 * ofBytes (as ++ l2) = a + 256 * ofBytes as + 256 ^ (as.length + 1) * ofBytes l2
    rw [ih, Nat.pow_succ]
    ring

theorem toBytes_ofBytes_16 (l : List Nat) (hl : l.length = 16) (h : ∀ b ∈ l, b < 256) :
    toBytes 16 (ofBytes l) = l := by
  have := toBytes_ofBytes l h
  rwa [hl] at this

/-! ## Facts about the AES transformations -/

set_option maxRecDepth 100000 in
theorem sboxTable_lt : ∀ b ∈ sboxTable, b < 256 := by decide

theorem sbox_lt (b : Nat) : sbox b < 256 := by
  unfold sbox
  by_cases hb : b < sboxTable.length
  · rw [List.getD_eq_getElem _ _ hb]
    exact sboxTable_lt _ (List.getElem_mem hb)
  · rw [List.getD_eq_default _ _ (by omega)]
    norm_num

theorem xtime_lt (b : Nat) : xtime b < 256 := by
  unfold xtime
  split
  · omega
  · exact Nat.xor_lt_two_pow (n := 8) (by omega) (by norm_num)

theorem SubBytes_lt (s : List Nat) : ∀ b ∈ SubBytes s, b < 256 := by
  intro b hb
  simp only [SubBytes, List.mem_map] at hb
  obtain ⟨a, _, rfl⟩ := hb
  exact sbox_lt a

theorem ShiftRows_length (s : List Nat) : (ShiftRows s).length = 16 := by
  simp [ShiftRows]

theorem MixColumns_length (s : List Nat) : (MixColumns s).length = 16 := by
  simp [MixColumns]

theorem ShiftRows_lt (s : List Nat) (h : ∀ b ∈ s, b < 256) : ∀ b ∈ ShiftRows s, b < 256 := by
  intro b hb
  simp only [ShiftRows, List.mem_map] at hb
  obtain ⟨k, _, rfl⟩ := hb
  exact getD_lt_256 s h _

theorem MixColumns_lt (s : List Nat) (h : ∀ b ∈ s, b < 256) : ∀ b ∈ MixColumns s, b < 256 := by
  intro b hb
  simp only [MixColumns, List.mem_map] at hb
  obtain ⟨k, _, rfl⟩ := hb
  have x8 : ∀ {a b : Nat}, a < 256 → b < 256 → a ^^^ b < 256 :=
    fun ha hb => Nat.xor_lt_two_pow (n := 8) ha hb
  exact x8 (x8 (x8 (xtime_lt _) (x8 (xtime_lt _) (getD_lt_256 s h _))) (getD_lt_256 s h _))
    (getD_lt_256 s h _)

/-- On a sixteen-byte state, `SubBytes` and `ShiftRows` commute: the order in which AESENC applies
them and the order of FIPS-197 give the same state. -/
theorem SubBytes_ShiftRows (s : List Nat) (hs : s.length = 16) :
    SubBytes (ShiftRows s) = ShiftRows (SubBytes s) := by
  simp only [SubBytes, ShiftRows, List.map_map]
  apply List.map_congr_left
  intro k hk
  have hk16 : k < 16 := List.mem_range.mp hk
  have hidx : k % 4 + 4 * ((k / 4 + k % 4) % 4) < s.length := by omega
  have hidx' : k % 4 + 4 * ((k / 4 + k % 4) % 4) < (List.map sbox s).length := by
    simpa using hidx
  simp only [Function.comp]
  rw [List.getD_eq_getElem _ _ hidx, List.getD_eq_getElem _ _ hidx', List.getElem_map]


/-! ## The round instructions against the FIPS-197 round -/

theorem aesenc_bytes (e rk : Nat) (RK : List Nat) (hrk : rk = ofBytes RK)
    (hlen : RK.length = 16) (hlt : ∀ b ∈ RK, b < 256) :
    toBytes 16 (_mm_aesenc_si128 e rk)
      = xorBytes (MixColumns (ShiftRows (SubBytes (toBytes 16 e)))) RK := by
  subst hrk
  rw [_mm_aesenc_si128, toBytes_xor, toBytes_ofBytes_16 RK hlen hlt,
    toBytes_ofBytes_16 _ (MixColumns_length _) (MixColumns_lt _ (SubBytes_lt _)),
    SubBytes_ShiftRows _ (length_toBytes 16 e)]

theorem aesenclast_bytes (e rk : Nat) (RK : List Nat) (hrk : rk = ofBytes RK)
    (hlen : RK.length = 16) (hlt : ∀ b ∈ RK, b < 256) :
    toBytes 16 (_mm_aesenclast_si128 e rk)
      = xorBytes (ShiftRows (SubBytes (toBytes 16 e))) RK := by
  subst hrk
  have hl : (SubBytes (ShiftRows (toBytes 16 e))).length = 16 := by
    simp [SubBytes, ShiftRows_length]
  rw [_mm_aesenclast_si128, toBytes_xor, toBytes_ofBytes_16 RK hlen hlt,
    toBytes_ofBytes_16 _ hl (SubBytes_lt _), SubBytes_ShiftRows _ (length_toBytes 16 e)]

theorem foldl_rel {α β γ : Type} (R : α → β → Prop) (f : α → γ → α) (g : β → γ → β)
    (l : List γ) (h : ∀ x ∈ l, ∀ a b, R a b → R (f a x) (g b x)) (a : α) (b : β)
    (hab : R a b) : R (l.foldl f a) (l.foldl g b) := by
  induction l generalizing a b with
  | nil => exact hab
  | cons x xs ih =>
    simp only [List.foldl_cons]
    exact ih (fun y hy => h y (List.mem_cons_of_mem _ hy)) _ _
      (h x (List.mem_cons_self _ _) a b hab)

/-- When the round keys `erk[0 .. rounds]` hold the round keys of a FIPS-197 key schedule `w`, the
block `encrypted_counter` is the FIPS-197 cipher applied to the counter block. -/
theorem cipher_refines (aes : AESNI_State) (w : List (List Nat))
    (hrk : ∀ r, r ≤ aes.rounds → aes.erk r = ofBytes (fips_RoundKey w r) ∧
      (fips_RoundKey w r).length = 16 ∧ ∀ b ∈ fips_RoundKey w r, b < 256)
    (cc : Nat) :
    _mm_storeu_si128 (encrypted_counter aes cc) = fips_Cipher (counter_bytes cc) w aes.rounds := by
  obtain ⟨h0, h0len, h0lt⟩ := hrk 0 (Nat.zero_le _)
  obtain ⟨hN, hNlen, hNlt⟩ := hrk aes.rounds (Nat.le_refl _)
  simp only [_mm_storeu_si128, encrypted_counter, fips_Cipher, fips_AddRoundKey]
  rw [aesenclast_bytes _ _ _ hN hNlen hNlt]
  congr 3
  apply foldl_rel (fun (a : Nat) (b : List Nat) => toBytes 16 a = b)
  · intro j hj a b hab
    have hj1 : j ≤ aes.rounds := by
      have := List.mem_range'_1.mp hj
      omega
    obtain ⟨hj0, hjlen, hjlt⟩ := hrk j hj1
    rw [aesenc_bytes _ _ _ hj0 hjlen hjlt, hab]
  · rw [_mm_xor_si128, toBytes_xor, loadu_zero _ (counter_bytes_length cc),
      toBytes_ofBytes_16 _ (counter_bytes_length cc) (counter_bytes_lt cc), h0,
      toBytes_ofBytes_16 _ h0len h0lt]


/-! ## `sub_rot` against `SubWord`, `RotWord` and `Rcon` -/

theorem toBytes_four (y : Nat) :
    toBytes 4 y = [y % 256, y / 256 % 256, y / 65536 % 256, y / 16777216 % 256] := by
  simp [toBytes, List.range, List.range.loop, byteOf]

theorem ofBytes_four (a b c d : Nat) :
    ofBytes [a, b, c, d] = a + 256 * b + 65536 * c + 16777216 * d := by
  simp only [ofBytes]
  ring

theorem ofBytes_four_lt (a b c d : Nat) (ha : a < 256) (hb : b < 256) (hc : c < 256)
    (hd : d < 256) : ofBytes [a, b, c, d] < 2 ^ 32 := by
  rw [ofBytes_four]
  norm_num
  omega

theorem toBytes_four_low (w Z : Nat) : toBytes 4 (w + 2 ^ 32 * Z) = toBytes 4 w := by
  rw [toBytes_four, toBytes_four]
  norm_num
  refine ⟨?_, ?_, ?_, ?_⟩ <;> omega

theorem set1_lane1 (w : Nat) (hw : w < 2 ^ 32) :
    _mm_set1_epi32 w / 2 ^ 32 = w + 2 ^ 32 * (w + 2 ^ 32 * w) := by
  unfold _mm_set1_epi32
  simp only [Nat.mod_eq_of_lt hw]
  norm_num at hw ⊢
  omega

theorem set1_lane3 (w : Nat) (hw : w < 2 ^ 32) : _mm_set1_epi32 w / 2 ^ 96 = w := by
  unfold _mm_set1_epi32
  simp only [Nat.mod_eq_of_lt hw]
  norm_num at hw ⊢
  omega

/-- The lanes of AESKEYGENASSIST applied to a register holding the word `[a, b, c, d]` in every
lane. -/
theorem keygenassist_set1 (a b c d imm : Nat) (ha : a < 256) (hb : b < 256) (hc : c < 256)
    (hd : d < 256) (himm : imm < 256) :
    _mm_aeskeygenassist_si128 (_mm_set1_epi32 (ofBytes [a, b, c, d])) imm
      = ofBytes (SubWord [a, b, c, d])
        + 2 ^ 32 * ofBytes (xorBytes (SubWord (RotWord [a, b, c, d])) [imm, 0, 0, 0])
        + 2 ^ 64 * ofBytes (SubWord [a, b, c, d])
        + 2 ^ 96 * ofBytes (xorBytes (SubWord (RotWord [a, b, c, d])) [imm, 0, 0, 0]) := by
  have hw := ofBytes_four_lt a b c d ha hb hc hd
  have hbytes : toBytes 4 (ofBytes [a, b, c, d]) = [a, b, c, d] :=
    toBytes_ofBytes [a, b, c, d] (by
      intro x hx
      simp only [List.mem_cons, List.mem_singleton, List.not_mem_nil, or_false] at hx
      rcases hx with rfl | rfl | rfl | rfl <;> assumption)
  have hX1 : toBytes 4 (_mm_set1_epi32 (ofBytes [a, b, c, d]) / 2 ^ 32) = [a, b, c, d] := by
    rw [set1_lane1 _ hw, toBytes_four_low, hbytes]
  have hX3 : toBytes 4 (_mm_set1_epi32 (ofBytes [a, b, c, d]) / 2 ^ 96) = [a, b, c, d] := by
    rw [set1_lane3 _ hw, hbytes]
  have hrot : RotWord (SubWord [a, b, c, d]) = SubWord (RotWord [a, b, c, d]) := by
    simp [RotWord, SubWord]
  have hlt : ∀ x ∈ SubWord (RotWord [a, b, c, d]), x < 256 := by
    intro x hx
    simp only [SubWord, List.mem_map] at hx
    obtain ⟨y, _, rfl⟩ := hx
    exact sbox_lt y
  have himm4 : ∀ x ∈ [imm, 0, 0, 0], x < 256 := by
    intro x hx
    simp only [List.mem_cons, List.mem_singleton, List.not_mem_nil, or_false] at hx
    rcases hx with rfl | rfl | rfl | rfl <;> omega
  have hxor := ofBytes_xor (SubWord (RotWord [a, b, c, d])) [imm, 0, 0, 0]
    (by simp [SubWord, RotWord]) hlt himm4
  have himm0 : ofBytes [imm, 0, 0, 0] = imm := by simp [ofBytes]
  rw [himm0] at hxor
  simp only [_mm_aeskeygenassist_si128, hX1, hX3, hrot, Nat.mod_eq_of_lt himm, hxor]

theorem lanes_low (S T : Nat) (hS : S < 2 ^ 32) :
    _mm_cvtsi128_si32 (S + 2 ^ 32 * T + 2 ^ 64 * S + 2 ^ 96 * T) = S := by
  unfold _mm_cvtsi128_si32
  norm_num at hS ⊢
  omega

theorem lanes_second (S T : Nat) (hS : S < 2 ^ 32) (hT : T < 2 ^ 32) :
    _mm_cvtsi128_si32 (_mm_srli_si128 (S + 2 ^ 32 * T + 2 ^ 64 * S + 2 ^ 96 * T) 4) = T := by
  have e : S + 2 ^ 32 * T + 2 ^ 64 * S + 2 ^ 96 * T
      = S + 2 ^ 32 * (T + 2 ^ 32 * (S + 2 ^ 32 * T)) := by ring
  have hlt : S + 2 ^ 32 * (T + 2 ^ 32 * (S + 2 ^ 32 * T)) < 2 ^ 128 := by
    norm_num at hS hT ⊢
    omega
  have h4 : (256 : Nat) ^ 4 = 2 ^ 32 := by norm_num
  unfold _mm_cvtsi128_si32 _mm_srli_si128
  rw [if_neg (by norm_num), e, Nat.mod_eq_of_lt hlt, h4,
    Nat.add_mul_div_left _ _ (by norm_num : 0 < 2 ^ 32), Nat.div_eq_of_lt hS, Nat.zero_add,
    Nat.add_mul_mod_self_left, Nat.mod_eq_of_lt hT]

theorem ofBytes_SubWord_lt (w : List Nat) (hw : w.length = 4) : ofBytes (SubWord w) < 2 ^ 32 := by
  have h := ofBytes_lt (SubWord w) (by
    intro x hx
    simp only [SubWord, List.mem_map] at hx
    obtain ⟨y, _, rfl⟩ := hx
    exact sbox_lt y)
  simpa [SubWord, hw] using h

theorem ofBytes_rot_lt (a b c d imm : Nat) (himm : imm < 256) :
    ofBytes (xorBytes (SubWord (RotWord [a, b, c, d])) [imm, 0, 0, 0]) < 2 ^ 32 := by
  have h := ofBytes_lt (xorBytes (SubWord (RotWord [a, b, c, d])) [imm, 0, 0, 0])
    (xorBytes_lt _ _ (by
      intro x hx
      simp only [SubWord, List.mem_map] at hx
      obtain ⟨y, _, rfl⟩ := hx
      exact sbox_lt y) (by
      intro x hx
      simp only [List.mem_cons, List.mem_singleton, List.not_mem_nil, or_false] at hx
      rcases hx with rfl | rfl | rfl | rfl <;> omega))
  have hl : (xorBytes (SubWord (RotWord [a, b, c, d])) [imm, 0, 0, 0]).length = 4 := by
    simp [xorBytes, SubWord, RotWord]
  have h4 : (256 : Nat) ^ 4 = 2 ^ 32 := by norm_num
  rw [hl, h4] at h
  exact h

/-- The ten round constants passed by the `switch` of `sub_rot` are `Rcon[1] .. Rcon[10]`. -/
theorem fips_Rcon_values :
    fips_Rcon 1 = [0x01, 0, 0, 0] ∧ fips_Rcon 2 = [0x02, 0, 0, 0] ∧
    fips_Rcon 3 = [0x04, 0, 0, 0] ∧ fips_Rcon 4 = [0x08, 0, 0, 0] ∧
    fips_Rcon 5 = [0x10, 0, 0, 0] ∧ fips_Rcon 6 = [0x20, 0, 0, 0] ∧
    fips_Rcon 7 = [0x40, 0, 0, 0] ∧ fips_Rcon 8 = [0x80, 0, 0, 0] ∧
    fips_Rcon 9 = [0x1b, 0, 0, 0] ∧ fips_Rcon 10 = [0x36, 0, 0, 0] := by
  decide

/-- With `subType = 1` and `idx` in `1..10`, `sub_rot` returns
`SubWord(RotWord(w)) xor Rcon[idx]`. -/
theorem sub_rot_one (a b c d idx : Nat) (ha : a < 256) (hb : b < 256) (hc : c < 256)
    (hd : d < 256) (h1 : 1 ≤ idx) (h10 : idx ≤ 10) :
    sub_rot (ofBytes [a, b, c, d]) idx 1
      = ofBytes (xorBytes (SubWord (RotWord [a, b, c, d])) (fips_Rcon idx)) := by
  obtain ⟨r1, r2, r3, r4, r5, r6, r7, r8, r9, r10⟩ := fips_Rcon_values
  have hS := ofBytes_SubWord_lt [a, b, c, d] rfl
  interval_cases idx
  · simp only [sub_rot, r1, keygenassist_set1 a b c d _ ha hb hc hd (by norm_num : 0x01 < 256)]
    exact lanes_second _ _ hS (ofBytes_rot_lt a b c d _ (by norm_num))
  · simp only [sub_rot, r2, keygenassist_set1 a b c d _ ha hb hc hd (by norm_num : 0x02 < 256)]
    exact lanes_second _ _ hS (ofBytes_rot_lt a b c d _ (by norm_num))
  · simp only [sub_rot, r3, keygenassist_set1 a b c d _ ha hb hc hd (by norm_num : 0x04 < 256)]
    exact lanes_second _ _ hS (ofBytes_rot_lt a b c d _ (by norm_num))
  · simp only [sub_rot, r4, keygenassist_set1 a b c d _ ha hb hc hd (by norm_num : 0x08 < 256)]
    exact lanes_second _ _ hS (ofBytes_rot_lt a b c d _ (by norm_num))
  · simp only [sub_rot, r5, keygenassist_set1 a b c d _ ha hb hc hd (by norm_num : 0x10 < 256)]
    exact lanes_second _ _ hS (ofBytes_rot_lt a b c d _ (by norm_num))
  · simp only [sub_rot, r6, keygenassist_set1 a b c d _ ha hb hc hd (by norm_num : 0x20 < 256)]
    exact lanes_second _ _ hS (ofBytes_rot_lt a b c d _ (by norm_num))
  · simp only [sub_rot, r7, keygenassist_set1 a b c d _ ha hb hc hd (by norm_num : 0x40 < 256)]
    exact lanes_second _ _ hS (ofBytes_rot_lt a b c d _ (by norm_num))
  · simp only [sub_rot, r8, keygenassist_set1 a b c d _ ha hb hc hd (by norm_num : 0x80 < 256)]
    exact lanes_second _ _ hS (ofBytes_rot_lt a b c d _ (by norm_num))
  · simp only [sub_rot, r9, keygenassist_set1 a b c d _ ha hb hc hd (by norm_num : 0x1b < 256)]
    exact lanes_second _ _ hS (ofBytes_rot_lt a b c d _ (by norm_num))
  · simp only [sub_rot, r10, keygenassist_set1 a b c d _ ha hb hc hd (by norm_num : 0x36 < 256)]
    exact lanes_second _ _ hS (ofBytes_rot_lt a b c d _ (by norm_num))

/-- With `subType = 0` and `idx` in `1..10`, `sub_rot` returns `SubWord(w)`. -/
theorem sub_rot_zero (a b c d idx : Nat) (ha : a < 256) (hb : b < 256) (hc : c < 256)
    (hd : d < 256) (h1 : 1 ≤ idx) (h10 : idx ≤ 10) :
    sub_rot (ofBytes [a, b, c, d]) idx 0 = ofBytes (SubWord [a, b, c, d]) := by
  have hS := ofBytes_SubWord_lt [a, b, c, d] rfl
  interval_cases idx
  · simp only [sub_rot, keygenassist_set1 a b c d _ ha hb hc hd (by norm_num : 0x01 < 256)]
    exact lanes_low _ _ hS
  · simp only [sub_rot, keygenassist_set1 a b c d _ ha hb hc hd (by norm_num : 0x02 < 256)]
    exact lanes_low _ _ hS
  · simp only [sub_rot, keygenassist_set1 a b c d _ ha hb hc hd (by norm_num : 0x04 < 256)]
    exact lanes_low _ _ hS
  · simp only [sub_rot, keygenassist_set1 a b c d _ ha hb hc hd (by norm_num : 0x08 < 256)]
    exact lanes_low _ _ hS
  · simp only [sub_rot, keygenassist_set1 a b c d _ ha hb hc hd (by norm_num : 0x10 < 256)]
    exact lanes_low _ _ hS
  · simp only [sub_rot, keygenassist_set1 a b c d _ ha hb hc hd (by norm_num : 0x20 < 256)]
    exact lanes_low _ _ hS
  · simp only [sub_rot, keygenassist_set1 a b c d _ ha hb hc hd (by norm_num : 0x40 < 256)]
    exact lanes_low _ _ hS
  · simp only [sub_rot, keygenassist_set1 a b c d _ ha hb hc hd (by norm_num : 0x80 < 256)]
    exact lanes_low _ _ hS
  · simp only [sub_rot, keygenassist_set1 a b c d _ ha hb hc hd (by norm_num : 0x1b < 256)]
    exact lanes_low _ _ hS
  · simp only [sub_rot, keygenassist_set1 a b c d _ ha hb hc hd (by norm_num : 0x36 < 256)]
    exact lanes_low _ _ hS


/-! ## `expand_key` against the FIPS-197 key expansion -/

theorem getD_set (l : List Nat) (i v j : Nat) :
    (l.set i v).getD j 0 = if j = i ∧ i < l.length then v else l.getD j 0 := by
  simp only [List.getD_eq_getElem?_getD, List.getElem?_set]
  by_cases hji : j = i
  · subst hji
    by_cases hlt : j < l.length
    · simp [hlt]
    · simp [hlt, List.getElem?_eq_none (Nat.le_of_not_lt hlt)]
  · have hij : ¬ i = j := fun h => hji h.symm
    simp [hji, hij]

theorem load_fold (f : Nat → Nat) (init : List Nat) (m : Nat) (hm : m ≤ init.length) :
    ((List.range m).foldl (fun rk i => rk.set i (f i)) init).length = init.length ∧
      ∀ j, ((List.range m).foldl (fun rk i => rk.set i (f i)) init).getD j 0
        = if j < m then f j else init.getD j 0 := by
  induction m with
  | zero => simp
  | succ m ih =>
    obtain ⟨hlen, hget⟩ := ih (by omega)
    rw [List.range_succ, List.foldl_append]
    simp only [List.foldl_cons, List.foldl_nil, List.length_set]
    refine ⟨hlen, ?_⟩
    intro j
    rw [getD_set, hlen, hget]
    by_cases hj : j = m
    · subst hj
      simp [Nat.lt_of_lt_of_le (Nat.lt_succ_self j) hm]
    · by_cases hlt : j < m
      · simp [hj, hlt, Nat.lt_succ_of_lt hlt]
      · have : ¬ j < m + 1 := by omega
        simp [hj, hlt, this]

/-- After the first loop of `expand_key` the first `Nk` words agree with the key words. -/
theorem load_agree (key : List Nat) (hkey : ∀ b ∈ key, b < 256) (Nk : Nat) (hNk : Nk ≤ 64) :
    words_agree (expand_key_load key Nk)
      ((List.range Nk).map fun i =>
        [key.getD (4 * i) 0, key.getD (4 * i + 1) 0, key.getD (4 * i + 2) 0,
          key.getD (4 * i + 3) 0]) Nk := by
  obtain ⟨hlen, hget⟩ := load_fold (fun i => load_u32 key (i * 4)) (List.replicate 64 0) Nk
    (by simpa using hNk)
  refine ⟨by simpa [expand_key_load] using hlen, by simp, ?_⟩
  intro j hj
  refine ⟨key.getD (4 * j) 0, key.getD (4 * j + 1) 0, key.getD (4 * j + 2) 0,
    key.getD (4 * j + 3) 0, getD_lt_256 key hkey _, getD_lt_256 key hkey _,
    getD_lt_256 key hkey _, getD_lt_256 key hkey _, ?_, ?_⟩
  · rw [List.getD_eq_getElem _ _ (by simpa using hj)]
    simp
  · unfold expand_key_load
    rw [hget j, if_pos hj]
    simp [load_u32, List.range, List.range.loop, Nat.mul_comm]


theorem four_bytes_lt (a b c d : Nat) (ha : a < 256) (hb : b < 256) (hc : c < 256)
    (hd : d < 256) : ∀ x ∈ [a, b, c, d], x < 256 := by
  intro x hx
  simp only [List.mem_cons, List.mem_singleton, List.not_mem_nil, or_false] at hx
  rcases hx with rfl | rfl | rfl | rfl <;> assumption

theorem xor8 {a b : Nat} (ha : a < 256) (hb : b < 256) : a ^^^ b < 256 :=
  Nat.xor_lt_two_pow (n := 8) ha hb

/-- The value `tmp` of one iteration of the second loop of `expand_key` is the little-endian
integer of the word `temp` of the FIPS-197 loop. -/
theorem tmp_refines (Nk Nr i a b c d : Nat) (hcfg : valid_config Nk Nr) (hik : Nk ≤ i)
    (hi : i < 4 * (Nr + 1)) (ha : a < 256) (hb : b < 256) (hc : c < 256) (hd : d < 256) :
    ∃ t0 t1 t2 t3, t0 < 256 ∧ t1 < 256 ∧ t2 < 256 ∧ t3 < 256 ∧
      (if i % Nk = 0 then xorBytes (SubWord (RotWord [a, b, c, d])) (fips_Rcon (i / Nk))
        else if Nk > 6 ∧ i % Nk = 4 then SubWord [a, b, c, d]
        else [a, b, c, d]) = [t0, t1, t2, t3] ∧
      (if i % Nk = 0 then sub_rot (ofBytes [a, b, c, d]) (i / Nk) 1
        else if i % Nk = 4 ∧ Nk = 8 then sub_rot (ofBytes [a, b, c, d]) (i / Nk) 0
        else ofBytes [a, b, c, d]) = ofBytes [t0, t1, t2, t3] := by
  have hidx : 1 ≤ i / Nk ∧ i / Nk ≤ 10 := by
    rcases hcfg with ⟨rfl, rfl⟩ | ⟨rfl, rfl⟩ | ⟨rfl, rfl⟩ <;> omega
  by_cases h0 : i % Nk = 0
  · simp only [h0, if_true]
    rw [sub_rot_one a b c d (i / Nk) ha hb hc hd hidx.1 hidx.2]
    refine ⟨sbox b ^^^ xtime^[i / Nk - 1] 1, sbox c ^^^ 0, sbox d ^^^ 0, sbox a ^^^ 0,
      ?_, ?_, ?_, ?_, ?_, ?_⟩
    · have hr : (xtime^[i / Nk - 1] 1) < 256 := by
        cases hn : i / Nk - 1 with
        | zero => simp
        | succ n => rw [Function.iterate_succ_apply']; exact xtime_lt _
      exact xor8 (sbox_lt b) hr
    · exact xor8 (sbox_lt c) (by norm_num)
    · exact xor8 (sbox_lt d) (by norm_num)
    · exact xor8 (sbox_lt a) (by norm_num)
    · simp [xorBytes, SubWord, RotWord, fips_Rcon]
    · simp [xorBytes, SubWord, RotWord, fips_Rcon]
  · by_cases h4 : i % Nk = 4 ∧ Nk = 8
    · obtain ⟨h4a, h8⟩ := h4
      subst h8
      rw [if_neg h0, if_neg h0, if_pos ⟨by omega, h4a⟩, if_pos ⟨h4a, rfl⟩,
        sub_rot_zero a b c d (i / 8) ha hb hc hd hidx.1 hidx.2]
      exact ⟨sbox a, sbox b, sbox c, sbox d, sbox_lt a, sbox_lt b, sbox_lt c, sbox_lt d,
        by simp [SubWord], by simp [SubWord]⟩
    · have h4' : ¬ (Nk > 6 ∧ i % Nk = 4) := by
        rcases hcfg with ⟨rfl, rfl⟩ | ⟨rfl, rfl⟩ | ⟨rfl, rfl⟩ <;> omega
      simp only [h0, h4, h4', if_false]
      exact ⟨a, b, c, d, ha, hb, hc, hd, rfl, rfl⟩

/-- One iteration of the second loop of `expand_key` keeps the array in step with one iteration of
the FIPS-197 loop. -/
theorem step_agree (Nk Nr i : Nat) (hcfg : valid_config Nk Nr) (hik : Nk ≤ i)
    (hi : i < 4 * (Nr + 1)) (rk : List Nat) (w : List (List Nat))
    (h : words_agree rk w i) :
    words_agree (expand_key_step Nk rk i) (fips_KeyExpansion_step Nk w i) (i + 1) := by
  obtain ⟨hlen, hwlen, hinv⟩ := h
  have hNk : 4 ≤ Nk := by rcases hcfg with ⟨rfl, _⟩ | ⟨rfl, _⟩ | ⟨rfl, _⟩ <;> omega
  have hi64 : i < 64 := by rcases hcfg with ⟨_, rfl⟩ | ⟨_, rfl⟩ | ⟨_, rfl⟩ <;> omega
  obtain ⟨a, b, c, d, ha, hb, hc, hd, hw1, hr1⟩ := hinv (i - 1) (by omega)
  obtain ⟨a', b', c', d', ha', hb', hc', hd', hw2, hr2⟩ := hinv (i - Nk) (by omega)
  obtain ⟨t0, t1, t2, t3, ht0, ht1, ht2, ht3, hwt, hrt⟩ :=
    tmp_refines Nk Nr i a b c d hcfg hik hi ha hb hc hd
  have hnew : ofBytes [a', b', c', d'] ^^^ ofBytes [t0, t1, t2, t3]
      = ofBytes [a' ^^^ t0, b' ^^^ t1, c' ^^^ t2, d' ^^^ t3] := by
    rw [ofBytes_xor [a', b', c', d'] [t0, t1, t2, t3] rfl
      (four_bytes_lt a' b' c' d' ha' hb' hc' hd') (four_bytes_lt t0 t1 t2 t3 ht0 ht1 ht2 ht3)]
    rfl
  have hR : expand_key_step Nk rk i
      = rk.set i (ofBytes [a' ^^^ t0, b' ^^^ t1, c' ^^^ t2, d' ^^^ t3]) := by
    simp only [expand_key_step, hr1, hr2, hrt, hnew]
  have hW : fips_KeyExpansion_step Nk w i
      = w ++ [[a' ^^^ t0, b' ^^^ t1, c' ^^^ t2, d' ^^^ t3]] := by
    simp only [fips_KeyExpansion_step, hw1, hw2, hwt]
    rfl
  rw [hR, hW]
  refine ⟨by simpa using hlen, by simp [hwlen], ?_⟩
  intro j hj
  by_cases hji : j = i
  · subst hji
    refine ⟨a' ^^^ t0, b' ^^^ t1, c' ^^^ t2, d' ^^^ t3, xor8 ha' ht0, xor8 hb' ht1,
      xor8 hc' ht2, xor8 hd' ht3, ?_, ?_⟩
    · rw [List.getD_append_right _ _ _ _ (by omega), hwlen]
      simp
    · rw [getD_set, if_pos ⟨rfl, by omega⟩]
  · obtain ⟨p, q, r, s, hp, hq, hr, hs, hwj, hrj⟩ := hinv j (by omega)
    refine ⟨p, q, r, s, hp, hq, hr, hs, ?_, ?_⟩
    · rw [List.getD_append _ _ _ _ (by omega), hwj]
    · rw [getD_set, if_neg (by simp [hji]), hrj]

/-- After `n` iterations of the second loop, the first `Nk + n` words of `rk` are the first
`Nk + n` words of the FIPS-197 key schedule. -/
theorem loop_agree (key : List Nat) (hkey : ∀ b ∈ key, b < 256) (Nk Nr : Nat)
    (hcfg : valid_config Nk Nr) (n : Nat) (hn : Nk + n ≤ 4 * (Nr + 1)) :
    words_agree
      ((List.range' Nk n).foldl (expand_key_step Nk) (expand_key_load key Nk))
      ((List.range' Nk n).foldl (fips_KeyExpansion_step Nk)
        ((List.range Nk).map fun i =>
          [key.getD (4 * i) 0, key.getD (4 * i + 1) 0, key.getD (4 * i + 2) 0,
            key.getD (4 * i + 3) 0]))
      (Nk + n) := by
  induction n with
  | zero =>
    have hNk : Nk ≤ 64 := by rcases hcfg with ⟨rfl, _⟩ | ⟨rfl, _⟩ | ⟨rfl, _⟩ <;> omega
    simpa using load_agree key hkey Nk hNk
  | succ n ih =>
    rw [List.range'_1_concat, List.foldl_append, List.foldl_append]
    simp only [List.foldl_cons, List.foldl_nil]
    exact step_agree Nk Nr (Nk + n) hcfg (by omega) (by omega) _ _ (ih (by omega))

/-- The local array `rk` of `expand_key` holds the FIPS-197 key schedule of the key. -/
theorem expand_key_words_agree (key : List Nat) (hkey : ∀ b ∈ key, b < 256) (Nk Nr : Nat)
    (hcfg : valid_config Nk Nr) :
    words_agree (expand_key_words key Nk Nr) (fips_KeyExpansion key Nk Nr) (4 * (Nr + 1)) := by
  have hle : Nk ≤ 4 * (Nr + 1) := by
    rcases hcfg with ⟨rfl, rfl⟩ | ⟨rfl, rfl⟩ | ⟨rfl, rfl⟩ <;> omega
  have h := loop_agree key hkey Nk Nr hcfg (4 * (Nr + 1) - Nk) (by omega)
  have e : Nk + (4 * (Nr + 1) - Nk) = 4 * (Nr + 1) := by omega
  rw [e] at h
  exact h


/-- The register loaded from four consecutive words of `rk` holds the corresponding FIPS-197
round key. -/
theorem round_key_agree (rk : List Nat) (w : List (List Nat)) (n : Nat)
    (h : words_agree rk w n) (r : Nat) (hr : 4 * r + 3 < n) :
    loadu_words rk (4 * r) = ofBytes (fips_RoundKey w r) ∧
      (fips_RoundKey w r).length = 16 ∧ ∀ b ∈ fips_RoundKey w r, b < 256 := by
  obtain ⟨_, _, hinv⟩ := h
  obtain ⟨a0, b0, c0, d0, ha0, hb0, hc0, hd0, hw0, hr0⟩ := hinv (4 * r) (by omega)
  obtain ⟨a1, b1, c1, d1, ha1, hb1, hc1, hd1, hw1, hr1⟩ := hinv (4 * r + 1) (by omega)
  obtain ⟨a2, b2, c2, d2, ha2, hb2, hc2, hd2, hw2, hr2⟩ := hinv (4 * r + 2) (by omega)
  obtain ⟨a3, b3, c3, d3, ha3, hb3, hc3, hd3, hw3, hr3⟩ := hinv (4 * r + 3) (by omega)
  have hRK : fips_RoundKey w r
      = [a0, b0, c0, d0, a1, b1, c1, d1, a2, b2, c2, d2, a3, b3, c3, d3] := by
    simp only [fips_RoundKey, hw0, hw1, hw2, hw3]
    rfl
  rw [hRK]
  refine ⟨?_, rfl, ?_⟩
  · simp only [loadu_words, hr0, hr1, hr2, hr3, ofBytes]
    ring
  · intro x hx
    simp only [List.mem_cons, List.mem_singleton, List.not_mem_nil, or_false] at hx
    rcases hx with rfl | rfl | rfl | rfl | rfl | rfl | rfl | rfl | rfl | rfl | rfl | rfl |
      rfl | rfl | rfl | rfl <;> assumption

/-- Claim C4. For a key of 16, 24 or 32 bytes (`Nk` = 4, 6, 8 words and `Nr` = 10, 12, 14 rounds)
and every counter value, with `s` the state that `aesni_ctr_init` builds from the key: the
keystream block that `aesni_ctr_process` computes (exclusive-or with `erk[0]`, AESENC with
`erk[1] .. erk[rounds-1]`, AESENCLAST with `erk[rounds]`) is, byte for byte, the FIPS-197
cipher with the FIPS-197 key expansion of the key applied to the sixteen-byte counter block. -/
theorem keystream_is_aes (heap : Heap) (g : AESNI_CTR_State) (key : List Nat)
    (initial_counter Nk Nr cc : Nat)
    (hk : (key.length = 16 ∧ Nk = 4 ∧ Nr = 10) ∨ (key.length = 24 ∧ Nk = 6 ∧ Nr = 12) ∨
      (key.length = 32 ∧ Nk = 8 ∧ Nr = 14))
    (hkey : ∀ b ∈ key, b < 256) :
    ∃ s, (aesni_ctr_init heap (some g) key initial_counter).1 = some s ∧
      encrypted_counter s.aes_state cc
        = _mm_aesenclast_si128
            ((List.range' 1 (s.aes_state.rounds - 1)).foldl
              (fun e j => _mm_aesenc_si128 e (s.aes_state.erk j))
              (_mm_xor_si128 (_mm_loadu_si128 (counter_bytes cc) 0) (s.aes_state.erk 0)))
            (s.aes_state.erk s.aes_state.rounds) ∧
      _mm_storeu_si128 (encrypted_counter s.aes_state cc)
        = fips_Cipher (counter_bytes cc) (fips_KeyExpansion key Nk Nr) Nr := by
  have hcfg : valid_config Nk Nr := by
    rcases hk with ⟨_, h1, h2⟩ | ⟨_, h1, h2⟩ | ⟨_, h1, h2⟩
    · exact Or.inl ⟨h1, h2⟩
    · exact Or.inr (Or.inl ⟨h1, h2⟩)
    · exact Or.inr (Or.inr ⟨h1, h2⟩)
  refine ⟨_, by rw [aesni_ctr_init_ok heap g key initial_counter Nk Nr hk], rfl, ?_⟩
  have hagree := expand_key_words_agree key hkey Nk Nr hcfg
  have hc := cipher_refines
    { erk := (expand_key g.aes_state.erk g.aes_state.drk key Nk Nr).2.1
      drk := (expand_key g.aes_state.erk g.aes_state.drk key Nk Nr).2.2
      rounds := Nr } (fips_KeyExpansion key Nk Nr)
    (by
      intro r hr
      simp only at hr ⊢
      rw [expand_key_erk _ _ _ _ _ _ hr]
      exact round_key_agree _ _ _ hagree r (by omega)) cc
  exact hc

/-- Witness for C4: the 24-byte key `0, 1, .., 23` and counter value 1. -/
theorem keystream_is_aes_witness :
    ∃ s, (aesni_ctr_init ⟨0⟩ (some blank_state) (List.range 24) 0).1 = some s ∧
      encrypted_counter s.aes_state 1
        = _mm_aesenclast_si128
            ((List.range' 1 (s.aes_state.rounds - 1)).foldl
              (fun e j => _mm_aesenc_si128 e (s.aes_state.erk j))
              (_mm_xor_si128 (_mm_loadu_si128 (counter_bytes 1) 0) (s.aes_state.erk 0)))
            (s.aes_state.erk s.aes_state.rounds) ∧
      _mm_storeu_si128 (encrypted_counter s.aes_state 1)
        = fips_Cipher (counter_bytes 1) (fips_KeyExpansion (List.range 24) 6 12) 12 :=
  keystream_is_aes ⟨0⟩ blank_state (List.range 24) 0 6 12 1
    (Or.inr (Or.inl ⟨by decide, rfl, rfl⟩)) (by decide)


/-! ## Known answers -/

set_option maxRecDepth 1000000 in
/-- The reference `fips_Cipher` with `fips_KeyExpansion` reproduces the example vectors of
FIPS-197 Appendix C (plaintext `00112233445566778899aabbccddeeff`, keys `000102..`) for
AES-128, AES-192 and AES-256. -/
theorem fips_example_vectors :
    fips_Cipher ((List.range 16).map (17 * ·)) (fips_KeyExpansion (List.range 16) 4 10) 10
        = [0x69, 0xc4, 0xe0, 0xd8, 0x6a, 0x7b, 0x04, 0x30,
           0xd8, 0xcd, 0xb7, 0x80, 0x70, 0xb4, 0xc5, 0x5a] ∧
      fips_Cipher ((List.range 16).map (17 * ·)) (fips_KeyExpansion (List.range 24) 6 12) 12
        = [0xdd, 0xa9, 0x7c, 0xa4, 0x86, 0x4c, 0xdf, 0xe0,
           0x6e, 0xaf, 0x70, 0xa0, 0xec, 0x0d, 0x71, 0x91] ∧
      fips_Cipher ((List.range 16).map (17 * ·)) (fips_KeyExpansion (List.range 32) 8 14) 14
        = [0x8e, 0xa2, 0xb7, 0xca, 0x51, 0x67, 0x45, 0xbf,
           0xea, 0xfc, 0x49, 0x90, 0x4b, 0x49, 0x60, 0x89] := by
  decide

set_option maxRecDepth 1000000 in
/-- The NIST SP 800-38A F.5.1 vector in the reference: the plaintext block combined with the
AES-128 encryption of the full sixteen-byte counter block gives the published ciphertext. -/
theorem nist_vector_reference :
    xorBytes nist_plaintext
        (fips_Cipher nist_counter_block (fips_KeyExpansion nist_key 4 10) 10)
      = nist_ciphertext := by
  decide

set_option maxRecDepth 1000000 in
/-- What `aesni_ctr_process` stores for the NIST key and plaintext block when the state is built
with initial counter `0xf8f9fafbfcfdfeff` in a zeroed fresh block. -/
theorem kat_eval :
    (aesni_ctr_init ⟨0⟩ (some blank_state) nist_key 0xf8f9fafbfcfdfeff).1.map
        (fun s => (aesni_ctr_process s nist_plaintext).out)
      = some [0x65, 0xc7, 0x8e, 0xed, 0x4e, 0xac, 0x7a, 0x7b,
              0x25, 0xe7, 0x41, 0x36, 0x19, 0x6b, 0x20, 0xf8] := by
  decide

/-- Claim C6, as stated, fails: with the NIST key and the initial counter `0xf8f9fafbfcfdfeff`,
`aesni_ctr_process` on the NIST plaintext block does not store the NIST ciphertext block
`874d6191b620e3261bef6864990db6ce`. -/
theorem kat_counterexample :
    ¬ ∃ s, (aesni_ctr_init ⟨0⟩ (some blank_state) nist_key 0xf8f9fafbfcfdfeff).1 = some s ∧
      (aesni_ctr_process s nist_plaintext).out = nist_ciphertext := by
  rintro ⟨s, hs, hout⟩
  have h := kat_eval
  rw [hs, Option.map_some', hout] at h
  exact absurd h (by decide)

/-- Claim C6, amended. With the NIST key and the initial counter `0xf8f9fafbfcfdfeff`, whose
counter block is `0000000000000000f8f9fafbfcfdfeff`, `aesni_ctr_process` on the plaintext block
`6bc1bee22e409f96e93d7e117393172a` stores `65c78eed4eac7a7b25e74136196b20f8`, whatever the heap
and the fresh block held. The published ciphertext `874d6191b620e3261bef6864990db6ce` is the
plaintext combined with the AES-128 encryption of the full block
`f0f1f2f3f4f5f6f7f8f9fafbfcfdfeff`, which differs from every counter block of this design in its
first eight bytes. -/
theorem known_answer (heap : Heap) (g : AESNI_CTR_State) :
    ∃ s, (aesni_ctr_init heap (some g) nist_key 0xf8f9fafbfcfdfeff).1 = some s ∧
      (aesni_ctr_process s nist_plaintext).out
        = [0x65, 0xc7, 0x8e, 0xed, 0x4e, 0xac, 0x7a, 0x7b,
           0x25, 0xe7, 0x41, 0x36, 0x19, 0x6b, 0x20, 0xf8] ∧
      counter_bytes 0xf8f9fafbfcfdfeff
        = [0, 0, 0, 0, 0, 0, 0, 0, 0xf8, 0xf9, 0xfa, 0xfb, 0xfc, 0xfd, 0xfe, 0xff] ∧
      xorBytes nist_plaintext
          (fips_Cipher nist_counter_block (fips_KeyExpansion nist_key 4 10) 10)
        = nist_ciphertext ∧
      (∀ c, (counter_bytes c).take 8 ≠ nist_counter_block.take 8) := by
  have hk : nist_key.length = 16 ∨ nist_key.length = 24 ∨ nist_key.length = 32 :=
    Or.inl rfl
  have hp : ∀ b ∈ nist_plaintext, b < 256 := by decide
  obtain ⟨s, hs⟩ := init_isSome heap g nist_key 0xf8f9fafbfcfdfeff hk
  obtain ⟨s0, hs0⟩ := init_isSome ⟨0⟩ blank_state nist_key 0xf8f9fafbfcfdfeff hk
  have h := kat_eval
  rw [hs0, Option.map_some', Option.some.injEq] at h
  have hcongr := process_congr s s0 nist_plaintext hp
    (by rw [init_counter heap g s nist_key _ hs, init_counter ⟨0⟩ blank_state s0 nist_key _ hs0])
    (fun cc => (init_same_keystream heap ⟨0⟩ g blank_state s s0 nist_key _ _ hk hs hs0 cc).symm)
  refine ⟨s, hs, hcongr.1.trans h, by decide, nist_vector_reference, ?_⟩
  intro c hc
  rw [counter_bytes_eq] at hc
  simp [nist_counter_block] at hc

/-! ## The stored bytes, the frame of `aesni_ctr_process`, and resumption -/

/-- Claim C12. For a state whose counter `c` is a `uint64_t`, an input of `n` bytes and an index
`i < n`: byte `i` stored by `aesni_ctr_process` is input byte `i` combined by exclusive-or with
byte `i mod 16` of the keystream block for the counter value `(c + i / 16) mod 2^64`. The
full-block path (`_mm_loadu_si128`, `_mm_xor_si128`, `_mm_storeu_si128`) stores the same sixteen
bytes as the byte-by-byte path would, so one formula covers both, and a final region shorter than
sixteen bytes uses the leading bytes of its block. -/
theorem output_formula (state : AESNI_CTR_State) (inp : List Nat) (hb : ∀ b ∈ inp, b < 256)
    (hc : state.counter < 2 ^ 64) (i : Nat) (hi : i < inp.length) :
    i < (aesni_ctr_process state inp).out.length ∧
      (aesni_ctr_process state inp).out.getD i 0
        = inp.getD i 0 ^^^
          byteOf (encrypted_counter state.aes_state ((state.counter + i / 16) % 2 ^ 64))
            (i % 16) ∧
      (∀ off e, _mm_storeu_si128 (_mm_xor_si128 (_mm_loadu_si128 inp off) e)
        = (List.range 16).map fun j => inp.getD (off + j) 0 ^^^ byteOf e j) := by
  have hout := process_out state inp hb
  have hlen : (aesni_ctr_process state inp).out.length = inp.length := by
    rw [hout]; simp
  refine ⟨by omega, ?_, fun off e => full_block_bytes inp hb off e⟩
  rw [List.getD_eq_getElem _ _ (by omega)]
  simp only [hout, List.getElem_map, List.getElem_range, keystream_byte,
    ctr_steps_eq _ _ hc]

/-- Witness for C12: a 19-byte input, index 17 (second byte of the short final region). -/
theorem output_formula_witness :
    17 < (aesni_ctr_process blank_state (List.replicate 19 5)).out.length ∧
      (aesni_ctr_process blank_state (List.replicate 19 5)).out.getD 17 0
        = (List.replicate 19 5).getD 17 0 ^^^
          byteOf (encrypted_counter blank_state.aes_state ((blank_state.counter + 17 / 16) % 2 ^ 64))
            (17 % 16) ∧
      (∀ off e, _mm_storeu_si128 (_mm_xor_si128 (_mm_loadu_si128 (List.replicate 19 5) off) e)
        = (List.range 16).map fun j => (List.replicate 19 5).getD (off + j) 0 ^^^ byteOf e j) :=
  output_formula blank_state (List.replicate 19 5) (by decide) (by decide) 17 (by decide)

/-- Claim C16. `aesni_ctr_process` leaves `rounds`, every `erk[j]` and every `drk[j]` as they
were: the state after the call is the state before it with only the counter replaced. -/
theorem schedule_immutable (state : AESNI_CTR_State) (inp : List Nat) :
    (aesni_ctr_process state inp).state.aes_state.rounds = state.aes_state.rounds ∧
      (∀ j, (aesni_ctr_process state inp).state.aes_state.erk j = state.aes_state.erk j) ∧
      (∀ j, (aesni_ctr_process state inp).state.aes_state.drk j = state.aes_state.drk j) ∧
      (aesni_ctr_process state inp).state
        = { state with counter := (aesni_ctr_process state inp).state.counter } :=
  ⟨rfl, fun _ => rfl, fun _ => rfl, rfl⟩

/-- Claim C17. For a key of 16, 24 or 32 bytes, an initial counter `C` (a `uint64_t`) and byte
sequences `P1` of any length and `P2`: the bytes stored for `P2` after `P1` has been processed
with the same state are the bytes stored for `P2` with a state freshly built with initial counter
`(C + ceil(len(P1)/16)) mod 2^64`, and both end with the same counter. Nothing of the keystream
block used for a short final region of `P1` reaches the second call. -/
theorem resumption (h1 h2 : Heap) (g1 g2 : AESNI_CTR_State) (key P1 P2 : List Nat) (C : Nat)
    (hk : key.length = 16 ∨ key.length = 24 ∨ key.length = 32) (hC : C < 2 ^ 64)
    (hP2 : ∀ b ∈ P2, b < 256) :
    ∃ s s', (aesni_ctr_init h1 (some g1) key C).1 = some s ∧
      (aesni_ctr_init h2 (some g2) key ((C + (P1.length + 15) / 16) % 2 ^ 64)).1 = some s' ∧
      (aesni_ctr_process (aesni_ctr_process s P1).state P2).out
        = (aesni_ctr_process s' P2).out ∧
      (aesni_ctr_process (aesni_ctr_process s P1).state P2).state.counter
        = (aesni_ctr_process s' P2).state.counter := by
  obtain ⟨s, e1⟩ := init_isSome h1 g1 key C hk
  obtain ⟨s', e2⟩ := init_isSome h2 g2 key ((C + (P1.length + 15) / 16) % 2 ^ 64) hk
  have hc1 := init_counter h1 g1 s key C e1
  have hc2 := init_counter h2 g2 s' key _ e2
  have hcongr := process_congr (aesni_ctr_process s P1).state s' P2 hP2
    (by rw [process_counter, hc1, hc2, ctr_steps_eq _ _ hC])
    (fun cc => (init_same_keystream h1 h2 g1 g2 s s' key _ _ hk e1 e2 cc).symm)
  exact ⟨s, s', e1, e2, hcongr.1, hcongr.2⟩

/-- Witness for C17: a 16-byte key, initial counter `2^64 - 1`, a 5-byte `P1` and a 3-byte `P2`. -/
theorem resumption_witness :
    ∃ s s', (aesni_ctr_init ⟨0⟩ (some blank_state) (List.replicate 16 0) (2 ^ 64 - 1)).1 = some s ∧
      (aesni_ctr_init ⟨0⟩ (some blank_state) (List.replicate 16 0)
        ((2 ^ 64 - 1 + ([1, 2, 3, 4, 5].length + 15) / 16) % 2 ^ 64)).1 = some s' ∧
      (aesni_ctr_process (aesni_ctr_process s [1, 2, 3, 4, 5]).state [7, 8, 9]).out
        = (aesni_ctr_process s' [7, 8, 9]).out ∧
      (aesni_ctr_process (aesni_ctr_process s [1, 2, 3, 4, 5]).state [7, 8, 9]).state.counter
        = (aesni_ctr_process s' [7, 8, 9]).state.counter :=
  resumption ⟨0⟩ ⟨0⟩ blank_state blank_state (List.replicate 16 0) [1, 2, 3, 4, 5] [7, 8, 9]
    (2 ^ 64 - 1) (Or.inl (by decide)) (by norm_num) (by decide)

/-! ## The key schedule as a recurrence -/

theorem fips_step_eq (Nk : Nat) (w : List (List Nat)) (i : Nat)
    (hNk : Nk = 4 ∨ Nk = 6 ∨ Nk = 8) :
    fips_KeyExpansion_step Nk w i = w ++ [xorBytes (w.getD (i - Nk) []) (fips_temp Nk w i)] := by
  have e : (Nk > 6 ∧ i % Nk = 4) ↔ (Nk = 8 ∧ i % Nk = 4) := by
    rcases hNk with rfl | rfl | rfl <;> simp
  simp only [fips_KeyExpansion_step, fips_temp, e]

theorem fips_temp_append (Nk : Nat) (W : List (List Nat)) (x : List Nat) (i : Nat)
    (h1 : 1 ≤ i) (hi : i ≤ W.length) : fips_temp Nk (W ++ [x]) i = fips_temp Nk W i := by
  simp only [fips_temp, List.getD_append W [x] [] (i - 1) (by omega)]

/-- The list built by `n` iterations of the FIPS-197 loop: its length, the stability of the words
already written, and the word written last. -/
theorem fips_fold (Nk : Nat) (hNk : Nk = 4 ∨ Nk = 6 ∨ Nk = 8) (w0 : List (List Nat))
    (hw0 : w0.length = Nk) (n : Nat) :
    ((List.range' Nk n).foldl (fips_KeyExpansion_step Nk) w0).length = Nk + n ∧
      (∀ j, j < Nk → ((List.range' Nk n).foldl (fips_KeyExpansion_step Nk) w0).getD j []
        = w0.getD j []) ∧
      (∀ i, Nk ≤ i → i < Nk + n →
        ((List.range' Nk n).foldl (fips_KeyExpansion_step Nk) w0).getD i []
          = xorBytes (((List.range' Nk n).foldl (fips_KeyExpansion_step Nk) w0).getD (i - Nk) [])
              (fips_temp Nk ((List.range' Nk n).foldl (fips_KeyExpansion_step Nk) w0) i)) := by
  have hpos : 4 ≤ Nk := by rcases hNk with rfl | rfl | rfl <;> omega
  induction n with
  | zero =>
    refine ⟨by simpa using hw0, fun j _ => by simp, fun i h1 h2 => by omega⟩
  | succ n ih =>
    obtain ⟨hlen, hpre, hrec⟩ := ih
    rw [List.range'_1_concat, List.foldl_append]
    simp only [List.foldl_cons, List.foldl_nil]
    generalize (List.range' Nk n).foldl (fips_KeyExpansion_step Nk) w0 = W at hlen hpre hrec ⊢
    rw [fips_step_eq Nk W (Nk + n) hNk]
    generalize hx : xorBytes (W.getD (Nk + n - Nk) []) (fips_temp Nk W (Nk + n)) = x
    have hold : ∀ j, j < Nk + n → (W ++ [x]).getD j [] = W.getD j [] :=
      fun j hj => List.getD_append _ _ _ _ (by omega)
    refine ⟨by simp [hlen]; omega, fun j hj => by rw [hold j (by omega), hpre j hj], ?_⟩
    intro i h1 h2
    rw [fips_temp_append Nk W x i (by omega) (by omega), hold (i - Nk) (by omega)]
    by_cases hi : i = Nk + n
    · subst hi
      rw [List.getD_append_right _ _ _ _ (by omega), hlen, hx]
      simp
    · rw [hold i (by omega)]
      exact hrec i h1 (by omega)

/-- The FIPS-197 key schedule of a key: `4 * (Nr + 1)` words, the first `Nk` taken from the
key, every later one `w[i - Nk]` combined with `fips_temp`. -/
theorem fips_KeyExpansion_rec (key : List Nat) (Nk Nr : Nat) (hcfg : valid_config Nk Nr) :
    (fips_KeyExpansion key Nk Nr).length = 4 * (Nr + 1) ∧
      (∀ i, i < Nk → (fips_KeyExpansion key Nk Nr).getD i []
        = [key.getD (4 * i) 0, key.getD (4 * i + 1) 0, key.getD (4 * i + 2) 0,
            key.getD (4 * i + 3) 0]) ∧
      (∀ i, Nk ≤ i → i < 4 * (Nr + 1) →
        (fips_KeyExpansion key Nk Nr).getD i []
          = xorBytes ((fips_KeyExpansion key Nk Nr).getD (i - Nk) [])
              (fips_temp Nk (fips_KeyExpansion key Nk Nr) i)) := by
  have hNk : Nk = 4 ∨ Nk = 6 ∨ Nk = 8 := by
    rcases hcfg with ⟨h, _⟩ | ⟨h, _⟩ | ⟨h, _⟩
    · exact Or.inl h
    · exact Or.inr (Or.inl h)
    · exact Or.inr (Or.inr h)
  have hle : Nk ≤ 4 * (Nr + 1) := by
    rcases hcfg with ⟨rfl, rfl⟩ | ⟨rfl, rfl⟩ | ⟨rfl, rfl⟩ <;> omega
  obtain ⟨hlen, hpre, hrec⟩ := fips_fold Nk hNk
    ((List.range Nk).map fun i =>
      [key.getD (4 * i) 0, key.getD (4 * i + 1) 0, key.getD (4 * i + 2) 0,
        key.getD (4 * i + 3) 0]) (by simp) (4 * (Nr + 1) - Nk)
  have e : Nk + (4 * (Nr + 1) - Nk) = 4 * (Nr + 1) := by omega
  rw [e] at hlen hrec
  refine ⟨hlen, ?_, hrec⟩
  intro i hi
  have hmap : ((List.range Nk).map fun i =>
      [key.getD (4 * i) 0, key.getD (4 * i + 1) 0, key.getD (4 * i + 2) 0,
        key.getD (4 * i + 3) 0]).getD i []
      = [key.getD (4 * i) 0, key.getD (4 * i + 1) 0, key.getD (4 * i + 2) 0,
          key.getD (4 * i + 3) 0] := by
    rw [List.getD_eq_getElem _ _ (by simpa using hi)]
    simp
  exact (hpre i hi).trans hmap

/-- The words of the array `erk` written by `expand_key` are the words of the FIPS-197 key
schedule. -/
theorem erk_word_agree (e d : Nat → Nat) (key : List Nat) (hkey : ∀ b ∈ key, b < 256)
    (Nk Nr : Nat) (hcfg : valid_config Nk Nr) (i : Nat) (hi : i < 4 * (Nr + 1)) :
    erk_word (expand_key e d key Nk Nr).2.1 i = (fips_KeyExpansion key Nk Nr).getD i [] := by
  have hagree := expand_key_words_agree key hkey Nk Nr hcfg
  obtain ⟨hrk, hlen, hlt⟩ := round_key_agree _ _ _ hagree (i / 4) (by omega)
  obtain ⟨_, _, hinv⟩ := hagree
  obtain ⟨a0, b0, c0, d0, _, _, _, _, hw0, _⟩ := hinv (4 * (i / 4)) (by omega)
  obtain ⟨a1, b1, c1, d1, _, _, _, _, hw1, _⟩ := hinv (4 * (i / 4) + 1) (by omega)
  obtain ⟨a2, b2, c2, d2, _, _, _, _, hw2, _⟩ := hinv (4 * (i / 4) + 2) (by omega)
  obtain ⟨a3, b3, c3, d3, _, _, _, _, hw3, _⟩ := hinv (4 * (i / 4) + 3) (by omega)
  unfold erk_word
  rw [expand_key_erk _ _ _ _ _ _ (by omega), hrk, _mm_storeu_si128,
    toBytes_ofBytes_16 _ hlen hlt]
  have hi4 : i = 4 * (i / 4) + i % 4 := by omega
  have hr : i % 4 < 4 := Nat.mod_lt _ (by norm_num)
  rw [fips_RoundKey, hw0, hw1, hw2, hw3]
  generalize i / 4 = q at *
  generalize i % 4 = r at *
  subst hi4
  interval_cases r
  · simpa using hw0.symm
  · simpa using hw1.symm
  · simpa using hw2.symm
  · simpa using hw3.symm

/-- Claim C13. For a key of 16, 24 or 32 bytes (`Nk` = 4, 6, 8 and `Nr` = 10, 12, 14), with `s`
the state built by `aesni_ctr_init`: the round keys `erk[0 .. Nr]`, read as `4 * (Nr + 1)`
four-byte words, are the FIPS-197 key schedule of the key. The first `Nk` words are the key
bytes, and every later word `i` is word `i - Nk` combined by exclusive-or with `t`, where `t` is
`SubWord(RotWord(word[i-1])) xor Rcon[i/Nk]` when `i mod Nk = 0`, `SubWord(word[i-1])` when
`Nk = 8` and `i mod Nk = 4`, and `word[i-1]` otherwise. -/
theorem key_expansion_standard (heap : Heap) (g : AESNI_CTR_State) (key : List Nat)
    (initial_counter Nk Nr : Nat)
    (hk : (key.length = 16 ∧ Nk = 4 ∧ Nr = 10) ∨ (key.length = 24 ∧ Nk = 6 ∧ Nr = 12) ∨
      (key.length = 32 ∧ Nk = 8 ∧ Nr = 14))
    (hkey : ∀ b ∈ key, b < 256) :
    ∃ s, (aesni_ctr_init heap (some g) key initial_counter).1 = some s ∧
      (∀ i, i < 4 * (Nr + 1) →
        erk_word s.aes_state.erk i = (fips_KeyExpansion key Nk Nr).getD i []) ∧
      (∀ i, i < Nk →
        erk_word s.aes_state.erk i
          = [key.getD (4 * i) 0, key.getD (4 * i + 1) 0, key.getD (4 * i + 2) 0,
              key.getD (4 * i + 3) 0]) ∧
      (∀ i, Nk ≤ i → i < 4 * (Nr + 1) →
        erk_word s.aes_state.erk i
          = xorBytes (erk_word s.aes_state.erk (i - Nk))
              (if i % Nk = 0 then
                xorBytes (SubWord (RotWord (erk_word s.aes_state.erk (i - 1))))
                  (fips_Rcon (i / Nk))
              else if Nk = 8 ∧ i % Nk = 4 then SubWord (erk_word s.aes_state.erk (i - 1))
              else erk_word s.aes_state.erk (i - 1))) := by
  have hcfg : valid_config Nk Nr := by
    rcases hk with ⟨_, h1, h2⟩ | ⟨_, h1, h2⟩ | ⟨_, h1, h2⟩
    · exact Or.inl ⟨h1, h2⟩
    · exact Or.inr (Or.inl ⟨h1, h2⟩)
    · exact Or.inr (Or.inr ⟨h1, h2⟩)
  have h4 : 4 ≤ Nk ∧ Nk ≤ 4 * (Nr + 1) := by
    rcases hcfg with ⟨rfl, rfl⟩ | ⟨rfl, rfl⟩ | ⟨rfl, rfl⟩ <;> omega
  refine ⟨_, by rw [aesni_ctr_init_ok heap g key initial_counter Nk Nr hk], ?_⟩
  have hw : ∀ i, i < 4 * (Nr + 1) →
      erk_word (expand_key g.aes_state.erk g.aes_state.drk key Nk Nr).2.1 i
        = (fips_KeyExpansion key Nk Nr).getD i [] :=
    fun i hi => erk_word_agree _ _ key hkey Nk Nr hcfg i hi
  obtain ⟨_, hfirst, hrec⟩ := fips_KeyExpansion_rec key Nk Nr hcfg
  refine ⟨hw, fun i hi => by rw [hw i (by omega), hfirst i hi], ?_⟩
  intro i h1 h2
  simp only at hw ⊢
  rw [hw i h2, hw (i - Nk) (by omega), hw (i - 1) (by omega), hrec i h1 h2, fips_temp]

/-- Witness for C13: the 32-byte key `0, 1, .., 31`. -/
theorem key_expansion_standard_witness :
    ∃ s, (aesni_ctr_init ⟨0⟩ (some blank_state) (List.range 32) 0).1 = some s ∧
      (∀ i, i < 4 * (14 + 1) →
        erk_word s.aes_state.erk i = (fips_KeyExpansion (List.range 32) 8 14).getD i []) ∧
      (∀ i, i < 8 →
        erk_word s.aes_state.erk i
          = [(List.range 32).getD (4 * i) 0, (List.range 32).getD (4 * i + 1) 0,
              (List.range 32).getD (4 * i + 2) 0, (List.range 32).getD (4 * i + 3) 0]) ∧
      (∀ i, 8 ≤ i → i < 4 * (14 + 1) →
        erk_word s.aes_state.erk i
          = xorBytes (erk_word s.aes_state.erk (i - 8))
              (if i % 8 = 0 then
                xorBytes (SubWord (RotWord (erk_word s.aes_state.erk (i - 1))))
                  (fips_Rcon (i / 8))
              else if 8 = 8 ∧ i % 8 = 4 then SubWord (erk_word s.aes_state.erk (i - 1))
              else erk_word s.aes_state.erk (i - 1))) :=
  key_expansion_standard ⟨0⟩ blank_state (List.range 32) 0 8 14
    (Or.inr (Or.inr ⟨by decide, rfl, rfl⟩)) (by decide)

/-! ## Where the round constant goes -/

theorem rotr8_bytes (a b c d : Nat) (ha : a < 256) (hb : b < 256) (hc : c < 256)
    (hd : d < 256) : rotr8 (ofBytes [a, b, c, d]) = ofBytes [b, c, d, a] := by
  rw [rotr8, ofBytes_four, ofBytes_four]
  norm_num
  omega

theorem round_constant_lt (idx : Nat) : round_constant idx < 256 := by
  unfold round_constant
  cases hn : idx - 1 with
  | zero => simp
  | succ n => rw [Function.iterate_succ_apply']; exact xtime_lt _

/-- The value returned by `sub_rot` with `subType = 1`, as a computation on the 32-bit value:
rotate right by one byte, substitute all four bytes, exclusive-or the round constant into the
least significant byte. -/
theorem sub_rot_one_value (a b c d idx : Nat) (ha : a < 256) (hb : b < 256) (hc : c < 256)
    (hd : d < 256) (h1 : 1 ≤ idx) (h10 : idx ≤ 10) :
    sub_rot (ofBytes [a, b, c, d]) idx 1
        = sub_word32 (rotr8 (ofBytes [a, b, c, d])) ^^^ round_constant idx ∧
      sub_rot (ofBytes [a, b, c, d]) idx 1
        = ofBytes [sbox b ^^^ round_constant idx, sbox c, sbox d, sbox a] := by
  have hrc := round_constant_lt idx
  have hbytes : toBytes 4 (ofBytes [b, c, d, a]) = [b, c, d, a] :=
    toBytes_ofBytes [b, c, d, a] (four_bytes_lt b c d a hb hc hd ha)
  have hx := ofBytes_xor [sbox b, sbox c, sbox d, sbox a] [round_constant idx, 0, 0, 0] rfl
    (four_bytes_lt _ _ _ _ (sbox_lt b) (sbox_lt c) (sbox_lt d) (sbox_lt a))
    (four_bytes_lt _ _ _ _ hrc (by norm_num) (by norm_num) (by norm_num))
  have hrc0 : ofBytes [round_constant idx, 0, 0, 0] = round_constant idx := by simp [ofBytes]
  have hval : sub_rot (ofBytes [a, b, c, d]) idx 1
      = ofBytes [sbox b ^^^ round_constant idx, sbox c, sbox d, sbox a] := by
    rw [sub_rot_one a b c d idx ha hb hc hd h1 h10]
    simp [xorBytes, SubWord, RotWord, fips_Rcon, round_constant]
  refine ⟨?_, hval⟩
  rw [hval, rotr8_bytes a b c d ha hb hc hd, sub_word32, hbytes]
  rw [hrc0] at hx
  simpa [SubWord, xorBytes] using hx.symm

set_option maxRecDepth 1000000 in
/-- Claim C14, as stated, fails. With the all-zero 16-byte key, at word index `i = 4` the word
`rk[3]` is `0`, so its rotation is `0` whichever way it is rotated; the value `sub_rot` returns is
`0x63636362`, with the round constant `01` in the least significant byte, while the claim's
wording gives `0x62636363`, and `rk[4]` is not `rk[0]` combined with that. -/
theorem round_constant_counterexample :
    (expand_key_words (List.replicate 16 0) 4 10).getD 3 0 = 0 ∧
      sub_rot ((expand_key_words (List.replicate 16 0) 4 10).getD 3 0) (4 / 4) 1 = 0x63636362 ∧
      spec_tmp ((expand_key_words (List.replicate 16 0) 4 10).getD 3 0) (4 / 4) = 0x62636363 ∧
      (expand_key_words (List.replicate 16 0) 4 10).getD 4 0
        ≠ (expand_key_words (List.replicate 16 0) 4 10).getD (4 - 4) 0
            ^^^ spec_tmp ((expand_key_words (List.replicate 16 0) 4 10).getD 3 0) (4 / 4) := by
  decide

/-- Claim C14, amended. In `expand_key`, with each word the 32-bit value loaded little-endian
from four key bytes, for every word index `i` from `Nk` to `4 * (Nr + 1) - 1` with
`i mod Nk = 0`: `rk[i]` is `rk[i - Nk]` combined with the value `tmp = sub_rot(rk[i-1], i/Nk, 1)`,
and `tmp` is obtained from `rk[i-1]` by rotating the 32-bit value right by one byte (its bytes
`[a, b, c, d]` in memory order become `[b, c, d, a]`), substituting all four bytes, and
combining the round constant of round `i / Nk` into the least significant byte. -/
theorem round_constant_placement (key : List Nat) (hkey : ∀ b ∈ key, b < 256) (Nk Nr : Nat)
    (hcfg : valid_config Nk Nr) (i : Nat) (h1 : Nk ≤ i) (h2 : i < 4 * (Nr + 1))
    (h0 : i % Nk = 0) :
    (expand_key_words key Nk Nr).getD i 0
        = (expand_key_words key Nk Nr).getD (i - Nk) 0
            ^^^ sub_rot ((expand_key_words key Nk Nr).getD (i - 1) 0) (i / Nk) 1 ∧
      sub_rot ((expand_key_words key Nk Nr).getD (i - 1) 0) (i / Nk) 1
        = sub_word32 (rotr8 ((expand_key_words key Nk Nr).getD (i - 1) 0))
            ^^^ round_constant (i / Nk) ∧
      round_constant (i / Nk) < 256 ∧
      ∃ a b c d, a < 256 ∧ b < 256 ∧ c < 256 ∧ d < 256 ∧
        (expand_key_words key Nk Nr).getD (i - 1) 0 = ofBytes [a, b, c, d] ∧
        sub_rot ((expand_key_words key Nk Nr).getD (i - 1) 0) (i / Nk) 1
          = ofBytes [sbox b ^^^ round_constant (i / Nk), sbox c, sbox d, sbox a] := by
  have hNk : 4 ≤ Nk := by rcases hcfg with ⟨rfl, _⟩ | ⟨rfl, _⟩ | ⟨rfl, _⟩ <;> omega
  have hidx : 1 ≤ i / Nk ∧ i / Nk ≤ 10 := by
    rcases hcfg with ⟨rfl, rfl⟩ | ⟨rfl, rfl⟩ | ⟨rfl, rfl⟩ <;> omega
  obtain ⟨_, _, hinv⟩ := expand_key_words_agree key hkey Nk Nr hcfg
  obtain ⟨_, _, hrec⟩ := fips_KeyExpansion_rec key Nk Nr hcfg
  obtain ⟨a, b, c, d, ha, hb, hc, hd, hw1, hr1⟩ := hinv (i - 1) (by omega)
  obtain ⟨a', b', c', d', ha', hb', hc', hd', hw2, hr2⟩ := hinv (i - Nk) (by omega)
  obtain ⟨p, q, r, s, _, _, _, _, hw3, hr3⟩ := hinv i h2
  obtain ⟨hv1, hv2⟩ := sub_rot_one_value a b c d (i / Nk) ha hb hc hd hidx.1 hidx.2
  have hrc := round_constant_lt (i / Nk)
  refine ⟨?_, by rw [hr1]; exact hv1, hrc, a, b, c, d, ha, hb, hc, hd, hr1, by rw [hr1]; exact hv2⟩
  have hwi := hrec i h1 h2
  rw [hw3, hw2, fips_temp, if_pos h0, hw1] at hwi
  have hT : xorBytes (SubWord (RotWord [a, b, c, d])) (fips_Rcon (i / Nk))
      = [sbox b ^^^ round_constant (i / Nk), sbox c, sbox d, sbox a] := by
    simp [xorBytes, SubWord, RotWord, fips_Rcon, round_constant]
  rw [hT] at hwi
  rw [hr3, hr2, hr1, hv2, hwi]
  exact (ofBytes_xor [a', b', c', d']
    [sbox b ^^^ round_constant (i / Nk), sbox c, sbox d, sbox a] rfl
    (four_bytes_lt a' b' c' d' ha' hb' hc' hd')
    (four_bytes_lt _ _ _ _ (xor8 (sbox_lt b) hrc) (sbox_lt c) (sbox_lt d) (sbox_lt a))).symm

/-- Witness for C14: the 24-byte key `0, 1, .., 23` and word index 12. -/
theorem round_constant_placement_witness :
    (expand_key_words (List.range 24) 6 12).getD 12 0
        = (expand_key_words (List.range 24) 6 12).getD (12 - 6) 0
            ^^^ sub_rot ((expand_key_words (List.range 24) 6 12).getD (12 - 1) 0) (12 / 6) 1 ∧
      sub_rot ((expand_key_words (List.range 24) 6 12).getD (12 - 1) 0) (12 / 6) 1
        = sub_word32 (rotr8 ((expand_key_words (List.range 24) 6 12).getD (12 - 1) 0))
            ^^^ round_constant (12 / 6) ∧
      round_constant (12 / 6) < 256 ∧
      ∃ a b c d, a < 256 ∧ b < 256 ∧ c < 256 ∧ d < 256 ∧
        (expand_key_words (List.range 24) 6 12).getD (12 - 1) 0 = ofBytes [a, b, c, d] ∧
        sub_rot ((expand_key_words (List.range 24) 6 12).getD (12 - 1) 0) (12 / 6) 1
          = ofBytes [sbox b ^^^ round_constant (12 / 6), sbox c, sbox d, sbox a] :=
  round_constant_placement (List.range 24) (by decide) 6 12 (Or.inr (Or.inl ⟨rfl, rfl⟩)) 12
    (by decide) (by decide) (by decide)

/-! ## The decryption round keys -/

theorem gmul_lt (n c b : Nat) (hb : b < 256) : gmul n c b < 256 := by
  induction n generalizing c b with
  | zero => simp [gmul]
  | succ n ih =>
    unfold gmul
    refine xor8 ?_ (ih _ _ (xtime_lt b))
    split
    · exact hb
    · norm_num

theorem InvMixColumns_length (s : List Nat) : (InvMixColumns s).length = 16 := by
  simp [InvMixColumns]

theorem InvMixColumns_lt (s : List Nat) (h : ∀ b ∈ s, b < 256) :
    ∀ b ∈ InvMixColumns s, b < 256 := by
  intro b hb
  simp only [InvMixColumns, List.mem_map] at hb
  obtain ⟨k, _, rfl⟩ := hb
  exact xor8 (xor8 (xor8 (gmul_lt _ _ _ (getD_lt_256 s h _)) (gmul_lt _ _ _ (getD_lt_256 s h _)))
    (gmul_lt _ _ _ (getD_lt_256 s h _))) (gmul_lt _ _ _ (getD_lt_256 s h _))

/-- The bytes of the register returned by `_mm_aesimc_si128`. -/
theorem aesimc_bytes (a : Nat) :
    _mm_storeu_si128 (_mm_aesimc_si128 a) = InvMixColumns (_mm_storeu_si128 a) := by
  rw [_mm_storeu_si128, _mm_aesimc_si128, _mm_storeu_si128,
    toBytes_ofBytes_16 _ (InvMixColumns_length _) (InvMixColumns_lt _ (mem_toBytes_lt 16 a))]

theorem drk_store (f : Nat → Nat) (d : Nat → Nat) (m k : Nat) :
    (List.range' 1 m).foldl (fun drk i => arr_set drk i (f i)) d k
      = if 1 ≤ k ∧ k < 1 + m then f k else d k := by
  induction m with
  | zero =>
    rw [if_neg (by omega)]
    rfl
  | succ m ih =>
    rw [List.range'_1_concat, List.foldl_append]
    simp only [List.foldl_cons, List.foldl_nil, arr_set]
    by_cases hk : k = 1 + m
    · subst hk
      rw [if_pos rfl, if_pos (by omega)]
    · rw [if_neg hk, ih]
      by_cases h : 1 ≤ k ∧ k < 1 + m
      · rw [if_pos h, if_pos (by omega)]
      · rw [if_neg h, if_neg (by omega)]

/-- The array `drk` written by `expand_key`, in terms of the array `erk` it has written. -/
theorem expand_key_drk (e d : Nat → Nat) (key : List Nat) (Nk Nr : Nat) :
    (expand_key e d key Nk Nr).2.2 0 = (expand_key e d key Nk Nr).2.1 Nr ∧
      (expand_key e d key Nk Nr).2.2 Nr = (expand_key e d key Nk Nr).2.1 0 ∧
      ∀ k, 1 ≤ k → k ≤ Nr - 1 →
        (expand_key e d key Nk Nr).2.2 k
          = _mm_aesimc_si128 ((expand_key e d key Nk Nr).2.1 (Nr - k)) := by
  simp only [expand_key]
  refine ⟨?_, by simp [arr_set], ?_⟩
  · by_cases hN : Nr = 0
    · subst hN
      simp [arr_set]
    · have h0 : ¬ (0 = Nr) := fun h => hN h.symm
      simp only [arr_set, h0, if_false]
      rw [drk_store, if_neg (by omega)]
      simp [arr_set]
  · intro k h1 h2
    have hk : ¬ (k = Nr) := by omega
    simp only [arr_set, hk, if_false]
    rw [drk_store, if_pos (by omega)]

/-- Claim C15. For a key of 16, 24 or 32 bytes, with `s` the state built by `aesni_ctr_init`
(whose key arrays are those written by `expand_key`): `drk[0] = erk[Nr]`, `drk[Nr] = erk[0]`, and
for `1 ≤ k ≤ Nr - 1` the register `drk[k]` is AESIMC of `erk[Nr - k]`, whose sixteen bytes are
`InvMixColumns` of the sixteen bytes of `erk[Nr - k]`. -/
theorem inverse_round_keys (heap : Heap) (g : AESNI_CTR_State) (key : List Nat)
    (initial_counter Nk Nr : Nat)
    (hk : (key.length = 16 ∧ Nk = 4 ∧ Nr = 10) ∨ (key.length = 24 ∧ Nk = 6 ∧ Nr = 12) ∨
      (key.length = 32 ∧ Nk = 8 ∧ Nr = 14)) :
    ∃ s, (aesni_ctr_init heap (some g) key initial_counter).1 = some s ∧
      s.aes_state.drk 0 = s.aes_state.erk Nr ∧
      s.aes_state.drk Nr = s.aes_state.erk 0 ∧
      (∀ k, 1 ≤ k → k ≤ Nr - 1 →
        s.aes_state.drk k = _mm_aesimc_si128 (s.aes_state.erk (Nr - k)) ∧
        _mm_storeu_si128 (s.aes_state.drk k)
          = InvMixColumns (_mm_storeu_si128 (s.aes_state.erk (Nr - k)))) := by
  obtain ⟨h0, hN, hmid⟩ := expand_key_drk g.aes_state.erk g.aes_state.drk key Nk Nr
  refine ⟨_, by rw [aesni_ctr_init_ok heap g key initial_counter Nk Nr hk], h0, hN, ?_⟩
  intro k h1 h2
  refine ⟨hmid k h1 h2, ?_⟩
  simp only
  rw [hmid k h1 h2, aesimc_bytes]

/-- Witness for C15: the 16-byte key `0, 1, .., 15`. -/
theorem inverse_round_keys_witness :
    ∃ s, (aesni_ctr_init ⟨0⟩ (some blank_state) (List.range 16) 0).1 = some s ∧
      s.aes_state.drk 0 = s.aes_state.erk 10 ∧
      s.aes_state.drk 10 = s.aes_state.erk 0 ∧
      (∀ k, 1 ≤ k → k ≤ 10 - 1 →
        s.aes_state.drk k = _mm_aesimc_si128 (s.aes_state.erk (10 - k)) ∧
        _mm_storeu_si128 (s.aes_state.drk k)
          = InvMixColumns (_mm_storeu_si128 (s.aes_state.erk (10 - k)))) :=
  inverse_round_keys ⟨0⟩ blank_state (List.range 16) 0 4 10 (Or.inl ⟨by decide, rfl, rfl⟩)

/-! ## Linearity of multiplication in GF(2^8) and the inverse of `MixColumns` -/

theorem xor_mod_256 (a b : Nat) : (a ^^^ b) % 256 = a % 256 ^^^ b % 256 := by
  have h := byteOf_xor a b 0
  simpa [byteOf] using h

theorem xor_div_128 (a b : Nat) : (a ^^^ b) / 128 = a / 128 ^^^ b / 128 := by
  have e : ∀ x : Nat, x / 128 = x / 2 / 2 / 2 / 2 / 2 / 2 / 2 := fun x => by omega
  rw [e, e a, e b]
  simp only [Nat.xor_div_two]

theorem two_mul_xor (a b : Nat) : 2 * (a ^^^ b) = 2 * a ^^^ 2 * b := by
  apply Nat.eq_of_testBit_eq
  intro j
  have e : ∀ x : Nat, 2 * x = x <<< 1 := fun x => by rw [Nat.shiftLeft_eq]; omega
  rw [e, e a, e b]
  simp only [Nat.testBit_xor, Nat.testBit_shiftLeft]
  cases decide (j ≥ 1) <;> simp

set_option maxRecDepth 100000 in
theorem xtime_eq : ∀ b, b < 256 → xtime b = 2 * b ^^^ 283 * (b / 128) := by
  decide

theorem xtime_mod (b : Nat) : xtime b = xtime (b % 256) := by
  unfold xtime
  rw [Nat.mod_mod]
  have : 2 * (b % 256) % 256 = 2 * b % 256 := by omega
  rw [this]

theorem xtime_xor (a b : Nat) : xtime (a ^^^ b) = xtime a ^^^ xtime b := by
  have ha : a % 256 < 256 := Nat.mod_lt _ (by norm_num)
  have hb : b % 256 < 256 := Nat.mod_lt _ (by norm_num)
  rw [xtime_mod (a ^^^ b), xtime_mod a, xtime_mod b, xor_mod_256,
    xtime_eq _ (xor8 ha hb), xtime_eq _ ha, xtime_eq _ hb, two_mul_xor, xor_div_128]
  have hq : 283 * (a % 256 / 128 ^^^ b % 256 / 128)
      = 283 * (a % 256 / 128) ^^^ 283 * (b % 256 / 128) := by
    have h1 : a % 256 / 128 < 2 := by omega
    have h2 : b % 256 / 128 < 2 := by omega
    generalize a % 256 / 128 = x at h1
    generalize b % 256 / 128 = y at h2
    interval_cases x <;> interval_cases y <;> rfl
  rw [hq]
  ac_rfl

theorem gmul_xor (n c a b : Nat) : gmul n c (a ^^^ b) = gmul n c a ^^^ gmul n c b := by
  induction n generalizing c a b with
  | zero => simp [gmul]
  | succ n ih =>
    simp only [gmul, xtime_xor, ih]
    split
    · ac_rfl
    · simp

set_option maxRecDepth 100000 in
/-- The products of the rows of the `InvMixColumns` matrix with the columns of the `MixColumns`
matrix, one byte at a time: the identity on the diagonal, zero elsewhere. -/
theorem mix_matrix_inverse : ∀ x, x < 256 →
    (gmul 4 0x0e (xtime x) ^^^ gmul 4 0x0b x ^^^ gmul 4 0x0d x ^^^ gmul 4 0x09 (xtime x ^^^ x)
        = x) ∧
      (gmul 4 0x0e (xtime x ^^^ x) ^^^ gmul 4 0x0b (xtime x) ^^^ gmul 4 0x0d x ^^^ gmul 4 0x09 x
        = 0) ∧
      (gmul 4 0x0e x ^^^ gmul 4 0x0b (xtime x ^^^ x) ^^^ gmul 4 0x0d (xtime x) ^^^ gmul 4 0x09 x
        = 0) ∧
      (gmul 4 0x0e x ^^^ gmul 4 0x0b x ^^^ gmul 4 0x0d (xtime x ^^^ x) ^^^ gmul 4 0x09 (xtime x)
        = 0) := by
  decide

/-- One column: `InvMixColumns` undoes `MixColumns`. -/
theorem column_inverse (a0 a1 a2 a3 : Nat) (h0 : a0 < 256) (h1 : a1 < 256) (h2 : a2 < 256)
    (h3 : a3 < 256) :
    gmul 4 0x0e (xtime a0 ^^^ (xtime a1 ^^^ a1) ^^^ a2 ^^^ a3)
      ^^^ gmul 4 0x0b (xtime a1 ^^^ (xtime a2 ^^^ a2) ^^^ a3 ^^^ a0)
      ^^^ gmul 4 0x0d (xtime a2 ^^^ (xtime a3 ^^^ a3) ^^^ a0 ^^^ a1)
      ^^^ gmul 4 0x09 (xtime a3 ^^^ (xtime a0 ^^^ a0) ^^^ a1 ^^^ a2) = a0 := by
  obtain ⟨k0, _, _, _⟩ := mix_matrix_inverse a0 h0
  obtain ⟨_, k1, _, _⟩ := mix_matrix_inverse a1 h1
  obtain ⟨_, _, k2, _⟩ := mix_matrix_inverse a2 h2
  obtain ⟨_, _, _, k3⟩ := mix_matrix_inverse a3 h3
  have key : gmul 4 0x0e (xtime a0 ^^^ (xtime a1 ^^^ a1) ^^^ a2 ^^^ a3)
      ^^^ gmul 4 0x0b (xtime a1 ^^^ (xtime a2 ^^^ a2) ^^^ a3 ^^^ a0)
      ^^^ gmul 4 0x0d (xtime a2 ^^^ (xtime a3 ^^^ a3) ^^^ a0 ^^^ a1)
      ^^^ gmul 4 0x09 (xtime a3 ^^^ (xtime a0 ^^^ a0) ^^^ a1 ^^^ a2)
      = (gmul 4 0x0e (xtime a0) ^^^ gmul 4 0x0b a0 ^^^ gmul 4 0x0d a0
          ^^^ gmul 4 0x09 (xtime a0 ^^^ a0))
        ^^^ (gmul 4 0x0e (xtime a1 ^^^ a1) ^^^ gmul 4 0x0b (xtime a1) ^^^ gmul 4 0x0d a1
          ^^^ gmul 4 0x09 a1)
        ^^^ (gmul 4 0x0e a2 ^^^ gmul 4 0x0b (xtime a2 ^^^ a2) ^^^ gmul 4 0x0d (xtime a2)
          ^^^ gmul 4 0x09 a2)
        ^^^ (gmul 4 0x0e a3 ^^^ gmul 4 0x0b a3 ^^^ gmul 4 0x0d (xtime a3 ^^^ a3)
          ^^^ gmul 4 0x09 (xtime a3)) := by
    simp only [gmul_xor]
    ac_rfl
  rw [key, k0, k1, k2, k3]
  simp

theorem MixColumns_getD (s : List Nat) (k : Nat) (hk : k < 16) :
    (MixColumns s).getD k 0
      = xtime (s.getD (4 * (k / 4) + (k % 4 + 0) % 4) 0)
        ^^^ (xtime (s.getD (4 * (k / 4) + (k % 4 + 1) % 4) 0)
          ^^^ s.getD (4 * (k / 4) + (k % 4 + 1) % 4) 0)
        ^^^ s.getD (4 * (k / 4) + (k % 4 + 2) % 4) 0
        ^^^ s.getD (4 * (k / 4) + (k % 4 + 3) % 4) 0 := by
  rw [List.getD_eq_getElem _ _ (by rw [MixColumns_length]; exact hk)]
  simp [MixColumns]

theorem InvMixColumns_getD (s : List Nat) (k : Nat) (hk : k < 16) :
    (InvMixColumns s).getD k 0
      = gmul 4 0x0e (s.getD (4 * (k / 4) + (k % 4 + 0) % 4) 0)
        ^^^ gmul 4 0x0b (s.getD (4 * (k / 4) + (k % 4 + 1) % 4) 0)
        ^^^ gmul 4 0x0d (s.getD (4 * (k / 4) + (k % 4 + 2) % 4) 0)
        ^^^ gmul 4 0x09 (s.getD (4 * (k / 4) + (k % 4 + 3) % 4) 0) := by
  rw [List.getD_eq_getElem _ _ (by rw [InvMixColumns_length]; exact hk)]
  simp [InvMixColumns]

theorem InvMix_Mix_getD (s : List Nat) (hs : ∀ b ∈ s, b < 256) (k : Nat) (hk : k < 16) :
    (InvMixColumns (MixColumns s)).getD k 0 = s.getD k 0 := by
  have hc := fun a0 a1 a2 a3 => column_inverse (s.getD a0 0) (s.getD a1 0) (s.getD a2 0)
    (s.getD a3 0) (getD_lt_256 s hs _) (getD_lt_256 s hs _) (getD_lt_256 s hs _)
    (getD_lt_256 s hs _)
  rw [InvMixColumns_getD _ k hk]
  interval_cases k <;>
    simp only [Nat.reduceDiv, Nat.reduceMod, Nat.reduceMul, Nat.reduceAdd] <;>
    rw [MixColumns_getD _ _ (by norm_num), MixColumns_getD _ _ (by norm_num),
      MixColumns_getD _ _ (by norm_num), MixColumns_getD _ _ (by norm_num)] <;>
    simp only [Nat.reduceDiv, Nat.reduceMod, Nat.reduceMul, Nat.reduceAdd] <;>
    exact hc _ _ _ _

/-- On a state of sixteen bytes, `InvMixColumns` undoes `MixColumns`. -/
theorem InvMixColumns_MixColumns (s : List Nat) (hlen : s.length = 16)
    (hs : ∀ b ∈ s, b < 256) : InvMixColumns (MixColumns s) = s := by
  apply List.ext_getElem
  · rw [InvMixColumns_length, hlen]
  · intro k h1 h2
    have hk : k < 16 := by rw [← hlen]; exact h2
    have := InvMix_Mix_getD s hs k hk
    rwa [List.getD_eq_getElem _ _ h1, List.getD_eq_getElem _ _ h2] at this

/-! ## The round functions are injective on 128-bit blocks -/

set_option maxRecDepth 100000 in
theorem inv_sbox_sbox : ∀ x, x < 256 → inv_sbox (sbox x) = x := by
  decide

theorem SubBytes_inj (s t : List Nat) (hs : ∀ b ∈ s, b < 256) (ht : ∀ b ∈ t, b < 256)
    (h : SubBytes s = SubBytes t) : s = t := by
  have back : ∀ l : List Nat, (∀ b ∈ l, b < 256) → (SubBytes l).map inv_sbox = l := by
    intro l hl
    rw [SubBytes, List.map_map]
    conv_rhs => rw [← List.map_id l]
    exact List.map_congr_left fun b hb => inv_sbox_sbox b (hl b hb)
  rw [← back s hs, ← back t ht, h]

theorem ShiftRows_getD (s : List Nat) (k : Nat) (hk : k < 16) :
    (ShiftRows s).getD k 0 = s.getD (k % 4 + 4 * ((k / 4 + k % 4) % 4)) 0 := by
  rw [List.getD_eq_getElem _ _ (by rw [ShiftRows_length]; exact hk)]
  simp [ShiftRows]

theorem ShiftRows_inj (s t : List Nat) (hs : s.length = 16) (ht : t.length = 16)
    (h : ShiftRows s = ShiftRows t) : s = t := by
  apply List.ext_getElem
  · rw [hs, ht]
  · intro j h1 h2
    have hj : j < 16 := by rw [← hs]; exact h1
    have hk : 13 * j % 16 < 16 := Nat.mod_lt _ (by norm_num)
    have e : 13 * j % 16 % 4 + 4 * ((13 * j % 16 / 4 + 13 * j % 16 % 4) % 4) = j := by omega
    have hs' := ShiftRows_getD s _ hk
    have ht' := ShiftRows_getD t _ hk
    rw [e] at hs' ht'
    rw [h, ht', List.getD_eq_getElem _ _ h1, List.getD_eq_getElem _ _ h2] at hs'
    exact hs'.symm

theorem MixColumns_inj (s t : List Nat) (hs : s.length = 16) (ht : t.length = 16)
    (hsb : ∀ b ∈ s, b < 256) (htb : ∀ b ∈ t, b < 256) (h : MixColumns s = MixColumns t) :
    s = t := by
  rw [← InvMixColumns_MixColumns s hs hsb, ← InvMixColumns_MixColumns t ht htb, h]

theorem toBytes16_inj (a b : Nat) (ha : a < 2 ^ 128) (hb : b < 2 ^ 128)
    (h : toBytes 16 a = toBytes 16 b) : a = b := by
  have e : (256 : Nat) ^ 16 = 2 ^ 128 := by norm_num
  have h1 := ofBytes_toBytes 16 a
  have h2 := ofBytes_toBytes 16 b
  rw [e, Nat.mod_eq_of_lt ha] at h1
  rw [e, Nat.mod_eq_of_lt hb] at h2
  rw [← h1, ← h2, h]

theorem ofBytes16_inj (s t : List Nat) (hs : s.length = 16) (ht : t.length = 16)
    (hsb : ∀ b ∈ s, b < 256) (htb : ∀ b ∈ t, b < 256) (h : ofBytes s = ofBytes t) : s = t := by
  rw [← toBytes_ofBytes_16 s hs hsb, ← toBytes_ofBytes_16 t ht htb, h]

theorem ofBytes16_lt (s : List Nat) (hs : s.length = 16) (hsb : ∀ b ∈ s, b < 256) :
    ofBytes s < 2 ^ 128 := by
  have h := ofBytes_lt s hsb
  have e : (256 : Nat) ^ 16 = 2 ^ 128 := by norm_num
  rwa [hs, e] at h

theorem SubBytes_length (s : List Nat) : (SubBytes s).length = s.length := by
  simp [SubBytes]

theorem aesenc_lt (a rk : Nat) (hrk : rk < 2 ^ 128) : _mm_aesenc_si128 a rk < 2 ^ 128 :=
  Nat.xor_lt_two_pow
    (ofBytes16_lt _ (MixColumns_length _) (MixColumns_lt _ (SubBytes_lt _))) hrk

theorem aesenc_inj (a b rk : Nat) (ha : a < 2 ^ 128) (hb : b < 2 ^ 128)
    (h : _mm_aesenc_si128 a rk = _mm_aesenc_si128 b rk) : a = b := by
  unfold _mm_aesenc_si128 at h
  have h1 := Nat.xor_left_inj.mp h
  have h2 := ofBytes16_inj _ _ (MixColumns_length _) (MixColumns_length _)
    (MixColumns_lt _ (SubBytes_lt _)) (MixColumns_lt _ (SubBytes_lt _)) h1
  have l1 : ∀ x, (SubBytes (ShiftRows (toBytes 16 x))).length = 16 := fun x => by
    rw [SubBytes_length, ShiftRows_length]
  have h3 := MixColumns_inj _ _ (l1 a) (l1 b) (SubBytes_lt _) (SubBytes_lt _) h2
  have h4 := SubBytes_inj _ _ (ShiftRows_lt _ (mem_toBytes_lt 16 a))
    (ShiftRows_lt _ (mem_toBytes_lt 16 b)) h3
  have h5 := ShiftRows_inj _ _ (length_toBytes 16 a) (length_toBytes 16 b) h4
  exact toBytes16_inj a b ha hb h5

theorem aesenclast_inj (a b rk : Nat) (ha : a < 2 ^ 128) (hb : b < 2 ^ 128)
    (h : _mm_aesenclast_si128 a rk = _mm_aesenclast_si128 b rk) : a = b := by
  unfold _mm_aesenclast_si128 at h
  have h1 := Nat.xor_left_inj.mp h
  have l1 : ∀ x, (SubBytes (ShiftRows (toBytes 16 x))).length = 16 := fun x => by
    rw [SubBytes_length, ShiftRows_length]
  have h3 := ofBytes16_inj _ _ (l1 a) (l1 b) (SubBytes_lt _) (SubBytes_lt _) h1
  have h4 := SubBytes_inj _ _ (ShiftRows_lt _ (mem_toBytes_lt 16 a))
    (ShiftRows_lt _ (mem_toBytes_lt 16 b)) h3
  have h5 := ShiftRows_inj _ _ (length_toBytes 16 a) (length_toBytes 16 b) h4
  exact toBytes16_inj a b ha hb h5

/-- A sequence of AESENC rounds with round keys below `2^128` is injective on 128-bit blocks and
stays within them. -/
theorem rounds_inj (erk : Nat → Nat) (l : List Nat) (hrk : ∀ j ∈ l, erk j < 2 ^ 128)
    (a b : Nat) (ha : a < 2 ^ 128) (hb : b < 2 ^ 128) :
    l.foldl (fun e j => _mm_aesenc_si128 e (erk j)) a < 2 ^ 128 ∧
      (l.foldl (fun e j => _mm_aesenc_si128 e (erk j)) a
          = l.foldl (fun e j => _mm_aesenc_si128 e (erk j)) b → a = b) := by
  induction l generalizing a b with
  | nil => exact ⟨ha, fun h => h⟩
  | cons x xs ih =>
    simp only [List.foldl_cons]
    have hx := hrk x (List.mem_cons_self _ _)
    obtain ⟨hlt, hinj⟩ := ih (fun j hj => hrk j (List.mem_cons_of_mem _ hj))
      (_mm_aesenc_si128 a (erk x)) (_mm_aesenc_si128 b (erk x)) (aesenc_lt a _ hx)
      (aesenc_lt b _ hx)
    exact ⟨hlt, fun h => aesenc_inj a b _ ha hb (hinj h)⟩

/-- The counter block determines the 64-bit counter value. -/
theorem counter_block_inj (c1 c2 : Nat) (h1 : c1 < 2 ^ 64) (h2 : c2 < 2 ^ 64)
    (h : _mm_loadu_si128 (counter_bytes c1) 0 = _mm_loadu_si128 (counter_bytes c2) 0) :
    c1 = c2 := by
  rw [loadu_zero _ (counter_bytes_length c1), loadu_zero _ (counter_bytes_length c2)] at h
  have hb := ofBytes16_inj _ _ (counter_bytes_length c1) (counter_bytes_length c2)
    (counter_bytes_lt c1) (counter_bytes_lt c2) h
  rw [counter_bytes_eq, counter_bytes_eq] at hb
  simp only [List.cons.injEq, true_and, and_true] at hb
  norm_num at h1 h2 hb
  omega

theorem counter_block_lt (c : Nat) : _mm_loadu_si128 (counter_bytes c) 0 < 2 ^ 128 := by
  rw [loadu_zero _ (counter_bytes_length c)]
  exact ofBytes16_lt _ (counter_bytes_length c) (counter_bytes_lt c)

/-- With round keys `erk[0 .. rounds]` below `2^128`, distinct 64-bit counter values give
distinct keystream blocks. -/
theorem encrypted_counter_inj (aes : AESNI_State)
    (hrk : ∀ j, j ≤ aes.rounds → aes.erk j < 2 ^ 128) (c1 c2 : Nat) (h1 : c1 < 2 ^ 64)
    (h2 : c2 < 2 ^ 64) (h : encrypted_counter aes c1 = encrypted_counter aes c2) : c1 = c2 := by
  unfold encrypted_counter at h
  simp only [_mm_xor_si128] at h
  have hx : ∀ c, _mm_loadu_si128 (counter_bytes c) 0 ^^^ aes.erk 0 < 2 ^ 128 :=
    fun c => Nat.xor_lt_two_pow (counter_block_lt c) (hrk 0 (Nat.zero_le _))
  have hmem : ∀ j ∈ List.range' 1 (aes.rounds - 1), aes.erk j < 2 ^ 128 := by
    intro j hj
    have := List.mem_range'_1.mp hj
    exact hrk j (by omega)
  obtain ⟨hlt1, hinj⟩ := rounds_inj aes.erk _ hmem _ _ (hx c1) (hx c2)
  obtain ⟨hlt2, _⟩ := rounds_inj aes.erk _ hmem _ _ (hx c2) (hx c1)
  have e1 := aesenclast_inj _ _ _ hlt1 hlt2 h
  exact counter_block_inj c1 c2 h1 h2 (Nat.xor_left_inj.mp (hinj e1))

/-- Claim C18. For a key of 16, 24 or 32 bytes, with `s` the state built by `aesni_ctr_init`,
and two distinct 64-bit counter values: the two keystream blocks that `aesni_ctr_process` computes
differ. The counter-block encoding is injective, and each round instruction with a fixed round
key is injective on 128-bit blocks (an injective map of a finite set into itself, hence a
bijection). -/
theorem no_keystream_repetition (heap : Heap) (g : AESNI_CTR_State) (key : List Nat)
    (initial_counter c1 c2 : Nat)
    (hk : key.length = 16 ∨ key.length = 24 ∨ key.length = 32) (hkey : ∀ b ∈ key, b < 256)
    (h1 : c1 < 2 ^ 64) (h2 : c2 < 2 ^ 64) (hne : c1 ≠ c2) :
    ∃ s, (aesni_ctr_init heap (some g) key initial_counter).1 = some s ∧
      encrypted_counter s.aes_state c1 ≠ encrypted_counter s.aes_state c2 := by
  have hcfg : ∃ Nk Nr, (key.length = 16 ∧ Nk = 4 ∧ Nr = 10) ∨
      (key.length = 24 ∧ Nk = 6 ∧ Nr = 12) ∨ (key.length = 32 ∧ Nk = 8 ∧ Nr = 14) := by
    rcases hk with h | h | h
    · exact ⟨4, 10, Or.inl ⟨h, rfl, rfl⟩⟩
    · exact ⟨6, 12, Or.inr (Or.inl ⟨h, rfl, rfl⟩)⟩
    · exact ⟨8, 14, Or.inr (Or.inr ⟨h, rfl, rfl⟩)⟩
  obtain ⟨Nk, Nr, hc⟩ := hcfg
  have hvalid : valid_config Nk Nr := by
    rcases hc with ⟨_, a, b⟩ | ⟨_, a, b⟩ | ⟨_, a, b⟩
    · exact Or.inl ⟨a, b⟩
    · exact Or.inr (Or.inl ⟨a, b⟩)
    · exact Or.inr (Or.inr ⟨a, b⟩)
  refine ⟨_, by rw [aesni_ctr_init_ok heap g key initial_counter Nk Nr hc], ?_⟩
  intro h
  apply hne
  refine encrypted_counter_inj _ ?_ c1 c2 h1 h2 h
  intro j hj
  simp only at hj ⊢
  rw [expand_key_erk _ _ _ _ _ _ hj]
  obtain ⟨e, hlen, hlt⟩ := round_key_agree _ _ _
    (expand_key_words_agree key hkey Nk Nr hvalid) j (by omega)
  rw [e]
  exact ofBytes16_lt _ hlen hlt

/-- Witness for C18: the NIST AES-128 key and the counter values 0 and 1. -/
theorem no_keystream_repetition_witness :
    ∃ s, (aesni_ctr_init ⟨0⟩ (some blank_state) nist_key 0).1 = some s ∧
      encrypted_counter s.aes_state 0 ≠ encrypted_counter s.aes_state 1 :=
  no_keystream_repetition ⟨0⟩ blank_state nist_key 0 0 1 (Or.inl (by decide)) (by decide)
    (by norm_num) (by norm_num) (by decide)

/-! ## The calls of `sub_rot` -/

/-- The iteration at word index `i` in terms of the call it makes. -/
theorem expand_key_step_call (Nk : Nat) (rk : List Nat) (i : Nat) :
    expand_key_step Nk rk i
      = rk.set i (rk.getD (i - Nk) 0 ^^^
          match sub_rot_call Nk i with
          | some c => sub_rot (rk.getD (i - 1) 0) c.1 c.2
          | none => rk.getD (i - 1) 0) := by
  unfold expand_key_step sub_rot_call
  split_ifs <;> rfl

/-- The value of `sub_rot` in terms of the case its `switch` selects. -/
theorem sub_rot_switch (w idx subType : Nat) :
    sub_rot w idx subType
      = _mm_cvtsi128_si32
          (if subType ≠ 0 then
            _mm_srli_si128
              (match sub_rot_case idx with
                | some imm => _mm_aeskeygenassist_si128 (_mm_set1_epi32 w) imm
                | none => _mm_set1_epi32 0) 4
          else
            match sub_rot_case idx with
            | some imm => _mm_aeskeygenassist_si128 (_mm_set1_epi32 w) imm
            | none => _mm_set1_epi32 0) := by
  unfold sub_rot sub_rot_case
  split <;> simp

theorem sub_rot_calls_range (Nk Nr : Nat) (hcfg : valid_config Nk Nr) :
    ∀ c ∈ sub_rot_calls Nk Nr, 1 ≤ c.1 ∧ c.1 ≤ 10 ∧ (sub_rot_case c.1).isSome = true := by
  rcases hcfg with ⟨rfl, rfl⟩ | ⟨rfl, rfl⟩ | ⟨rfl, rfl⟩ <;> decide

/-- Claim C20. For each of the parameter pairs `(Nk, Nr)` that `aesni_ctr_init` passes (key
lengths 16, 24, 32), every call `sub_rot(tmp, idx, subType)` that `expand_key` makes has
`1 ≤ idx ≤ 10`, so the `switch` of `sub_rot` selects one of its ten cases: `y` is the result of
`_mm_aeskeygenassist_si128` with that case's immediate and never keeps its all-zero initial
value. -/
theorem sub_rot_index_range (Nk Nr : Nat) (hcfg : valid_config Nk Nr) :
    ∀ c ∈ sub_rot_calls Nk Nr, 1 ≤ c.1 ∧ c.1 ≤ 10 ∧
      ∃ imm, sub_rot_case c.1 = some imm ∧
        ∀ w, sub_rot w c.1 c.2
          = _mm_cvtsi128_si32
              (if c.2 ≠ 0 then
                _mm_srli_si128 (_mm_aeskeygenassist_si128 (_mm_set1_epi32 w) imm) 4
              else _mm_aeskeygenassist_si128 (_mm_set1_epi32 w) imm) := by
  intro c hc
  obtain ⟨h1, h10, hs⟩ := sub_rot_calls_range Nk Nr hcfg c hc
  obtain ⟨imm, himm⟩ := Option.isSome_iff_exists.mp hs
  refine ⟨h1, h10, imm, himm, fun w => ?_⟩
  rw [sub_rot_switch, himm]

/-- Witness for C20: the first call made for a 32-byte key, `sub_rot(tmp, 1, 1)` at `i = 8`. -/
theorem sub_rot_index_range_witness :
    1 ≤ ((1, 1) : Nat × Nat).1 ∧ ((1, 1) : Nat × Nat).1 ≤ 10 ∧
      ∃ imm, sub_rot_case ((1, 1) : Nat × Nat).1 = some imm ∧
        ∀ w, sub_rot w ((1, 1) : Nat × Nat).1 ((1, 1) : Nat × Nat).2
          = _mm_cvtsi128_si32
              (if ((1, 1) : Nat × Nat).2 ≠ 0 then
                _mm_srli_si128 (_mm_aeskeygenassist_si128 (_mm_set1_epi32 w) imm) 4
              else _mm_aeskeygenassist_si128 (_mm_set1_epi32 w) imm) :=
  sub_rot_index_range 8 14 (Or.inr (Or.inr ⟨rfl, rfl⟩)) (1, 1) (by decide)

/-! ## Index safety -/

theorem foldlM_eq_some {α β : Type} (f : α → β → Option α) (g : α → β → α) (l : List β)
    (h : ∀ x ∈ l, ∀ acc, f acc x = some (g acc x)) (init : α) :
    l.foldlM f init = some (l.foldl g init) := by
  induction l generalizing init with
  | nil => rfl
  | cons x xs ih =>
    rw [List.foldlM_cons, h x (List.mem_cons_self _ _)]
    exact ih (fun y hy => h y (List.mem_cons_of_mem _ hy)) _

theorem checked_read_ok (n : Nat) (a : List Nat) (i : Nat) (h : i < n) :
    checked_read n a (i : Int) = some (a.getD i 0) := by
  simp [checked_read, h]

theorem checked_write_ok (n : Nat) (a : List Nat) (i v : Nat) (h : i < n) :
    checked_write n a (i : Int) v = some (a.set i v) := by
  simp [checked_write, h]

theorem checked_get_ok (n : Nat) (a : Nat → Nat) (i : Nat) (h : i < n) :
    checked_get n a (i : Int) = some (a i) := by
  simp [checked_get, h]

theorem checked_set_ok (n : Nat) (a : Nat → Nat) (i v : Nat) (h : i < n) :
    checked_set n a (i : Int) v = some (arr_set a i v) := by
  simp [checked_set, h]

theorem step_checked_ok (Nk : Nat) (rk : List Nat) (i : Nat) (hNk : 1 ≤ Nk) (h1 : Nk ≤ i)
    (h2 : i < 64) : expand_key_step_checked Nk rk i = some (expand_key_step Nk rk i) := by
  have e1 : (i : Int) - 1 = ((i - 1 : Nat) : Int) := by omega
  have e2 : (i : Int) - Nk = ((i - Nk : Nat) : Int) := by omega
  unfold expand_key_step_checked expand_key_step
  rw [e1, e2, checked_read_ok 64 rk (i - 1) (by omega), checked_read_ok 64 rk (i - Nk) (by omega)]
  exact checked_write_ok 64 rk i _ h2

theorem loadu_words_checked_ok (rk : List Nat) (i : Nat) (h : i + 3 < 64) :
    loadu_words_checked rk i = some (loadu_words rk i) := by
  have e1 : (i : Int) + 1 = ((i + 1 : Nat) : Int) := by omega
  have e2 : (i : Int) + 2 = ((i + 2 : Nat) : Int) := by omega
  have e3 : (i : Int) + 3 = ((i + 3 : Nat) : Int) := by omega
  unfold loadu_words_checked loadu_words
  rw [e1, e2, e3, checked_read_ok 64 rk i (by omega), checked_read_ok 64 rk (i + 1) (by omega),
    checked_read_ok 64 rk (i + 2) (by omega), checked_read_ok 64 rk (i + 3) (by omega)]
  rfl

/-- With the parameters that `aesni_ctr_init` passes, no access of `expand_key` is out of
bounds: the checked function returns what `expand_key` returns. -/
theorem expand_key_checked_ok (e d : Nat → Nat) (key : List Nat) (Nk Nr : Nat)
    (hcfg : valid_config Nk Nr) (hlen : key.length = 4 * Nk) :
    expand_key_checked e d key Nk Nr = some (expand_key e d key Nk Nr) := by
  have hb : 4 ≤ Nk ∧ Nk ≤ 8 ∧ 4 * (Nr + 1) ≤ 60 ∧ 2 ≤ Nr ∧ Nr ≤ 14 := by
    rcases hcfg with ⟨rfl, rfl⟩ | ⟨rfl, rfl⟩ | ⟨rfl, rfl⟩ <;> omega
  have hm : (4 * (Nr + 1) + 3) / 4 = Nr + 1 := by omega
  have h1 := foldlM_eq_some
    (fun (rk : List Nat) (i : Nat) => do
      let v ← load_u32_checked key (i * 4)
      checked_write 64 rk i v)
    (fun rk i => rk.set i (load_u32 key (i * 4))) (List.range Nk)
    (by
      intro i hi acc
      have hi' := List.mem_range.mp hi
      have hk : i * 4 + 4 ≤ key.length := by omega
      simp only [load_u32_checked, hk, if_true]
      exact checked_write_ok 64 acc i _ (by omega)) (List.replicate 64 0)
  have h2 := fun rk => foldlM_eq_some (expand_key_step_checked Nk) (expand_key_step Nk)
    (List.range' Nk (4 * (Nr + 1) - Nk))
    (by
      intro i hi acc
      have hi' := List.mem_range'_1.mp hi
      exact step_checked_ok Nk acc i (by omega) hi'.1 (by omega)) rk
  have h3 := fun rk erk => foldlM_eq_some
    (fun (erk : Nat → Nat) (i : Nat) => do
      let v ← loadu_words_checked rk i
      checked_set 15 erk ((i / 4 : Nat) : Int) v)
    (fun erk i => arr_set erk (i / 4) (loadu_words rk i))
    (List.range' 0 (Nr + 1) 4)
    (by
      intro i hi acc
      obtain ⟨q, hq, rfl⟩ := List.mem_range'.mp hi
      simp only [loadu_words_checked_ok rk (0 + 4 * q) (by omega)]
      exact checked_set_ok 15 acc ((0 + 4 * q) / 4) _ (by omega)) erk
  have h4 := fun erk drk => foldlM_eq_some
    (fun (drk : Nat → Nat) (i : Nat) => do
      let v ← checked_get 15 erk ((Nr : Int) - (i : Int))
      checked_set 15 drk (i : Int) (_mm_aesimc_si128 v))
    (fun drk i => arr_set drk i (_mm_aesimc_si128 (erk (Nr - i))))
    (List.range' 1 (Nr - 1))
    (by
      intro i hi acc
      have hi' := List.mem_range'_1.mp hi
      have e5 : (Nr : Int) - i = ((Nr - i : Nat) : Int) := by omega
      simp only [e5, checked_get_ok 15 erk (Nr - i) (by omega)]
      exact checked_set_ok 15 acc i _ (by omega)) drk
  have z : (0 : Int) = ((0 : Nat) : Int) := rfl
  unfold expand_key_checked expand_key expand_key_words expand_key_load
  simp only [Option.bind_eq_bind] at h1 h3 h4
  simp only [hm, Option.bind_eq_bind, h1, Option.some_bind, h2, h3, h4, z,
    checked_get_ok 15 _ Nr (by omega), checked_set_ok 15 _ Nr _ (by omega),
    checked_get_ok 15 _ 0 (by omega), checked_set_ok 15 _ 0 _ (by omega)]
  rfl

theorem encrypted_counter_checked_ok (aes : AESNI_State) (cc : Nat) (h : aes.rounds ≤ 14) :
    encrypted_counter_checked aes cc = some (encrypted_counter aes cc) := by
  have hf := foldlM_eq_some
    (fun (e : Nat) (j : Nat) => do
      let kj ← checked_get 15 aes.erk (j : Int)
      pure (_mm_aesenc_si128 e kj))
    (fun e j => _mm_aesenc_si128 e (aes.erk j)) (List.range' 1 (aes.rounds - 1))
    (by
      intro j hj acc
      have hj' := List.mem_range'_1.mp hj
      simp only [checked_get_ok 15 aes.erk j (by omega)]
      rfl)
  have z : (0 : Int) = ((0 : Nat) : Int) := rfl
  unfold encrypted_counter_checked encrypted_counter
  simp only [Option.bind_eq_bind] at hf
  simp only [Option.bind_eq_bind, z, checked_get_ok 15 aes.erk 0 (by omega), Option.some_bind, hf,
    checked_get_ok 15 aes.erk aes.rounds (by omega)]
  rfl

/-- The checks do reject an out-of-bounds index: one past the end of `erk[15]`, a negative word
index, and a round count of 15. -/
theorem checked_rejects (erk : Nat → Nat) (rk : List Nat) (cc : Nat) :
    checked_get 15 erk 15 = none ∧ checked_read 64 rk (-1) = none ∧
      checked_read 64 rk 64 = none ∧
      encrypted_counter_checked { erk := erk, drk := erk, rounds := 15 } cc = none := by
  refine ⟨by simp [checked_get], by simp [checked_read], by simp [checked_read], ?_⟩
  have h15 : checked_get 15 erk ((15 : Nat) : Int) = none := by simp [checked_get]
  have hf : ∀ (l : List Nat) (e : Nat), (∀ j ∈ l, j < 15) →
      ∃ v, l.foldlM (fun (e : Nat) (j : Nat) => do
        let kj ← checked_get 15 erk (j : Int)
        pure (_mm_aesenc_si128 e kj)) e = some v := by
    intro l e hl
    exact ⟨_, foldlM_eq_some _ (fun e j => _mm_aesenc_si128 e (erk j)) l
      (fun j hj acc => by simp only [checked_get_ok 15 erk j (hl j hj)]; rfl) e⟩
  obtain ⟨v, hv⟩ := hf (List.range' 1 (15 - 1)) (_mm_xor_si128
    (_mm_loadu_si128 (counter_bytes cc) 0) (erk 0))
    (fun j hj => by have := List.mem_range'_1.mp hj; omega)
  have z : (0 : Int) = ((0 : Nat) : Int) := rfl
  unfold encrypted_counter_checked
  simp only [Option.bind_eq_bind] at hv
  simp only [Option.bind_eq_bind, z, checked_get_ok 15 erk 0 (by omega), Option.some_bind, hv, h15,
    Option.none_bind]

/-- Claim C19. For a key of 16, 24 or 32 bytes and the `Nk` and `Nr` that `aesni_ctr_init`
passes, every array access of `expand_key` and of the keystream computation of
`aesni_ctr_process` is in bounds: run with each access to `rk[64]`, `erk[15]`, `drk[15]` and the
key checked, and with the index expressions `i-1`, `i-Nk`, `Nr-i` evaluated as integers so that
an underflow would be caught, both computations complete and return what the unchecked code
returns. -/
theorem index_safety (e d : Nat → Nat) (key : List Nat) (Nk Nr : Nat)
    (hk : (key.length = 16 ∧ Nk = 4 ∧ Nr = 10) ∨ (key.length = 24 ∧ Nk = 6 ∧ Nr = 12) ∨
      (key.length = 32 ∧ Nk = 8 ∧ Nr = 14)) :
    expand_key_checked e d key Nk Nr = some (expand_key e d key Nk Nr) ∧
      ∀ (aes : AESNI_State) (cc : Nat), aes.rounds = Nr →
        encrypted_counter_checked aes cc = some (encrypted_counter aes cc) := by
  have hcfg : valid_config Nk Nr := by
    rcases hk with ⟨_, h1, h2⟩ | ⟨_, h1, h2⟩ | ⟨_, h1, h2⟩
    · exact Or.inl ⟨h1, h2⟩
    · exact Or.inr (Or.inl ⟨h1, h2⟩)
    · exact Or.inr (Or.inr ⟨h1, h2⟩)
  have hlen : key.length = 4 * Nk := by
    rcases hk with ⟨h, rfl, _⟩ | ⟨h, rfl, _⟩ | ⟨h, rfl, _⟩ <;> omega
  have hNr : Nr ≤ 14 := by
    rcases hk with ⟨_, _, rfl⟩ | ⟨_, _, rfl⟩ | ⟨_, _, rfl⟩ <;> omega
  refine ⟨expand_key_checked_ok e d key Nk Nr hcfg hlen, ?_⟩
  intro aes cc hr
  exact encrypted_counter_checked_ok aes cc (by omega)

/-- Witness for C19: the 32-byte key `0, 1, .., 31`, the largest configuration. -/
theorem index_safety_witness :
    expand_key_checked blank_state.aes_state.erk blank_state.aes_state.drk (List.range 32) 8 14
        = some (expand_key blank_state.aes_state.erk blank_state.aes_state.drk
            (List.range 32) 8 14) ∧
      ∀ (aes : AESNI_State) (cc : Nat), aes.rounds = 14 →
        encrypted_counter_checked aes cc = some (encrypted_counter aes cc) :=
  index_safety blank_state.aes_state.erk blank_state.aes_state.drk (List.range 32) 8 14
    (Or.inr (Or.inr ⟨by decide, rfl, rfl⟩))

/-! ## Release -/

/-- Claim C11, as stated, fails. With one block allocated at address 1 and the handle 1: the
first release frees the block, and the second release of the same handle is not a no-op, it calls
`free` on a pointer that is no longer allocated. -/
theorem release_counterexample :
    py_aesni_ctr_cleanup [1] 1 = some [] ∧
      py_aesni_ctr_cleanup [] 1 ≠ some [] ∧
      py_aesni_ctr_cleanup [] 1 = none ∧
      aesni_ctr_cleanup [] 1 = none := by
  decide

/-- Claim C11, amended. Release is a no-op for the `NULL` handle, any number of times. For a
handle obtained from init (a non-null pointer to an allocated block) the first release frees that
block and nothing else; the handle is not reset, so a second release of the same handle reaches
`free` with a pointer that is no longer allocated, which is not a no-op. -/
theorem release_once (live : List Nat) (p : Nat) (hp : p ≠ 0) (hlive : p ∈ live)
    (hnodup : live.Nodup) :
    py_aesni_ctr_cleanup live 0 = some live ∧
      aesni_ctr_cleanup live 0 = some live ∧
      py_aesni_ctr_cleanup live p = some (live.erase p) ∧
      aesni_ctr_cleanup live p = some (live.erase p) ∧
      (∀ q, q ∈ live.erase p ↔ q ∈ live ∧ q ≠ p) ∧
      py_aesni_ctr_cleanup (live.erase p) p = none ∧
      aesni_ctr_cleanup (live.erase p) p = none := by
  have hmem : ∀ q, q ∈ live.erase p ↔ q ∈ live ∧ q ≠ p := by
    intro q
    rw [hnodup.mem_erase_iff]
    exact ⟨fun h => ⟨h.2, h.1⟩, fun h => ⟨h.2, h.1⟩⟩
  have hgone : p ∉ live.erase p := fun h => ((hmem p).mp h).2 rfl
  refine ⟨by simp [py_aesni_ctr_cleanup], by simp [aesni_ctr_cleanup], ?_, ?_, hmem, ?_, ?_⟩
  · simp [py_aesni_ctr_cleanup, aesni_ctr_cleanup, free, hp, hlive]
  · simp [aesni_ctr_cleanup, free, hp, hlive]
  · simp [py_aesni_ctr_cleanup, aesni_ctr_cleanup, free, hp, hgone]
  · simp [aesni_ctr_cleanup, free, hp, hgone]

/-- Witness for C11: two blocks allocated at addresses 8 and 16, the handle 16. -/
theorem release_once_witness :
    py_aesni_ctr_cleanup [8, 16] 0 = some [8, 16] ∧
      aesni_ctr_cleanup [8, 16] 0 = some [8, 16] ∧
      py_aesni_ctr_cleanup [8, 16] 16 = some ([8, 16].erase 16) ∧
      aesni_ctr_cleanup [8, 16] 16 = some ([8, 16].erase 16) ∧
      (∀ q, q ∈ [8, 16].erase 16 ↔ q ∈ [8, 16] ∧ q ≠ 16) ∧
      py_aesni_ctr_cleanup ([8, 16].erase 16) 16 = none ∧
      aesni_ctr_cleanup ([8, 16].erase 16) 16 = none :=
  release_once [8, 16] 16 (by decide) (by decide) (by decide)

end c_aesni
